import Mathlib

/-!
The data synchronisation engine of pgsyncer.

A shallow embedding of `table_sync.go` (strategy selection, chunked range
sync, fingerprinting, diff, change application) and of `data_sync.go` (the
orchestrator with its worker pool, the cleanup of extra tables), together
with theorems about them.

Conventions of the embedding

* A Go `map[string]T` is an association list `List (String × T)` whose keys
  are pairwise different (`GoMap.WF`).  The order of the list is the order in
  which a `range` loop over the map delivers the entries; Go leaves that order
  unspecified, so every theorem holds for every order.
* A Go slice of strings is a `List String`; `append(s, x)` is `s ++ [x]`.
* `int64` values are integers kept in the range `[-2^63, 2^63)` by `wrap64`.
* A database round trip is an explicit outcome handed to the function
  (`Except String _` for queries, `Option String` for the error of a
  statement), and every statement that is sent is recorded in a trace.
* A loop that need not end runs for a bounded number of iterations and
  reports whether it has ended.
* The goroutines of the worker pool are a list of worker states; a run is an
  interleaving of their atomic actions (receive from the table channel, send
  to the error channel, return) chosen by a schedule, and every theorem holds
  for every schedule.
-/

namespace PgSyncer

/-! ## Go maps -/

/-- A Go map with string keys, as the list of its entries in iteration order. -/
abbrev GoMap (β : Type) := List (String × β)

namespace GoMap

/-- The keys of the map, in iteration order. -/
def keys {β : Type} (m : GoMap β) : List String := m.map Prod.fst

/-- The comma-ok lookup `v, ok := m[k]`. -/
def get? {β : Type} : GoMap β → String → Option β
  | [], _ => none
  | (k, v) :: rest, key => if k = key then some v else get? rest key

/-- Well-formed maps hold every key once. -/
def WF {β : Type} (m : GoMap β) : Prop := (keys m).Nodup

instance {β : Type} (m : GoMap β) : Decidable (WF m) := by
  unfold WF; infer_instance

end GoMap

/-! ## The differ (`compareData`) -/

/-- The body of the first loop of `compareData`, for one entry `pk, hash` of
`mainData`: the key is appended to `insert` when the target has no entry, to
`update` when the target's hash differs, and to neither otherwise. -/
def compareMainStep (standinData : GoMap String)
    (acc : List String × List String) (entry : String × String) :
    List String × List String :=
  match GoMap.get? standinData entry.1 with
  | none => (acc.1 ++ [entry.1], acc.2)
  | some stHash => if stHash ≠ entry.2 then (acc.1, acc.2 ++ [entry.1]) else acc

/-- The body of the second loop of `compareData`, for one key of
`standinData`: the key is appended to `del` when the source has no entry. -/
def compareStandinStep (mainData : GoMap String)
    (del : List String) (entry : String × String) : List String :=
  match GoMap.get? mainData entry.1 with
  | none => del ++ [entry.1]
  | some _ => del

/-- Whether the target holds, for the key of `entry`, a fingerprint different
from the one in `entry`. -/
def hashDiffers (standinData : GoMap String) (entry : String × String) : Bool :=
  match GoMap.get? standinData entry.1 with
  | none => false
  | some stHash => decide (stHash ≠ entry.2)

/-- The function `compareData(mainData, standinData)`: the lists
`(insert, update, del)`. -/
def compareData (mainData standinData : GoMap String) :
    List String × List String × List String :=
  let iu := mainData.foldl (compareMainStep standinData) ([], [])
  let del := standinData.foldl (compareStandinStep mainData) []
  (iu.1, iu.2, del)


/-! ## 64-bit integers -/

/-- The value an `int64` holds after an addition or subtraction whose exact
result is `x`: reduction modulo `2^64` into `[-2^63, 2^63)`. -/
def wrap64 (x : Int) : Int := (x + 2 ^ 63) % 2 ^ 64 - 2 ^ 63

/-- The values of type `int64`. -/
def InInt64 (x : Int) : Prop := -(2 : Int) ^ 63 ≤ x ∧ x < 2 ^ 63

instance (x : Int) : Decidable (InInt64 x) := by
  unfold InInt64; infer_instance

/-! ## Configuration (`config.go`) -/

/-- The fields of `Config` read by the data synchronisation. -/
structure Config where
  CleanExtra : Bool
  FDWMode : Bool
  UseUpdatedAt : Bool
  ChunkSize : Int
  Schema : String
  Workers : Int
  deriving Repr

/-! ## Strategy selection (`syncTableData`, `detectPK`) -/

/-- The answers of the system catalog to the two queries of `detectPK`. -/
structure PKCatalog where
  /-- Outcome of the primary-key query: an error of `QueryContext`, or the
  rows it delivers, each with the outcome of its `Scan`. -/
  pkQuery : Except String (List (Except String String))
  /-- Outcome of the `data_type` query for a column. -/
  colType : String → Except String String

/-- The catalog queries `detectPK` sends. -/
inductive CatalogQuery where
  | primaryKey
  | columnType (col : String)
  deriving DecidableEq, Repr

/-- The row loop of `detectPK`: the scanned column names, or `none` when a
`Scan` fails (the function then returns `nil, false`). -/
def scanPKRows : List (Except String String) → Option (List String)
  | [] => some []
  | Except.error _ :: _ => none
  | Except.ok col :: rest => (scanPKRows rest).map (fun cols => col :: cols)

/-- The function `strings.ToLower`, restricted to what it does on ASCII: the
letters `A`..`Z` are mapped to `a`..`z` and every other character is kept.
Go also maps the upper-case letters outside ASCII, which this definition
leaves as they are; the two agree on every ASCII string, and the type names of
`information_schema.columns.data_type` are ASCII: the statements below that
mention `toLower` speak of the code for ASCII type names. -/
def toLower (s : String) : String := String.mk (s.data.map Char.toLower)

/-- The function `strings.Contains(s, substr)`. -/
def containsStr (s substr : String) : Bool :=
  s.data.tails.any (fun t => substr.data.isPrefixOf t)

/-- The function `detectPK`: the primary-key columns, the flag "numeric", and
the catalog queries sent. -/
def detectPK (cat : PKCatalog) : (List String × Bool) × List CatalogQuery :=
  match cat.pkQuery with
  | Except.error _ => (([], false), [CatalogQuery.primaryKey])
  | Except.ok rows =>
    match scanPKRows rows with
    | none => (([], false), [CatalogQuery.primaryKey])
    | some [] => (([], false), [CatalogQuery.primaryKey])
    | some [col] =>
      match cat.colType col with
      | Except.error _ =>
        (([col], false), [CatalogQuery.primaryKey, CatalogQuery.columnType col])
      | Except.ok dataType =>
        (([col], containsStr (toLower dataType) "int"),
          [CatalogQuery.primaryKey, CatalogQuery.columnType col])
    | some pkCols => ((pkCols, false), [CatalogQuery.primaryKey])

/-- The synchronisation strategy `syncTableData` hands the table to. -/
inductive Strategy where
  /-- FDW mode: `return nil` without any work. -/
  | fdwNoop
  /-- The call `syncTableByUpdatedAt(cfg, mainTx, tableName)`. -/
  | byUpdatedAt
  /-- The call `syncTableFullDiff(cfg, mainTx, tableName, pkCols)`. -/
  | fullDiff (pkCols : List String)
  /-- The call `syncTableByChunks(cfg, mainTx, tableName, pkCol)`. -/
  | byChunks (pkCol : String)
  deriving DecidableEq, Repr

/-- The function `syncTableData`: the strategy it delegates to and the
catalog queries it sent before. -/
def syncTableData (cfg : Config) (cat : PKCatalog) : Strategy × List CatalogQuery :=
  if cfg.FDWMode then (Strategy.fdwNoop, [])
  else if cfg.UseUpdatedAt then (Strategy.byUpdatedAt, [])
  else
    let r := detectPK cat
    let pkCols := r.1.1
    let numericPK := r.1.2
    if pkCols.length = 0 then (Strategy.fullDiff [], r.2)
    else if numericPK && pkCols.length = 1 then (Strategy.byChunks (pkCols.headD ""), r.2)
    else (Strategy.fullDiff pkCols, r.2)

/-- The column name a row of the primary-key query delivers; `none` when its
`Scan` fails. -/
def rowColumn : Except String String → Option String
  | Except.ok col => some col
  | Except.error _ => none

/-- What the catalog says about the primary key: the key columns in the order
delivered; `none` when the query or the `Scan` of a row failed. -/
def catalogPK (cat : PKCatalog) : Option (List String) :=
  match cat.pkQuery with
  | Except.error _ => none
  | Except.ok rows =>
    if rows.all (fun r => (rowColumn r).isSome) then some (rows.filterMap rowColumn)
    else none

/-- What the catalog says about the type of the single key column: numeric
when the type lookup succeeds and "int" occurs in the lower-cased type
name. -/
def catalogNumeric (cat : PKCatalog) : Bool :=
  match catalogPK cat with
  | some [col] =>
    (match cat.colType col with
     | Except.error _ => false
     | Except.ok dataType => decide ("int".data <:+: (toLower dataType).data))
  | _ => false

/-! ## Range scan and fingerprinting (`fetchRowsRange`) -/

/-- The assignment `m[k] = v`: the entry of `k` is replaced, or a new entry is
added. -/
def GoMap.set {β : Type} : GoMap β → String → β → GoMap β
  | [], key, val => [(key, val)]
  | (k, v) :: rest, key, val =>
    if k = key then (key, val) :: rest else (k, v) :: GoMap.set rest key val

/-- The index expression `m[k]` on a map of slices: the `nil` slice for a
missing key. -/
def GoMap.rowOf {V : Type} (m : GoMap (List V)) (k : String) : List V :=
  (GoMap.get? m k).getD []

/-- The two functions the fingerprint of a row is built from:
`fmt.Sprintf("%v", v)` and the hex form of `md5.Sum`. -/
structure Fingerprinter (V : Type) where
  render : V → String
  digest : String → String

/-- The body of the column loop of `fetchRowsRange` for column `c` with value
`v`; the state is `(pkVal, sb)`. -/
def fingerprintStep {V : Type} (fp : Fingerprinter V) (pkCol : String)
    (st : String × String) (cv : String × V) : String × String :=
  let s := fp.render cv.2
  let pkVal := if cv.1 = pkCol then s else st.1
  (pkVal, st.2 ++ s ++ "|")

/-- The column loop of `fetchRowsRange` over one scanned row: the rendered
key value and the text handed to the digest. `vals` has one value per
column. -/
def rowKeyAndText {V : Type} (fp : Fingerprinter V) (columns : List String)
    (pkCol : String) (vals : List V) : String × String :=
  (columns.zip vals).foldl (fingerprintStep fp pkCol) ("", "")

/-- The text over the rendered values of a row that `fetchRowsRange` feeds to
the digest: every value followed by the delimiter. -/
def frameText (rendered : List String) : String :=
  rendered.foldl (fun sb s => sb ++ s ++ "|") ""

/-- The characters of `frameText`, over rendered values given as lists of
characters. -/
def frameChars (rendered : List (List Char)) : List Char :=
  rendered.flatMap (fun s => s ++ ['|'])

/-- Outcome of a range query: `QueryContext` fails, or it delivers rows, each
with the outcome of its `Scan`, and `rows.Err()` at the end. -/
inductive QueryOutcome (V : Type) where
  | queryError (err : String)
  | rows (delivered : List (Except String (List V))) (rowsErr : Option String)

/-- The row loop of `fetchRowsRange`; the state is `(dataHash, dataRows)`. -/
def fetchRowsLoop {V : Type} (fp : Fingerprinter V) (columns : List String)
    (pkCol : String) :
    List (Except String (List V)) → GoMap String × GoMap (List V) →
      Except String (GoMap String × GoMap (List V))
  | [], acc => Except.ok acc
  | Except.error e :: _, _ => Except.error e
  | Except.ok vals :: rest, acc =>
    let kt := rowKeyAndText fp columns pkCol vals
    fetchRowsLoop fp columns pkCol rest
      (GoMap.set acc.1 kt.1 (fp.digest kt.2), GoMap.set acc.2 kt.1 vals)

/-- The function `fetchRowsRange`: the maps `pk -> hash` and `pk -> row`. -/
def fetchRowsRange {V : Type} (fp : Fingerprinter V) (columns : List String)
    (pkCol : String) (q : QueryOutcome V) :
    Except String (GoMap String × GoMap (List V)) :=
  match q with
  | QueryOutcome.queryError e => Except.error e
  | QueryOutcome.rows delivered rowsErr =>
    match fetchRowsLoop fp columns pkCol delivered ([], []) with
    | Except.error e => Except.error e
    | Except.ok maps =>
      match rowsErr with
      | some e => Except.error e
      | none => Except.ok maps

/-! ## The change applier (`applyChanges`, `doBatchUpsertTx`) -/

/-- The function `strings.Join`. -/
def joinStr (parts : List String) (sep : String) : String := sep.intercalate parts

/-- The function `quoteColumns`. -/
def quoteColumns (cols : List String) : String :=
  joinStr (cols.map (fun c => "\"" ++ c ++ "\"")) ","

/-- The function `inSlice`. -/
def inSlice (sl : List String) (s : String) : Bool :=
  match sl with
  | [] => false
  | x :: rest => if x = s then true else inSlice rest s

/-- The function `flatten`. -/
def flatten {V : Type} (rowsData : List (List V)) : List V :=
  rowsData.foldl (fun out row => out ++ row) []

/-- The inner loop of `makePlaceholderMatrix`; the state is `(sb, idx)`. -/
def placeholderRow (numCols : Nat) (st : String × Nat) : String × Nat :=
  (List.range numCols).foldl
    (fun st c =>
      let sb := st.1 ++ "$" ++ toString st.2
      let sb := if c + 1 < numCols then sb ++ "," else sb
      (sb, st.2 + 1))
    st

/-- The function `makePlaceholderMatrix`. -/
def makePlaceholderMatrix (numRows numCols : Nat) : String :=
  ((List.range numRows).foldl
    (fun st r =>
      let st := placeholderRow numCols (st.1 ++ "(", st.2)
      let sb := st.1 ++ ")"
      let sb := if r + 1 < numRows then sb ++ "," else sb
      (sb, st.2))
    ("", 1)).1

/-- The text a loop that writes a separator after every piece but the last
has built after `k` of its `n` pieces. -/
def sepPrefix (g : Nat → String) (sep : String) (n k : Nat) : String :=
  if k = 0 then "" else
    if k < n then joinStr ((List.range k).map g) sep ++ sep
    else joinStr ((List.range k).map g) sep

/-- The text of one tuple of placeholders, numbered from `idx`, without its
brackets. -/
def tupleText (numCols idx : Nat) : String :=
  joinStr ((List.range numCols).map (fun c => "$" ++ toString (idx + c))) ","

/-- What `applyChanges` does on the target connection. -/
inductive DbEvent (V : Type) where
  | beginTx (err : Option String)
  | upsert (sql : String) (args : List V) (err : Option String)
  | delete (sql : String) (args : List String) (err : Option String)
  | commit (err : Option String)
  /-- The deferred `tx.Rollback()`. -/
  | rollback
  deriving DecidableEq, Repr

/-- A failed `BeginTx`, a failed upsert or a failed `Commit`. -/
def DbEvent.isFatal {V : Type} : DbEvent V → Bool
  | DbEvent.beginTx (some _) => true
  | DbEvent.upsert _ _ (some _) => true
  | DbEvent.commit (some _) => true
  | _ => false

/-- Whether the event is the DELETE statement. -/
def DbEvent.isDelete {V : Type} : DbEvent V → Bool
  | DbEvent.delete _ _ _ => true
  | _ => false

/-- Whether the event is the upsert statement. -/
def DbEvent.isUpsert {V : Type} : DbEvent V → Bool
  | DbEvent.upsert _ _ _ => true
  | _ => false

/-- Whether the event is the call of `Commit`. -/
def DbEvent.isCommit {V : Type} : DbEvent V → Bool
  | DbEvent.commit _ => true
  | _ => false

/-- The number of bind parameters a statement carries (0 for the events that
are no statement). -/
def DbEvent.bindParams {V : Type} : DbEvent V → Nat
  | DbEvent.upsert _ args _ => args.length
  | DbEvent.delete _ args _ => args.length
  | _ => 0

/-- The error (`none`: success) the target answers to each step of one
`applyChanges` transaction, should the step be reached. -/
structure TxOutcome where
  begin : Option String
  upsert : Option String
  delete : Option String
  commit : Option String

/-- The entries of `updateCols` in `doBatchUpsertTx`. -/
def updateCols (columns pkCols : List String) : List String :=
  columns.foldl
    (fun acc c =>
      if !inSlice pkCols c then acc ++ ["\"" ++ c ++ "\"=EXCLUDED.\"" ++ c ++ "\""] else acc)
    []

/-- The text of the statement built by `doBatchUpsertTx`. -/
def upsertSQL (schema table : String) (columns pkCols : List String) (numRows : Nat) :
    String :=
  "\nINSERT INTO \"" ++ schema ++ "\".\"" ++ table ++ "\" (" ++ quoteColumns columns
    ++ ")\nVALUES " ++ makePlaceholderMatrix numRows columns.length
    ++ "\nON CONFLICT (" ++ quoteColumns pkCols
    ++ ")\nDO UPDATE SET " ++ joinStr (updateCols columns pkCols) ", " ++ "\n"

/-- The function `doBatchUpsertTx`: the error returned and the statement
sent; `execErr` is the answer of the target to the statement. -/
def doBatchUpsertTx {V : Type} (execErr : Option String) (schema table : String)
    (columns pkCols : List String) (rowValues : List (List V)) :
    Option String × List (DbEvent V) :=
  if rowValues.length = 0 then (none, [])
  else
    let upsert := upsertSQL schema table columns pkCols rowValues.length
    let args := flatten rowValues
    (execErr, [DbEvent.upsert upsert args execErr])

/-- The text of the DELETE statement of `applyChanges`. -/
def deleteSQL (schema table pkCol : String) (numKeys : Nat) : String :=
  "DELETE FROM \"" ++ schema ++ "\".\"" ++ table ++ "\" WHERE \"" ++ pkCol ++ "\" IN ("
    ++ joinStr ((List.range numKeys).map (fun i => "$" ++ toString (i + 1))) "," ++ ")"

/-- The function `applyChanges`: the error returned (`none`: success) and
what was done on the target connection, in order. -/
def applyChanges {V : Type} (tx : TxOutcome) (table schema pkCol : String)
    (columns : List String) (toInsert toUpdate toDelete : List String)
    (rowsMain _rowsStandin : GoMap (List V)) : Option String × List (DbEvent V) :=
  match tx.begin with
  | some e => (some e, [DbEvent.beginTx (some e)])
  | none =>
    let upsertRows := toInsert.map (GoMap.rowOf rowsMain) ++ toUpdate.map (GoMap.rowOf rowsMain)
    let up : Option String × List (DbEvent V) :=
      if upsertRows.length > 0 then
        doBatchUpsertTx tx.upsert schema table columns [pkCol] upsertRows
      else (none, [])
    match up.1 with
    | some e => (some e, [DbEvent.beginTx none] ++ up.2 ++ [DbEvent.rollback])
    | none =>
      let del : List (DbEvent V) :=
        if toDelete.length > 0 then
          [DbEvent.delete (deleteSQL schema table pkCol toDelete.length) toDelete tx.delete]
        else []
      match tx.commit with
      | some e =>
        (some e, [DbEvent.beginTx none] ++ up.2 ++ del
          ++ [DbEvent.commit (some e), DbEvent.rollback])
      | none =>
        (none, [DbEvent.beginTx none] ++ up.2 ++ del
          ++ [DbEvent.commit none, DbEvent.rollback])

/-- A target that answers every step of the transaction with success. -/
def okTx : TxOutcome := ⟨none, none, none, none⟩

/-- Ten thousand keys, the default chunk size. -/
def bigKeys : List String := (List.range 10000).map toString

/-- A source row of seven values for every key of `bigKeys`. -/
def bigRows : GoMap (List String) :=
  bigKeys.map (fun k => (k, [k, "a", "b", "c", "d", "e", "f"]))

/-- The seven columns of the rows of `bigRows`. -/
def columns7 : List String := ["id", "c1", "c2", "c3", "c4", "c5", "c6"]

/-- Removal of a key from a table. -/
def GoMap.erase {β : Type} (m : GoMap β) (k : String) : GoMap β :=
  m.filter (fun p => p.1 ≠ k)

/-- The rows of the target after a successful `applyChanges`: the upsert sets
the row of every key of `toInsert` and `toUpdate` to the row `rowsMain` holds
for it, then the delete removes every key of `toDelete`. -/
def applyChangesEffect {V : Type} (toInsert toUpdate toDelete : List String)
    (rowsMain target : GoMap (List V)) : GoMap (List V) :=
  let upserted :=
    (toInsert ++ toUpdate).foldl (fun t k => GoMap.set t k (GoMap.rowOf rowsMain k)) target
  toDelete.foldl (fun t k => GoMap.erase t k) upserted

/-! ## Chunked range sync (`syncTableByChunks`) -/

/-- The `for` statement of `syncTableByChunks`,
`for start := minID; start <= maxID; start += chunkSize`, with the computation
of `end`; `body i start end` is what iteration number `i` does. The result is
what the first `fuel` iterations did, and whether the loop has ended. -/
def chunkFor {E : Type} (body : Nat → Int → Int → List E) (maxID chunkSize : Int) :
    Nat → Nat → Int → List E × Bool
  | 0, _, start => ([], decide (¬ start ≤ maxID))
  | fuel + 1, i, start =>
    if start ≤ maxID then
      let end0 := wrap64 (wrap64 (start + chunkSize) - 1)
      let endID := if end0 > maxID then maxID else end0
      let rest := chunkFor body maxID chunkSize fuel (i + 1) (wrap64 (start + chunkSize))
      (body i start endID ++ rest.1, rest.2)
    else ([], true)

/-- The intervals `[start, end]` the loop of `syncTableByChunks` goes through
in its first `fuel` iterations, and whether the loop has ended. -/
def chunkIntervals (minID maxID chunkSize : Int) (fuel : Nat) : List (Int × Int) × Bool :=
  chunkFor (fun _ start endID => [(start, endID)]) maxID chunkSize fuel 0 minID

/-- The interval number `j` (from 0) of the partition of the key range that
starts at `minID` into closed intervals of `chunkSize` keys, cut at `maxID`. -/
def chunkBounds (minID maxID chunkSize : Int) (j : Nat) : Int × Int :=
  (minID + j * chunkSize, min (minID + j * chunkSize + chunkSize - 1) maxID)

/-- The number of intervals of the partition of `[minID, maxID]`. -/
def chunkCount (minID maxID chunkSize : Int) : Nat :=
  ((maxID - minID) / chunkSize + 1).toNat

/-- The database answers one call of `syncTableByChunks` meets: the column
list, the MIN/MAX row, and for iteration `i` of the loop the two range scans
and the target transaction. -/
structure ChunkEnv (V : Type) where
  columns : Except String (List String)
  minMax : Except String (Int × Int)
  mainScan : Nat → QueryOutcome V
  standinScan : Nat → QueryOutcome V
  tx : Nat → TxOutcome

/-- What one iteration of the loop of `syncTableByChunks` does. -/
inductive ChunkEvent (V : Type) where
  | scanMain (start endID : Int) (err : Option String)
  | scanStandin (start endID : Int) (err : Option String)
  | apply (start endID : Int) (toInsert toUpdate toDelete : List String)
      (db : List (DbEvent V)) (err : Option String)
  deriving DecidableEq, Repr

/-- Whether an event is a call of `applyChanges`. -/
def ChunkEvent.isApply {V : Type} : ChunkEvent V → Bool
  | ChunkEvent.apply _ _ _ _ _ _ _ => true
  | _ => false

/-- The interval of a source scan event. -/
def ChunkEvent.scanMainInterval {V : Type} : ChunkEvent V → Option (Int × Int)
  | ChunkEvent.scanMain start endID _ => some (start, endID)
  | _ => none

/-- The interval of a call of `applyChanges`. -/
def ChunkEvent.applyInterval {V : Type} : ChunkEvent V → Option (Int × Int)
  | ChunkEvent.apply start endID _ _ _ _ _ => some (start, endID)
  | _ => none

/-- The interval of a call of `applyChanges` and the error it returned. -/
def ChunkEvent.applyOutcome {V : Type} : ChunkEvent V → Option (Int × Int × Option String)
  | ChunkEvent.apply start endID _ _ _ _ err => some (start, endID, err)
  | _ => none

/-- The body of the loop of `syncTableByChunks` for iteration `i` on the
interval `[start, endID]`. -/
def chunkBody {V : Type} (fp : Fingerprinter V) (env : ChunkEnv V)
    (tableName schema pkCol : String) (columns : List String)
    (i : Nat) (start endID : Int) : List (ChunkEvent V) :=
  match fetchRowsRange fp columns pkCol (env.mainScan i) with
  | Except.error e => [ChunkEvent.scanMain start endID (some e)]
  | Except.ok (mainData, rowsMain) =>
    match fetchRowsRange fp columns pkCol (env.standinScan i) with
    | Except.error e =>
      [ChunkEvent.scanMain start endID none, ChunkEvent.scanStandin start endID (some e)]
    | Except.ok (standinData, rowsStandin) =>
      let d := compareData mainData standinData
      if d.1.length + d.2.1.length + d.2.2.length = 0 then
        [ChunkEvent.scanMain start endID none, ChunkEvent.scanStandin start endID none]
      else
        let r := applyChanges (env.tx i) tableName schema pkCol columns
          d.1 d.2.1 d.2.2 rowsMain rowsStandin
        [ChunkEvent.scanMain start endID none, ChunkEvent.scanStandin start endID none,
          ChunkEvent.apply start endID d.1 d.2.1 d.2.2 r.2 r.1]

/-- Result of `syncTableByChunks` run for a bounded number of loop
iterations: what was done, and the value returned (`none` while the loop is
still running; `some none` is the return value `nil`). -/
structure SyncResult (V : Type) where
  trace : List (ChunkEvent V)
  returned : Option (Option String)
  deriving DecidableEq, Repr

/-- An environment in which both sides hold the same two-column row with
key 1 for every interval, and a key range from 1 to 3. -/
def sameRowsEnv : ChunkEnv String where
  columns := Except.ok ["id", "v"]
  minMax := Except.ok (1, 3)
  mainScan := fun _ => QueryOutcome.rows [Except.ok ["1", "a"]] none
  standinScan := fun _ => QueryOutcome.rows [Except.ok ["1", "a"]] none
  tx := fun _ => ⟨none, none, none, none⟩

/-- A configuration with chunk size 2, schema `public`, one worker. -/
def chunk2Config : Config where
  CleanExtra := false
  FDWMode := false
  UseUpdatedAt := false
  ChunkSize := 2
  Schema := "public"
  Workers := 1

/-- A fingerprinter that renders a string as itself and "hashes" by the
identity (a digest without collisions). -/
def idFingerprinter : Fingerprinter String := ⟨id, id⟩

/-- Whether iteration `i` has both scans succeed and a non-empty diff. -/
def needsApply {V : Type} (fp : Fingerprinter V) (env : ChunkEnv V) (pkCol : String)
    (columns : List String) (i : Nat) : Bool :=
  match fetchRowsRange fp columns pkCol (env.mainScan i),
    fetchRowsRange fp columns pkCol (env.standinScan i) with
  | Except.ok (mainData, _), Except.ok (standinData, _) =>
    decide ((compareData mainData standinData).1.length
      + (compareData mainData standinData).2.1.length
      + (compareData mainData standinData).2.2.length ≠ 0)
  | _, _ => false

/-- An environment with keys 1 to 6: every interval of two keys has one
source row the target lacks, and the upsert of the second interval fails. -/
def failingEnv : ChunkEnv String where
  columns := Except.ok ["id", "v"]
  minMax := Except.ok (1, 6)
  mainScan := fun i =>
    QueryOutcome.rows [Except.ok [match i with | 0 => "1" | 1 => "3" | _ => "5", "a"]] none
  standinScan := fun _ => QueryOutcome.rows [] none
  tx := fun i => if i = 1 then ⟨none, some "upsert failed", none, none⟩
    else ⟨none, none, none, none⟩

/-- An environment whose key range ends at the largest `int64`; all scans
succeed and find no row. -/
def overflowEnv : ChunkEnv String where
  columns := Except.ok ["id", "v"]
  minMax := Except.ok (2 ^ 63 - 2, 2 ^ 63 - 1)
  mainScan := fun _ => QueryOutcome.rows [] none
  standinScan := fun _ => QueryOutcome.rows [] none
  tx := fun _ => ⟨none, none, none, none⟩

/-- A configuration with chunk size 5, schema `public`, one worker. -/
def chunk5Config : Config where
  CleanExtra := false
  FDWMode := false
  UseUpdatedAt := false
  ChunkSize := 5
  Schema := "public"
  Workers := 1

/-- An environment whose key range, from `2^63 - 10` to `2^63 - 3`, ends
close to the largest `int64`; all scans succeed and find no row. -/
def edgeEnv : ChunkEnv String where
  columns := Except.ok ["id", "v"]
  minMax := Except.ok (2 ^ 63 - 10, 2 ^ 63 - 3)
  mainScan := fun _ => QueryOutcome.rows [] none
  standinScan := fun _ => QueryOutcome.rows [] none
  tx := fun _ => ⟨none, none, none, none⟩

/-- A configuration with chunk size 8, schema `public`, one worker. -/
def chunk8Config : Config where
  CleanExtra := false
  FDWMode := false
  UseUpdatedAt := false
  ChunkSize := 8
  Schema := "public"
  Workers := 1

/-- The function `syncTableByChunks`, its loop run for at most `fuel`
iterations. -/
def syncTableByChunks {V : Type} (fp : Fingerprinter V) (cfg : Config) (env : ChunkEnv V)
    (tableName pkCol : String) (fuel : Nat) : SyncResult V :=
  match env.columns with
  | Except.error e =>
    ⟨[], some (some ("[syncTableByChunks] getTableColumns(" ++ tableName ++ "): " ++ e))⟩
  | Except.ok columns =>
    if columns.length = 0 then ⟨[], some none⟩
    else
      match env.minMax with
      | Except.error e =>
        ⟨[], some (some ("[syncTableByChunks] MIN/MAX " ++ tableName ++ ": " ++ e))⟩
      | Except.ok (minID, maxID) =>
        if maxID < minID then ⟨[], some none⟩
        else
          let r := chunkFor (chunkBody fp env tableName cfg.Schema pkCol columns)
            maxID cfg.ChunkSize fuel 0 minID
          ⟨r.1, if r.2 then some none else none⟩

/-! ## The orchestrator (`SyncData`, `dropExtraTables`) -/

/-- The state of one worker goroutine of `SyncData`. -/
inductive WorkerState where
  /-- At the head of `for tbl := range tableCh`. -/
  | idle
  /-- Inside `syncTableData(cfg, mainTx, tbl)`. -/
  | busy (tbl : String)
  /-- Returned (`wg.Done()` has run). -/
  | exited
  deriving DecidableEq, Repr

/-- Whether the worker has not returned yet. -/
def WorkerState.isLive : WorkerState → Bool
  | WorkerState.exited => false
  | _ => true

/-- The state of the worker pool of `SyncData`. -/
structure PoolState where
  /-- The table names still in `tableCh`. -/
  tableCh : List String
  /-- The workers, worker `i + 1` at index `i`. -/
  workers : List WorkerState
  /-- The errors sent to `errCh`, oldest first. -/
  errCh : List String
  /-- The calls of `syncTableData` made so far: index of the worker and table. -/
  calls : List (Nat × String)
  deriving Repr

/-- One atomic action of worker `w` (index from 0): an idle worker receives
the next table from `tableCh` and calls `syncTableData`, or returns when the
channel is drained; a busy worker gets the result of its call, and on an
error sends it to `errCh` and returns. `tableResult tbl` is what the call of
`syncTableData` for `tbl` comes to: `none` when the call never returns (the
worker then stays inside it), `some none` when it returns `nil`,
`some (some e)` when it returns the error `e`. -/
def poolStep (tableResult : String → Option (Option String)) (s : PoolState) (w : Nat) :
    PoolState :=
  match s.workers[w]? with
  | some WorkerState.idle =>
    match s.tableCh with
    | [] => { s with workers := s.workers.set w WorkerState.exited }
    | tbl :: rest =>
      { s with tableCh := rest, workers := s.workers.set w (WorkerState.busy tbl),
               calls := s.calls ++ [(w, tbl)] }
  | some (WorkerState.busy tbl) =>
    match tableResult tbl with
    | none => s
    | some (some e) =>
      { s with errCh := s.errCh ++ [e], workers := s.workers.set w WorkerState.exited }
    | some none => { s with workers := s.workers.set w WorkerState.idle }
  | _ => s

/-- The first worker that has not returned. -/
def firstLive : List WorkerState → Option Nat
  | [] => none
  | st :: rest => if st.isLive then some 0 else (firstLive rest).map (fun i => i + 1)

/-- The worker that acts next: the one the scheduler prefers when it has not
returned, else the first one that has not; `none` when all have returned. -/
def pickWorker (workers : List WorkerState) (pref : Nat) : Option Nat :=
  match workers[pref]? with
  | some st => if st.isLive then some pref else firstLive workers
  | none => firstLive workers

/-- The worker pool run under the schedule `sched` for at most `fuel` actions:
the state reached, and whether all workers have returned (`wg.Wait()` is
over). -/
def runPool (tableResult : String → Option (Option String)) (sched : Nat → Nat) :
    Nat → Nat → PoolState → PoolState × Bool
  | fuel, n, s =>
    match pickWorker s.workers (sched n) with
    | none => (s, true)
    | some w =>
      match fuel with
      | 0 => (s, false)
      | fuel + 1 => runPool tableResult sched fuel (n + 1) (poolStep tableResult s w)

/-- The weight of a worker in the termination measure of the pool. -/
def WorkerState.weight : WorkerState → Nat
  | WorkerState.idle => 1
  | WorkerState.busy _ => 2
  | WorkerState.exited => 0

/-- The termination measure of the pool. -/
def poolMeasure (s : PoolState) : Nat :=
  3 * s.tableCh.length + (s.workers.map WorkerState.weight).sum

/-- What `SyncData` does, in order. -/
inductive RunEvent where
  | beginTx (err : Option String)
  | listMain (err : Option String)
  | listStandin (err : Option String)
  | dropTable (sql : String) (err : Option String)
  | startWorker (workerID : Nat)
  | syncTable (workerID : Nat) (table : String)
  | commit (err : Option String)
  /-- The deferred `mainTx.Rollback()`. -/
  | rollback
  deriving DecidableEq, Repr

/-- The table of a call of `syncTableData`. -/
def RunEvent.syncCall : RunEvent → Option String
  | RunEvent.syncTable _ table => some table
  | _ => none

/-- Whether the event is the call of `mainTx.Commit()`. -/
def RunEvent.isCommit : RunEvent → Bool
  | RunEvent.commit _ => true
  | _ => false

/-- Whether the event is the start of a worker goroutine. -/
def RunEvent.isStartWorker : RunEvent → Bool
  | RunEvent.startWorker _ => true
  | _ => false

/-- The text of the statement `dropExtraTables` sends for a table. -/
def dropSQL (schema t : String) : String :=
  "DROP TABLE IF EXISTS \"" ++ schema ++ "\".\"" ++ t ++ "\" CASCADE;"

/-- The function `dropExtraTables`: the value returned and the statements
sent; `dropResult t` is the answer of the target to the DROP of table `t`. -/
def dropExtraTables (dropResult : String → Option String)
    (standinTables mainTables : List String) (schema : String) :
    Option String × List RunEvent :=
  let mainSet : GoMap Bool := mainTables.foldl (fun m t => GoMap.set m t true) []
  (none,
    standinTables.foldl
      (fun evs t =>
        if !((GoMap.get? mainSet t).getD false) then
          evs ++ [RunEvent.dropTable (dropSQL schema t) (dropResult t)]
        else evs)
      [])

/-- The database answers and the results of the table synchronisations one
run of `SyncData` meets. -/
structure RunEnv where
  beginTx : Option String
  mainTables : Except String (List String)
  standinTables : Except String (List String)
  dropResult : String → Option String
  /-- What the call of `syncTableData` for a table comes to: `none` when it
  never returns, `some none` for `nil`, `some (some e)` for the error `e`. -/
  tableResult : String → Option (Option String)
  commit : Option String

/-- The number of workers `SyncData` starts. -/
def workerCount (cfg : Config) : Nat :=
  if cfg.Workers < 1 then 1 else cfg.Workers.toNat

/-- Result of `SyncData` with its pool run for a bounded number of actions:
what was done, and the value returned (`none` while the workers are still
running; `some none` is the return value `nil`). -/
structure RunResult where
  events : List RunEvent
  returned : Option (Option String)
  deriving DecidableEq, Repr

/-- The function `SyncData`; the goroutines of the pool run under the
schedule `sched` for at most `fuel` actions. -/
def SyncData (cfg : Config) (env : RunEnv) (sched : Nat → Nat) (fuel : Nat) : RunResult :=
  match env.beginTx with
  | some e => ⟨[RunEvent.beginTx (some e)], some (some ("BeginTx mainDB: " ++ e))⟩
  | none =>
    match env.mainTables with
    | Except.error e =>
      ⟨[RunEvent.beginTx none, RunEvent.listMain (some e), RunEvent.rollback],
        some (some ("listTables(mainDB): " ++ e))⟩
    | Except.ok mainTables =>
      if mainTables.length = 0 then
        match env.commit with
        | some e =>
          ⟨[RunEvent.beginTx none, RunEvent.listMain none, RunEvent.commit (some e),
              RunEvent.rollback],
            some (some ("Commit mainTx (no tables): " ++ e))⟩
        | none =>
          ⟨[RunEvent.beginTx none, RunEvent.listMain none, RunEvent.commit none,
              RunEvent.rollback], some none⟩
      else
        match env.standinTables with
        | Except.error e =>
          ⟨[RunEvent.beginTx none, RunEvent.listMain none, RunEvent.listStandin (some e),
              RunEvent.rollback],
            some (some ("listTables(standinDB): " ++ e))⟩
        | Except.ok standinTables =>
          let drops : Option String × List RunEvent :=
            if cfg.CleanExtra then
              dropExtraTables env.dropResult standinTables mainTables cfg.Schema
            else (none, [])
          match drops.1 with
          | some e =>
            ⟨[RunEvent.beginTx none, RunEvent.listMain none, RunEvent.listStandin none]
              ++ drops.2 ++ [RunEvent.rollback], some (some e)⟩
          | none =>
            let pool := runPool env.tableResult sched fuel 0
              ⟨mainTables, List.replicate (workerCount cfg) WorkerState.idle, [], []⟩
            let evs := [RunEvent.beginTx none, RunEvent.listMain none,
                RunEvent.listStandin none] ++ drops.2
              ++ (List.range (workerCount cfg)).map (fun i => RunEvent.startWorker (i + 1))
              ++ pool.1.calls.map (fun c => RunEvent.syncTable (c.1 + 1) c.2)
            if pool.2 then
              match pool.1.errCh with
              | e :: _ => ⟨evs ++ [RunEvent.rollback], some (some e)⟩
              | [] =>
                match env.commit with
                | some e =>
                  ⟨evs ++ [RunEvent.commit (some e), RunEvent.rollback],
                    some (some ("Commit mainTx: " ++ e))⟩
                | none => ⟨evs ++ [RunEvent.commit none, RunEvent.rollback], some none⟩
            else ⟨evs, none⟩

/-- The DROP statements of the cleanup step of `SyncData`. -/
def cleanupEvents (cfg : Config) (env : RunEnv) (standinTables mainTables : List String) :
    List RunEvent :=
  if cfg.CleanExtra then
    (standinTables.filter (fun t => decide (t ∉ mainTables))).map
      (fun t => RunEvent.dropTable (dropSQL cfg.Schema t) (env.dropResult t))
  else []

/-- The events of `SyncData` up to the end of `wg.Wait()`, for the final
state `pool` of the worker pool. -/
def poolEvents (cfg : Config) (env : RunEnv) (standinTables mainTables : List String)
    (pool : PoolState) : List RunEvent :=
  [RunEvent.beginTx none, RunEvent.listMain none, RunEvent.listStandin none]
    ++ cleanupEvents cfg env standinTables mainTables
    ++ (List.range (workerCount cfg)).map (fun i => RunEvent.startWorker (i + 1))
    ++ pool.calls.map (fun c => RunEvent.syncTable (c.1 + 1) c.2)

/-- The last events of `SyncData` and the value it returns, for the final
state `pool` of the worker pool. -/
def runEnding (env : RunEnv) (pool : PoolState) : List RunEvent × Option String :=
  match pool.errCh with
  | e :: _ => ([RunEvent.rollback], some e)
  | [] =>
    match env.commit with
    | some e => ([RunEvent.commit (some e), RunEvent.rollback], some ("Commit mainTx: " ++ e))
    | none => ([RunEvent.commit none, RunEvent.rollback], none)

/-- The second invariant of the pool, for the table list `tables` it was
started with: the tables handed to `syncTableData` followed by those still in
the channel are `tables`, and a worker has returned only when the channel was
drained or an error was sent. -/
def PoolOrder (tables : List String) (s : PoolState) : Prop :=
  (s.calls.map Prod.snd ++ s.tableCh = tables) ∧
  (∀ st, st ∈ s.workers → st = WorkerState.exited → s.tableCh = [] ∨ s.errCh ≠ [])

/-- A run environment with the one table `a` on both sides, whose
synchronisation succeeds, and a failing commit of the source transaction. -/
def commitFailsEnv : RunEnv where
  beginTx := none
  mainTables := Except.ok ["a"]
  standinTables := Except.ok ["a"]
  dropResult := fun _ => none
  tableResult := fun _ => some none
  commit := some "connection lost"

/-- A run environment with the one table `a` on both sides, whose
synchronisation never returns. -/
def hangEnv : RunEnv where
  beginTx := none
  mainTables := Except.ok ["a"]
  standinTables := Except.ok ["a"]
  dropResult := fun _ => none
  tableResult := fun _ => none
  commit := none

/-- A run environment with source tables `a`, `b`, `c`, target tables `b`,
`x`, `y`, where the synchronisation of `b` fails and the DROP of `x` fails. -/
def threeTablesEnv : RunEnv where
  beginTx := none
  mainTables := Except.ok ["a", "b", "c"]
  standinTables := Except.ok ["b", "x", "y"]
  dropResult := fun t => if t = "x" then some "permission denied" else none
  tableResult := fun t => if t = "b" then some (some "MIN/MAX failed") else some none
  commit := none

/-- A configuration with clean-extra enabled and two workers. -/
def cleanConfig : Config where
  CleanExtra := true
  FDWMode := false
  UseUpdatedAt := false
  ChunkSize := 2
  Schema := "public"
  Workers := 2

/-- The invariant of the pool: every error in `errCh` is the result of a call
made, every call whose result is an error has its error in `errCh` or is
still running, and a busy worker is inside a call that was recorded. -/
def PoolInv (tableResult : String → Option (Option String)) (s : PoolState) : Prop :=
  (∀ e, e ∈ s.errCh → ∃ c, c ∈ s.calls ∧ tableResult c.2 = some (some e)) ∧
  (∀ c e, c ∈ s.calls → tableResult c.2 = some (some e) →
    e ∈ s.errCh ∨ s.workers[c.1]? = some (WorkerState.busy c.2)) ∧
  (∀ w t, s.workers[w]? = some (WorkerState.busy t) → (w, t) ∈ s.calls)

/-- The assignment of the incoming value to column `c` in the DO UPDATE SET
clause. -/
def assignExcluded (c : String) : String :=
  "\"" ++ c ++ "\"=EXCLUDED.\"" ++ c ++ "\""

/-- The catalog type names of the integer types, whose values fit an
`int64`. -/
def isIntegerType (dataType : String) : Bool :=
  decide (dataType ∈ ["smallint", "integer", "bigint"])

/-- The catalog of a table whose primary key is the single column `d` of type
`interval`. -/
def intervalCatalog : PKCatalog where
  pkQuery := Except.ok [Except.ok "d"]
  colType := fun _ => Except.ok "interval"

/-! ### Lemmas on maps -/

theorem GoMap.get?_eq_none_iff {β : Type} (m : GoMap β) (k : String) :
    GoMap.get? m k = none ↔ k ∉ GoMap.keys m := by
  induction m with
  | nil => simp [GoMap.get?, GoMap.keys]
  | cons p rest ih =>
    obtain ⟨a, b⟩ := p
    by_cases h : a = k
    · simp [GoMap.get?, GoMap.keys, h]
    · have h2 : ¬ k = a := fun e => h e.symm
      simp only [GoMap.keys] at ih
      simp [GoMap.get?, GoMap.keys, h, h2, ih]

theorem GoMap.get?_isSome_iff {β : Type} (m : GoMap β) (k : String) :
    (∃ v, GoMap.get? m k = some v) ↔ k ∈ GoMap.keys m := by
  rw [← not_iff_not, ← GoMap.get?_eq_none_iff]
  cases GoMap.get? m k <;> simp

theorem GoMap.get?_of_mem {β : Type} (m : GoMap β) (h : GoMap.WF m)
    (k : String) (v : β) (hm : (k, v) ∈ m) : GoMap.get? m k = some v := by
  induction m with
  | nil => simp at hm
  | cons p rest ih =>
    obtain ⟨a, b⟩ := p
    have hnd : a ∉ GoMap.keys rest ∧ GoMap.WF rest := by
      simpa [GoMap.WF, GoMap.keys] using h
    rcases List.mem_cons.1 hm with heq | hin
    · cases heq; simp [GoMap.get?]
    · have hk : k ∈ GoMap.keys rest := List.mem_map.2 ⟨(k, v), hin, rfl⟩
      have hne : ¬ a = k := fun e => hnd.1 (e ▸ hk)
      simp [GoMap.get?, hne, ih hnd.2 hin]

theorem GoMap.mem_of_get? {β : Type} (m : GoMap β)
    (k : String) (v : β) (hm : GoMap.get? m k = some v) : (k, v) ∈ m := by
  induction m with
  | nil => simp [GoMap.get?] at hm
  | cons p rest ih =>
    obtain ⟨a, b⟩ := p
    by_cases h : a = k
    · simp [GoMap.get?, h] at hm
      simp [h, hm]
    · simp [GoMap.get?, h] at hm
      exact List.mem_cons_of_mem _ (ih hm)

/-! ### The differ -/

theorem compareMain_foldl (sd : GoMap String) (md : GoMap String)
    (acc : List String × List String) :
    md.foldl (compareMainStep sd) acc =
      (acc.1 ++ (md.filter (fun e => (GoMap.get? sd e.1).isNone)).map Prod.fst,
       acc.2 ++ (md.filter (hashDiffers sd)).map Prod.fst) := by
  induction md generalizing acc with
  | nil => simp
  | cons e rest ih =>
    rw [List.foldl_cons, ih]
    unfold compareMainStep
    cases hg : GoMap.get? sd e.1 with
    | none => simp [List.filter_cons, hg, hashDiffers]
    | some sh =>
      by_cases hne : sh = e.2
      · simp [List.filter_cons, hg, hne, hashDiffers]
      · simp [List.filter_cons, hg, hne, hashDiffers]

theorem compareStandin_foldl (md : GoMap String) (sd : GoMap String) (acc : List String) :
    sd.foldl (compareStandinStep md) acc =
      acc ++ (sd.filter (fun e => (GoMap.get? md e.1).isNone)).map Prod.fst := by
  induction sd generalizing acc with
  | nil => simp
  | cons e rest ih =>
    rw [List.foldl_cons, ih]
    unfold compareStandinStep
    cases hg : GoMap.get? md e.1 with
    | none => simp [List.filter_cons, hg]
    | some sh => simp [List.filter_cons, hg]

theorem compareData_insert (md sd : GoMap String) :
    (compareData md sd).1 = (md.filter (fun e => (GoMap.get? sd e.1).isNone)).map Prod.fst := by
  simp [compareData, compareMain_foldl]

theorem compareData_update (md sd : GoMap String) :
    (compareData md sd).2.1 = (md.filter (hashDiffers sd)).map Prod.fst := by
  simp [compareData, compareMain_foldl]

theorem compareData_del (md sd : GoMap String) :
    (compareData md sd).2.2 = (sd.filter (fun e => (GoMap.get? md e.1).isNone)).map Prod.fst := by
  simp [compareData, compareStandin_foldl]

theorem filter_keys_nodup {β : Type} (m : GoMap β) (h : GoMap.WF m) (p : String × β → Bool) :
    ((m.filter p).map Prod.fst).Nodup :=
  List.Nodup.sublist ((List.filter_sublist m).map Prod.fst) h

theorem GoMap.mem_keys_iff {β : Type} (m : GoMap β) (k : String) :
    k ∈ GoMap.keys m ↔ ∃ e, e ∈ m ∧ e.1 = k := by
  simp [GoMap.keys]

theorem mem_insert_iff (md sd : GoMap String) (k : String) :
    k ∈ (compareData md sd).1 ↔ k ∈ GoMap.keys md ∧ k ∉ GoMap.keys sd := by
  rw [compareData_insert, GoMap.mem_keys_iff]
  simp only [List.mem_map, List.mem_filter, Option.isNone_iff_eq_none]
  constructor
  · rintro ⟨e, ⟨hin, hnone⟩, rfl⟩
    exact ⟨⟨e, hin, rfl⟩, (GoMap.get?_eq_none_iff sd e.1).1 hnone⟩
  · rintro ⟨⟨e, hin, rfl⟩, hnot⟩
    exact ⟨e, ⟨hin, (GoMap.get?_eq_none_iff sd e.1).2 hnot⟩, rfl⟩

theorem mem_del_iff (md sd : GoMap String) (k : String) :
    k ∈ (compareData md sd).2.2 ↔ k ∈ GoMap.keys sd ∧ k ∉ GoMap.keys md := by
  rw [compareData_del, GoMap.mem_keys_iff]
  simp only [List.mem_map, List.mem_filter, Option.isNone_iff_eq_none]
  constructor
  · rintro ⟨e, ⟨hin, hnone⟩, rfl⟩
    exact ⟨⟨e, hin, rfl⟩, (GoMap.get?_eq_none_iff md e.1).1 hnone⟩
  · rintro ⟨⟨e, hin, rfl⟩, hnot⟩
    exact ⟨e, ⟨hin, (GoMap.get?_eq_none_iff md e.1).2 hnot⟩, rfl⟩

theorem hashDiffers_iff (sd : GoMap String) (e : String × String) :
    hashDiffers sd e = true ↔ ∃ sh, GoMap.get? sd e.1 = some sh ∧ sh ≠ e.2 := by
  unfold hashDiffers
  cases GoMap.get? sd e.1 <;> simp

theorem mem_update_iff (md sd : GoMap String) (hm : GoMap.WF md) (k : String) :
    k ∈ (compareData md sd).2.1 ↔
      ∃ h sh, GoMap.get? md k = some h ∧ GoMap.get? sd k = some sh ∧ sh ≠ h := by
  rw [compareData_update]
  simp only [List.mem_map, List.mem_filter, hashDiffers_iff]
  constructor
  · rintro ⟨e, ⟨hin, sh, hsh, hne⟩, hk⟩
    subst hk
    exact ⟨e.2, sh, GoMap.get?_of_mem md hm e.1 e.2 hin, hsh, hne⟩
  · rintro ⟨h, sh, hmk, hsk, hne⟩
    exact ⟨(k, h), ⟨GoMap.mem_of_get? md k h hmk, sh, hsk, hne⟩, rfl⟩

/-- C1. Diff correctness: for well-formed fingerprint maps, `compareData`
returns three duplicate-free, pairwise disjoint lists; `insert` holds exactly
the keys of the source absent from the target, `update` exactly the keys
present in both with different fingerprints, `del` exactly the keys of the
target absent from the source; a key with equal fingerprints on both sides is
in none of them. -/
theorem compareData_correct (mainData standinData : GoMap String)
    (hm : GoMap.WF mainData) (hs : GoMap.WF standinData) :
    (compareData mainData standinData).1.Nodup ∧
    (compareData mainData standinData).2.1.Nodup ∧
    (compareData mainData standinData).2.2.Nodup ∧
    List.Disjoint (compareData mainData standinData).1 (compareData mainData standinData).2.1 ∧
    List.Disjoint (compareData mainData standinData).1 (compareData mainData standinData).2.2 ∧
    List.Disjoint (compareData mainData standinData).2.1
      (compareData mainData standinData).2.2 ∧
    (∀ k, k ∈ (compareData mainData standinData).1 ↔
      k ∈ GoMap.keys mainData ∧ k ∉ GoMap.keys standinData) ∧
    (∀ k, k ∈ (compareData mainData standinData).2.1 ↔
      ∃ h sh, GoMap.get? mainData k = some h ∧ GoMap.get? standinData k = some sh ∧ sh ≠ h) ∧
    (∀ k, k ∈ (compareData mainData standinData).2.2 ↔
      k ∈ GoMap.keys standinData ∧ k ∉ GoMap.keys mainData) ∧
    (∀ k h, GoMap.get? mainData k = some h → GoMap.get? standinData k = some h →
      k ∉ (compareData mainData standinData).1 ∧
      k ∉ (compareData mainData standinData).2.1 ∧
      k ∉ (compareData mainData standinData).2.2) := by
  refine ⟨?_, ?_, ?_, ?_, ?_, ?_, mem_insert_iff _ _, mem_update_iff _ _ hm,
    mem_del_iff _ _, ?_⟩
  · rw [compareData_insert]; exact filter_keys_nodup _ hm _
  · rw [compareData_update]; exact filter_keys_nodup _ hm _
  · rw [compareData_del]; exact filter_keys_nodup _ hs _
  · intro k h1 h2
    obtain ⟨_, sh, _, hsk, _⟩ := (mem_update_iff _ _ hm k).1 h2
    exact ((mem_insert_iff _ _ k).1 h1).2 ((GoMap.get?_isSome_iff _ k).1 ⟨sh, hsk⟩)
  · intro k h1 h2
    exact ((mem_insert_iff _ _ k).1 h1).2 ((mem_del_iff _ _ k).1 h2).1
  · intro k h1 h2
    obtain ⟨h, _, hmk, _, _⟩ := (mem_update_iff _ _ hm k).1 h1
    exact ((mem_del_iff _ _ k).1 h2).2 ((GoMap.get?_isSome_iff _ k).1 ⟨h, hmk⟩)
  · intro k h hmk hsk
    refine ⟨?_, ?_, ?_⟩
    · intro hin
      exact ((mem_insert_iff _ _ k).1 hin).2 ((GoMap.get?_isSome_iff _ k).1 ⟨h, hsk⟩)
    · intro hin
      obtain ⟨h', sh, hmk', hsk', hne⟩ := (mem_update_iff _ _ hm k).1 hin
      rw [hmk] at hmk'; rw [hsk] at hsk'
      cases hmk'; cases hsk'; exact hne rfl
    · intro hin
      exact ((mem_del_iff _ _ k).1 hin).2 ((GoMap.get?_isSome_iff _ k).1 ⟨h, hmk⟩)

/-- The scenario of the specification: source keys 1, 2, 3 and target keys
2, 3, 4, key 2 with equal and key 3 with different fingerprints, give
insert = 1, update = 3, delete = 4; `compareData_correct` holds there. -/
theorem compareData_correct_witness :
    compareData [("1", "a"), ("2", "b"), ("3", "c")] [("2", "b"), ("3", "x"), ("4", "d")]
      = (["1"], ["3"], ["4"]) ∧
    (compareData [("1", "a"), ("2", "b"), ("3", "c")]
      [("2", "b"), ("3", "x"), ("4", "d")]).1.Nodup :=
  ⟨by decide,
   (compareData_correct [("1", "a"), ("2", "b"), ("3", "c")]
      [("2", "b"), ("3", "x"), ("4", "d")] (by decide) (by decide)).1⟩

/-! ### Effect of a change set on the target -/

theorem GoMap.get?_set {β : Type} (m : GoMap β) (k : String) (v : β) (key : String) :
    GoMap.get? (GoMap.set m k v) key = if k = key then some v else GoMap.get? m key := by
  induction m with
  | nil => simp [GoMap.set, GoMap.get?]
  | cons p rest ih =>
    obtain ⟨a, b⟩ := p
    by_cases h : a = k
    · subst h
      by_cases h2 : a = key
      · simp [GoMap.set, GoMap.get?, h2]
      · simp [GoMap.set, GoMap.get?, h2]
    · by_cases h2 : a = key
      · subst h2
        have h3 : ¬ k = a := fun e => h e.symm
        simp [GoMap.set, GoMap.get?, h, h3]
      · simp [GoMap.set, GoMap.get?, h, h2, ih]

theorem GoMap.get?_erase {β : Type} (m : GoMap β) (k : String) (key : String) :
    GoMap.get? (GoMap.erase m k) key = if k = key then none else GoMap.get? m key := by
  induction m with
  | nil => simp [GoMap.erase, GoMap.get?]
  | cons p rest ih =>
    obtain ⟨a, b⟩ := p
    unfold GoMap.erase at ih ⊢
    by_cases h : a = k
    · subst h
      by_cases h2 : a = key
      · simp [List.filter_cons, GoMap.get?, h2] at ih ⊢
        simpa [h2] using ih
      · simp [List.filter_cons, GoMap.get?, h2] at ih ⊢
        simpa [h2] using ih
    · by_cases h2 : a = key
      · subst h2
        have h3 : ¬ k = a := fun e => h e.symm
        simp [List.filter_cons, GoMap.get?, h, h3]
      · simp [List.filter_cons, h, GoMap.get?, h2]
        simpa using ih

theorem get?_foldl_set {V : Type} (rowsMain : GoMap (List V)) (ks : List String)
    (target : GoMap (List V)) (key : String) :
    GoMap.get? (ks.foldl (fun t k => GoMap.set t k (GoMap.rowOf rowsMain k)) target) key =
      if key ∈ ks then some (GoMap.rowOf rowsMain key) else GoMap.get? target key := by
  induction ks generalizing target with
  | nil => simp
  | cons k rest ih =>
    rw [List.foldl_cons, ih]
    by_cases h : key ∈ rest
    · simp [h]
    · by_cases h2 : k = key
      · subst h2; simp [h, GoMap.get?_set]
      · have h3 : ¬ key = k := fun e => h2 e.symm
        simp [h, h2, h3, GoMap.get?_set]

theorem get?_foldl_erase {β : Type} (ks : List String) (target : GoMap β) (key : String) :
    GoMap.get? (ks.foldl (fun t k => GoMap.erase t k) target) key =
      if key ∈ ks then none else GoMap.get? target key := by
  induction ks generalizing target with
  | nil => simp
  | cons k rest ih =>
    rw [List.foldl_cons, ih]
    by_cases h : key ∈ rest
    · simp [h]
    · by_cases h2 : k = key
      · subst h2; simp [h, GoMap.get?_erase]
      · have h3 : ¬ key = k := fun e => h2 e.symm
        simp [h, h2, h3, GoMap.get?_erase]

theorem get?_applyChangesEffect {V : Type} (toInsert toUpdate toDelete : List String)
    (rowsMain target : GoMap (List V)) (key : String) :
    GoMap.get? (applyChangesEffect toInsert toUpdate toDelete rowsMain target) key =
      if key ∈ toDelete then none
      else if key ∈ toInsert ∨ key ∈ toUpdate then some (GoMap.rowOf rowsMain key)
      else GoMap.get? target key := by
  unfold applyChangesEffect
  simp only [get?_foldl_erase, get?_foldl_set, List.mem_append]

theorem GoMap.rowOf_of_get? {V : Type} (m : GoMap (List V)) (k : String) (row : List V)
    (h : GoMap.get? m k = some row) : GoMap.rowOf m k = row := by
  simp [GoMap.rowOf, h]

/-- C2. Convergence of one chunk: when the fingerprint map and the row map
of each side have the same keys, applying the change set of `compareData` to
the target rows gives a row map with exactly the keys of the source, in which
every key holds the source's row or an untouched target row whose fingerprint
equals the source's; and when equal fingerprints imply equal rows, the
resulting map holds, for every key, what the source row map holds. -/
theorem chunk_convergence {V : Type} (mainData standinData : GoMap String)
    (rowsMain rowsStandin : GoMap (List V)) (hm : GoMap.WF mainData)
    (hkm : ∀ k, k ∈ GoMap.keys mainData ↔ k ∈ GoMap.keys rowsMain)
    (hks : ∀ k, k ∈ GoMap.keys standinData ↔ k ∈ GoMap.keys rowsStandin) :
    (∀ k, k ∈ GoMap.keys (applyChangesEffect (compareData mainData standinData).1
            (compareData mainData standinData).2.1 (compareData mainData standinData).2.2
            rowsMain rowsStandin) ↔ k ∈ GoMap.keys rowsMain) ∧
    (∀ k, k ∈ GoMap.keys rowsMain →
      GoMap.get? (applyChangesEffect (compareData mainData standinData).1
            (compareData mainData standinData).2.1 (compareData mainData standinData).2.2
            rowsMain rowsStandin) k = GoMap.get? rowsMain k ∨
      (GoMap.get? (applyChangesEffect (compareData mainData standinData).1
            (compareData mainData standinData).2.1 (compareData mainData standinData).2.2
            rowsMain rowsStandin) k = GoMap.get? rowsStandin k ∧
        k ∈ GoMap.keys rowsStandin ∧
        GoMap.get? standinData k = GoMap.get? mainData k)) ∧
    ((∀ k h, GoMap.get? mainData k = some h → GoMap.get? standinData k = some h →
        GoMap.get? rowsStandin k = GoMap.get? rowsMain k) →
      ∀ k, GoMap.get? (applyChangesEffect (compareData mainData standinData).1
            (compareData mainData standinData).2.1 (compareData mainData standinData).2.2
            rowsMain rowsStandin) k = GoMap.get? rowsMain k) := by
  -- the row the result holds for a key, by the list the key is in
  have key_cases : ∀ k,
      GoMap.get? (applyChangesEffect (compareData mainData standinData).1
            (compareData mainData standinData).2.1 (compareData mainData standinData).2.2
            rowsMain rowsStandin) k = GoMap.get? rowsMain k ∨
      (GoMap.get? (applyChangesEffect (compareData mainData standinData).1
            (compareData mainData standinData).2.1 (compareData mainData standinData).2.2
            rowsMain rowsStandin) k = GoMap.get? rowsStandin k ∧
        k ∈ GoMap.keys rowsMain ∧ k ∈ GoMap.keys rowsStandin ∧
        ∃ h, GoMap.get? mainData k = some h ∧ GoMap.get? standinData k = some h) := by
    intro k
    rw [get?_applyChangesEffect]
    by_cases hd : k ∈ (compareData mainData standinData).2.2
    · left
      have hnot : k ∉ GoMap.keys rowsMain :=
        fun hin => ((mem_del_iff _ _ k).1 hd).2 ((hkm k).2 hin)
      simp [hd, (GoMap.get?_eq_none_iff rowsMain k).2 hnot]
    · by_cases hiu : k ∈ (compareData mainData standinData).1 ∨
          k ∈ (compareData mainData standinData).2.1
      · left
        have hin : k ∈ GoMap.keys mainData := by
          rcases hiu with hi | hu
          · exact ((mem_insert_iff _ _ k).1 hi).1
          · obtain ⟨h, _, hmk, _, _⟩ := (mem_update_iff _ _ hm k).1 hu
            exact (GoMap.get?_isSome_iff _ k).1 ⟨h, hmk⟩
        obtain ⟨row, hrow⟩ := (GoMap.get?_isSome_iff rowsMain k).2 ((hkm k).1 hin)
        simp [hd, hiu, hrow, GoMap.rowOf_of_get? rowsMain k row hrow]
      · simp only [hd, hiu, if_false]
        by_cases hin : k ∈ GoMap.keys mainData
        · right
          obtain ⟨h, hmk⟩ := (GoMap.get?_isSome_iff mainData k).2 hin
          have hsin : k ∈ GoMap.keys standinData := by
            by_contra hc
            exact hiu (Or.inl ((mem_insert_iff _ _ k).2 ⟨hin, hc⟩))
          obtain ⟨sh, hsk⟩ := (GoMap.get?_isSome_iff standinData k).2 hsin
          have heq : sh = h := by
            by_contra hc
            exact hiu (Or.inr ((mem_update_iff _ _ hm k).2 ⟨h, sh, hmk, hsk, hc⟩))
          subst heq
          exact ⟨trivial, (hkm k).1 hin, (hks k).1 hsin, sh, hmk, hsk⟩
        · left
          have hsnot : k ∉ GoMap.keys standinData := by
            intro hc
            exact hd ((mem_del_iff _ _ k).2 ⟨hc, hin⟩)
          have h1 : k ∉ GoMap.keys rowsMain := fun hc => hin ((hkm k).2 hc)
          have h2 : k ∉ GoMap.keys rowsStandin := fun hc => hsnot ((hks k).2 hc)
          rw [(GoMap.get?_eq_none_iff rowsMain k).2 h1,
            (GoMap.get?_eq_none_iff rowsStandin k).2 h2]
  refine ⟨?_, ?_, ?_⟩
  · intro k
    rw [← GoMap.get?_isSome_iff, ← GoMap.get?_isSome_iff]
    rcases key_cases k with h | ⟨h, h1, h2, _⟩
    · rw [h]
    · rw [h]
      exact ⟨fun _ => (GoMap.get?_isSome_iff _ k).2 h1,
        fun _ => (GoMap.get?_isSome_iff _ k).2 h2⟩
  · intro k _
    rcases key_cases k with h | ⟨h, _, h2, fpr, hmk, hsk⟩
    · exact Or.inl h
    · exact Or.inr ⟨h, h2, by rw [hmk, hsk]⟩
  · intro hrows k
    rcases key_cases k with h | ⟨h, _, _, fpr, hmk, hsk⟩
    · exact h
    · rw [h]; exact hrows k fpr hmk hsk

/-- The scenario of the specification with rows: source rows for keys 1, 2, 3
and target rows for keys 2, 3, 4 (row 3 differs); after the change set is
applied the target holds the source's row for key 1 and nothing for key 4. -/
theorem chunk_convergence_witness :
    GoMap.WF [("1", "a"), ("2", "b"), ("3", "c")] ∧
    (∀ k, GoMap.get? (applyChangesEffect
        (compareData [("1", "a"), ("2", "b"), ("3", "c")]
          [("2", "b"), ("3", "x"), ("4", "d")]).1
        (compareData [("1", "a"), ("2", "b"), ("3", "c")]
          [("2", "b"), ("3", "x"), ("4", "d")]).2.1
        (compareData [("1", "a"), ("2", "b"), ("3", "c")]
          [("2", "b"), ("3", "x"), ("4", "d")]).2.2
        [("1", [10]), ("2", [20]), ("3", [30])]
        [("2", [20]), ("3", [31]), ("4", [40])]) k
      = GoMap.get? [("1", [10]), ("2", [20]), ("3", [30])] k) ∧
    applyChangesEffect ["1"] ["3"] ["4"] [("1", [10]), ("2", [20]), ("3", [30])]
        [("2", [20]), ("3", [31]), ("4", [40])]
      = [("2", [20]), ("3", [30]), ("1", [10])] :=
  ⟨by decide,
   (chunk_convergence (V := Nat) [("1", "a"), ("2", "b"), ("3", "c")]
      [("2", "b"), ("3", "x"), ("4", "d")]
      [("1", [10]), ("2", [20]), ("3", [30])] [("2", [20]), ("3", [31]), ("4", [40])]
      (by decide) (fun _ => Iff.rfl) (fun _ => Iff.rfl)).2.2
      (by
        intro k h h1 h2
        simp only [GoMap.get?] at h1 h2 ⊢
        split_ifs at h1 h2 ⊢ <;>
          first
          | rfl
          | exact absurd (h1.trans h2.symm) (by decide)),
   by decide⟩

/-! ### Idempotence -/

theorem GoMap.mem_keys_set {β : Type} (m : GoMap β) (k : String) (v : β) (x : String) :
    x ∈ GoMap.keys (GoMap.set m k v) ↔ x = k ∨ x ∈ GoMap.keys m := by
  rw [← GoMap.get?_isSome_iff, ← GoMap.get?_isSome_iff, GoMap.get?_set]
  by_cases h : k = x
  · simp [h]
  · have h2 : ¬ x = k := fun e => h e.symm
    simp [h, h2]

theorem GoMap.WF_set {β : Type} (m : GoMap β) (h : GoMap.WF m) (k : String) (v : β) :
    GoMap.WF (GoMap.set m k v) := by
  induction m with
  | nil => simp [GoMap.set, GoMap.WF, GoMap.keys]
  | cons p rest ih =>
    obtain ⟨a, b⟩ := p
    have hnd : a ∉ GoMap.keys rest ∧ GoMap.WF rest := by
      simpa [GoMap.WF, GoMap.keys] using h
    by_cases hak : a = k
    · subst hak
      simpa [GoMap.set, GoMap.WF, GoMap.keys] using h
    · have h1 : a ∉ GoMap.keys (GoMap.set rest k v) := by
        rw [GoMap.mem_keys_set]
        rintro (h2 | h2)
        · exact hak h2
        · exact hnd.1 h2
      have h2 := ih hnd.2
      simp only [GoMap.set, hak, if_false]
      exact List.nodup_cons.2 ⟨h1, h2⟩

theorem fetchRowsLoop_WF {V : Type} (fp : Fingerprinter V) (columns : List String)
    (pkCol : String) (delivered : List (Except String (List V)))
    (acc res : GoMap String × GoMap (List V)) (hacc : GoMap.WF acc.1)
    (h : fetchRowsLoop fp columns pkCol delivered acc = Except.ok res) : GoMap.WF res.1 := by
  induction delivered generalizing acc with
  | nil =>
    simp only [fetchRowsLoop, Except.ok.injEq] at h
    exact h ▸ hacc
  | cons r rest ih =>
    cases r with
    | error e => simp [fetchRowsLoop] at h
    | ok vals =>
      simp only [fetchRowsLoop] at h
      exact ih _ (GoMap.WF_set _ hacc _ _) h

theorem fetchRowsRange_WF {V : Type} (fp : Fingerprinter V) (columns : List String)
    (pkCol : String) (q : QueryOutcome V) (res : GoMap String × GoMap (List V))
    (h : fetchRowsRange fp columns pkCol q = Except.ok res) : GoMap.WF res.1 := by
  cases q with
  | queryError e => simp [fetchRowsRange] at h
  | rows delivered rowsErr =>
    simp only [fetchRowsRange] at h
    cases hl : fetchRowsLoop fp columns pkCol delivered ([], []) with
    | error e => simp [hl] at h
    | ok maps =>
      cases rowsErr with
      | some e => simp [hl] at h
      | none =>
        simp only [hl, Except.ok.injEq] at h
        subst h
        exact fetchRowsLoop_WF fp columns pkCol delivered ([], []) maps
          (by simp [GoMap.WF, GoMap.keys]) hl

theorem compareData_of_same (md sd : GoMap String) (hm : GoMap.WF md)
    (heq : ∀ k, GoMap.get? md k = GoMap.get? sd k) : compareData md sd = ([], [], []) := by
  have h1 : (compareData md sd).1 = [] := by
    apply List.eq_nil_iff_forall_not_mem.2
    intro k hk
    obtain ⟨hin, hnot⟩ := (mem_insert_iff md sd k).1 hk
    obtain ⟨v, hv⟩ := (GoMap.get?_isSome_iff md k).2 hin
    rw [heq k] at hv
    exact hnot ((GoMap.get?_isSome_iff sd k).1 ⟨v, hv⟩)
  have h2 : (compareData md sd).2.1 = [] := by
    apply List.eq_nil_iff_forall_not_mem.2
    intro k hk
    obtain ⟨h, sh, hmk, hsk, hne⟩ := (mem_update_iff md sd hm k).1 hk
    rw [heq k, hsk] at hmk
    exact hne (Option.some.inj hmk)
  have h3 : (compareData md sd).2.2 = [] := by
    apply List.eq_nil_iff_forall_not_mem.2
    intro k hk
    obtain ⟨hin, hnot⟩ := (mem_del_iff md sd k).1 hk
    obtain ⟨v, hv⟩ := (GoMap.get?_isSome_iff sd k).2 hin
    rw [← heq k] at hv
    exact hnot ((GoMap.get?_isSome_iff md k).1 ⟨v, hv⟩)
  exact Prod.ext h1 (Prod.ext h2 h3)

theorem chunkFor_mem {E : Type} (body : Nat → Int → Int → List E) (maxID chunkSize : Int)
    (fuel i : Nat) (start : Int) (ev : E)
    (h : ev ∈ (chunkFor body maxID chunkSize fuel i start).1) :
    ∃ j s e, ev ∈ body j s e := by
  induction fuel generalizing i start with
  | zero => simp [chunkFor] at h
  | succ n ih =>
    simp only [chunkFor] at h
    split_ifs at h with h1 h2
    · rcases List.mem_append.1 h with h3 | h3
      · exact ⟨_, _, _, h3⟩
      · exact ih _ _ h3
    · rcases List.mem_append.1 h with h3 | h3
      · exact ⟨_, _, _, h3⟩
      · exact ih _ _ h3
    · simp at h

theorem chunkBody_of_same {V : Type} (fp : Fingerprinter V) (env : ChunkEnv V)
    (tableName schema pkCol : String) (columns : List String) (i : Nat) (start endID : Int)
    (md sd : GoMap String) (rm rs : GoMap (List V))
    (h1 : fetchRowsRange fp columns pkCol (env.mainScan i) = Except.ok (md, rm))
    (h2 : fetchRowsRange fp columns pkCol (env.standinScan i) = Except.ok (sd, rs))
    (heq : ∀ k, GoMap.get? md k = GoMap.get? sd k) :
    chunkBody fp env tableName schema pkCol columns i start endID =
      [ChunkEvent.scanMain start endID none, ChunkEvent.scanStandin start endID none] := by
  have hwf : GoMap.WF md := fetchRowsRange_WF fp columns pkCol _ (md, rm) h1
  simp [chunkBody, h1, h2, compareData_of_same md sd hwf heq]

theorem syncTableByChunks_trace_mem {V : Type} (fp : Fingerprinter V) (cfg : Config)
    (env : ChunkEnv V) (tableName pkCol : String) (fuel : Nat) (ev : ChunkEvent V)
    (hev : ev ∈ (syncTableByChunks fp cfg env tableName pkCol fuel).trace) :
    ∃ columns j s e, env.columns = Except.ok columns ∧
      ev ∈ chunkBody fp env tableName cfg.Schema pkCol columns j s e := by
  unfold syncTableByChunks at hev
  cases hc : env.columns with
  | error e => simp [hc] at hev
  | ok columns =>
    simp only [hc] at hev
    by_cases h0 : columns.length = 0
    · simp [h0] at hev
    · cases hmm : env.minMax with
      | error e => simp [h0, hmm] at hev
      | ok mm =>
        obtain ⟨minID, maxID⟩ := mm
        by_cases h1 : maxID < minID
        · simp [h0, hmm, h1] at hev
        · simp only [h0, hmm, h1, if_false] at hev
          obtain ⟨j, s, e, hin⟩ := chunkFor_mem _ _ _ _ _ _ ev hev
          exact ⟨columns, j, s, e, rfl, hin⟩

/-- C3. Idempotence: `compareData m m` is three empty lists; an interval whose
two scans give the same fingerprint for every key does the two scans and
nothing else; and when that holds for every interval, no iteration of
`syncTableByChunks` calls `applyChanges`, however long the loop runs. -/
theorem sync_idempotent {V : Type} (fp : Fingerprinter V) (cfg : Config) (env : ChunkEnv V)
    (tableName pkCol : String) (m : GoMap String) (hm : GoMap.WF m)
    (hsame : ∀ columns i md rm sd rs, env.columns = Except.ok columns →
      fetchRowsRange fp columns pkCol (env.mainScan i) = Except.ok (md, rm) →
      fetchRowsRange fp columns pkCol (env.standinScan i) = Except.ok (sd, rs) →
      ∀ k, GoMap.get? md k = GoMap.get? sd k) :
    compareData m m = ([], [], []) ∧
    (∀ columns i start endID md rm sd rs,
      fetchRowsRange fp columns pkCol (env.mainScan i) = Except.ok (md, rm) →
      fetchRowsRange fp columns pkCol (env.standinScan i) = Except.ok (sd, rs) →
      (∀ k, GoMap.get? md k = GoMap.get? sd k) →
      chunkBody fp env tableName cfg.Schema pkCol columns i start endID =
        [ChunkEvent.scanMain start endID none, ChunkEvent.scanStandin start endID none]) ∧
    (∀ fuel ev, ev ∈ (syncTableByChunks fp cfg env tableName pkCol fuel).trace →
      ChunkEvent.isApply ev = false) := by
  refine ⟨compareData_of_same m m hm (fun _ => rfl), ?_, ?_⟩
  · intro columns i start endID md rm sd rs h1 h2 heq
    exact chunkBody_of_same fp env tableName cfg.Schema pkCol columns i start endID
      md sd rm rs h1 h2 heq
  · intro fuel ev hev
    obtain ⟨columns, j, s, e, hc, hin⟩ :=
      syncTableByChunks_trace_mem fp cfg env tableName pkCol fuel ev hev
    unfold chunkBody at hin
    cases hf1 : fetchRowsRange fp columns pkCol (env.mainScan j) with
    | error e1 =>
      simp only [hf1, List.mem_singleton] at hin
      subst hin; rfl
    | ok r1 =>
      obtain ⟨md, rm⟩ := r1
      cases hf2 : fetchRowsRange fp columns pkCol (env.standinScan j) with
      | error e2 =>
        simp only [hf1, hf2, List.mem_cons, List.mem_singleton, List.not_mem_nil,
          or_false] at hin
        rcases hin with hin | hin <;> (subst hin; rfl)
      | ok r2 =>
        obtain ⟨sd, rs⟩ := r2
        have hwf : GoMap.WF md := fetchRowsRange_WF fp columns pkCol _ (md, rm) hf1
        have hcd := compareData_of_same md sd hwf
          (hsame columns j md rm sd rs hc hf1 hf2)
        simp only [hf1, hf2, hcd, List.length_nil, Nat.add_zero, if_true,
          List.mem_cons, List.mem_singleton, List.not_mem_nil, or_false] at hin
        rcases hin with hin | hin <;> (subst hin; rfl)

/-- A run over three keys in chunks of two where both sides hold the same
rows: the loop ends after two iterations having done four scans and no apply;
`sync_idempotent` holds there. -/
theorem sync_idempotent_witness :
    GoMap.WF [("1", "a"), ("2", "b")] ∧
    compareData [("1", "a"), ("2", "b")] [("1", "a"), ("2", "b")] = ([], [], []) ∧
    syncTableByChunks idFingerprinter chunk2Config sameRowsEnv "t" "id" 5 =
      ⟨[ChunkEvent.scanMain 1 2 none, ChunkEvent.scanStandin 1 2 none,
        ChunkEvent.scanMain 3 3 none, ChunkEvent.scanStandin 3 3 none], some none⟩ ∧
    (∀ fuel ev, ev ∈ (syncTableByChunks idFingerprinter chunk2Config sameRowsEnv
        "t" "id" fuel).trace → ChunkEvent.isApply ev = false) :=
  ⟨by decide, by decide, by decide,
   (sync_idempotent idFingerprinter chunk2Config sameRowsEnv "t" "id"
      [("1", "a"), ("2", "b")] (by decide)
      (fun _ _ _ _ _ _ _ h1 h2 k => by
        have h3 := h1.symm.trans h2
        simp only [Except.ok.injEq, Prod.mk.injEq] at h3
        rw [h3.1])).2.2⟩

/-! ### The chunk loop without overflow -/

theorem wrap64_of_inInt64 (x : Int) (h : InInt64 x) : wrap64 x = x := by
  unfold wrap64 InInt64 at *
  omega

theorem chunkFor_closed {E : Type} (body : Nat → Int → Int → List E)
    (maxID chunkSize : Int) (hcs : 1 ≤ chunkSize) :
    ∀ (n fuel i : Nat) (start : Int), n ≤ fuel → -(2 : Int) ^ 63 ≤ start →
      (∀ j : Nat, j < n → start + j * chunkSize ≤ maxID) → maxID < start + n * chunkSize →
      start + n * chunkSize < 2 ^ 63 →
      chunkFor body maxID chunkSize fuel i start =
        ((List.range n).flatMap
          (fun j => body (i + j) (chunkBounds start maxID chunkSize j).1
            (chunkBounds start maxID chunkSize j).2), true) := by
  intro n
  induction n with
  | zero =>
    intro fuel i start _ _ _ hlt _
    have hnot : ¬ start ≤ maxID := by simp at hlt; omega
    cases fuel with
    | zero => simp [chunkFor, hnot]
    | succ f => simp [chunkFor, hnot]
  | succ n ih =>
    intro fuel i start hfuel hlo hall hlt hS
    have h0 : start ≤ maxID := by simpa using hall 0 (Nat.succ_pos n)
    have hn0 : (0 : Int) ≤ (n : Int) * chunkSize :=
      mul_nonneg (Int.ofNat_nonneg n) (by omega)
    have hS1 : start + chunkSize + (n : Int) * chunkSize < 2 ^ 63 := by
      push_cast at hS; linarith
    cases fuel with
    | zero => omega
    | succ f =>
      have hw1 : wrap64 (start + chunkSize) = start + chunkSize :=
        wrap64_of_inInt64 _ ⟨by omega, by omega⟩
      have hw2 : wrap64 (start + chunkSize - 1) = start + chunkSize - 1 :=
        wrap64_of_inInt64 _ ⟨by omega, by omega⟩
      have hrec := ih f (i + 1) (start + chunkSize) (by omega) (by omega)
        (by
          intro j hj
          have := hall (j + 1) (by omega)
          push_cast at this
          linarith)
        (by push_cast at hlt; linarith) hS1
      have hend : (if start + chunkSize - 1 > maxID then maxID else start + chunkSize - 1)
          = (chunkBounds start maxID chunkSize 0).2 := by
        simp only [chunkBounds, Nat.cast_zero, zero_mul, add_zero]
        split_ifs with hgt
        · exact (min_eq_right (le_of_lt hgt)).symm
        · exact (min_eq_left (by omega)).symm
      simp only [chunkFor, h0, if_true, hw1, hw2, hrec, hend]
      rw [List.range_succ_eq_map, List.flatMap_cons, List.flatMap_map]
      have hshift : ∀ j : Nat, chunkBounds (start + chunkSize) maxID chunkSize j
          = chunkBounds start maxID chunkSize (j + 1) := by
        intro j
        have e : start + chunkSize + (j : Int) * chunkSize
            = start + ((j : Int) + 1) * chunkSize := by ring
        simp only [chunkBounds]
        push_cast
        rw [e]
      have hb0 : (chunkBounds start maxID chunkSize 0).1 = start := by
        simp [chunkBounds]
      simp only [hshift, hb0, Nat.add_zero, Function.comp, Nat.succ_eq_add_one]
      have hidx : ∀ j : Nat, i + 1 + j = i + (j + 1) := fun j => by omega
      simp only [hidx]

theorem chunkCount_spec (minID maxID chunkSize : Int) (hmm : minID ≤ maxID)
    (hcs : 1 ≤ chunkSize) :
    1 ≤ chunkCount minID maxID chunkSize ∧
    ((chunkCount minID maxID chunkSize : Nat) : Int) = (maxID - minID) / chunkSize + 1 ∧
    (∀ j : Nat, j < chunkCount minID maxID chunkSize → minID + j * chunkSize ≤ maxID) ∧
    maxID < minID + (chunkCount minID maxID chunkSize : Nat) * chunkSize := by
  have hq0 : 0 ≤ (maxID - minID) / chunkSize := Int.ediv_nonneg (by omega) (by omega)
  have hq1 : (maxID - minID) / chunkSize * chunkSize ≤ maxID - minID :=
    Int.ediv_mul_le _ (by omega)
  have hq2 : maxID - minID < ((maxID - minID) / chunkSize + 1) * chunkSize :=
    Int.lt_ediv_add_one_mul_self _ (by omega)
  have hn : ((chunkCount minID maxID chunkSize : Nat) : Int)
      = (maxID - minID) / chunkSize + 1 := by
    unfold chunkCount
    exact Int.toNat_of_nonneg (by omega)
  refine ⟨by omega, hn, ?_, ?_⟩
  · intro j hj
    have hj2 : (j : Int) ≤ (maxID - minID) / chunkSize := by omega
    have := Int.mul_le_mul_of_nonneg_right hj2 (by omega : (0 : Int) ≤ chunkSize)
    linarith
  · rw [hn]; linarith

theorem chunkCount_bound (minID maxID chunkSize : Int) (hmm : minID ≤ maxID)
    (hcs : 1 ≤ chunkSize) (hmax : maxID + chunkSize < 2 ^ 63) :
    minID + (chunkCount minID maxID chunkSize : Nat) * chunkSize < 2 ^ 63 := by
  have hq1 : (maxID - minID) / chunkSize * chunkSize ≤ maxID - minID :=
    Int.ediv_mul_le _ (by omega)
  rw [(chunkCount_spec minID maxID chunkSize hmm hcs).2.1]
  linarith

theorem chunkIntervals_closed (minID maxID chunkSize : Int) (fuel : Nat)
    (hmm : minID ≤ maxID) (hcs : 1 ≤ chunkSize) (hmin : -(2 : Int) ^ 63 ≤ minID)
    (hmax : maxID + chunkSize < 2 ^ 63)
    (hfuel : chunkCount minID maxID chunkSize ≤ fuel) :
    chunkIntervals minID maxID chunkSize fuel =
      ((List.range (chunkCount minID maxID chunkSize)).map
        (chunkBounds minID maxID chunkSize), true) := by
  obtain ⟨_, _, hall, hlt⟩ := chunkCount_spec minID maxID chunkSize hmm hcs
  unfold chunkIntervals
  rw [chunkFor_closed _ maxID chunkSize hcs _ fuel 0 minID hfuel hmin hall hlt
    (chunkCount_bound minID maxID chunkSize hmm hcs hmax)]
  congr 1
  generalize List.range (chunkCount minID maxID chunkSize) = l
  induction l with
  | nil => rfl
  | cons a rest ih => simp [List.flatMap_cons, ih]

theorem getElem?_range_map {α : Type} (f : Nat → α) (n j : Nat) :
    ((List.range n).map f)[j]? = if j < n then some (f j) else none := by
  by_cases h : j < n
  · simp [h, List.getElem?_range]
  · simp [h, List.getElem?_eq_none]
    omega

theorem chunkBounds_unique (minID maxID chunkSize : Int) (hcs : 1 ≤ chunkSize) (k : Int)
    (j1 j2 : Nat)
    (h1 : (chunkBounds minID maxID chunkSize j1).1 ≤ k ∧ k ≤ (chunkBounds minID maxID chunkSize j1).2)
    (h2 : (chunkBounds minID maxID chunkSize j2).1 ≤ k ∧ k ≤ (chunkBounds minID maxID chunkSize j2).2) :
    j1 = j2 := by
  simp only [chunkBounds, le_min_iff] at h1 h2
  by_contra hne
  rcases Nat.lt_or_gt_of_ne hne with hlt | hgt
  · have hj : (j1 : Int) + 1 ≤ j2 := by omega
    have := Int.mul_le_mul_of_nonneg_right hj (by omega : (0 : Int) ≤ chunkSize)
    linarith [h1.2.1, h2.1]
  · have hj : (j2 : Int) + 1 ≤ j1 := by omega
    have := Int.mul_le_mul_of_nonneg_right hj (by omega : (0 : Int) ≤ chunkSize)
    linarith [h2.2.1, h1.1]

/-- C4. Chunk partition: for `minID ≤ maxID`, a chunk size of at least 1 and
`maxID + chunkSize` inside the signed 64-bit range, the loop of
`syncTableByChunks` ends, and the intervals it went through are consecutive
closed intervals: the first starts at `minID`, each next one starts at the
previous end plus 1, the last ends at `maxID`, every interval but the last
holds exactly `chunkSize` keys, and every key of `[minID, maxID]` lies in
exactly one interval. -/
theorem chunk_partition (minID maxID chunkSize : Int) (fuel : Nat)
    (hmm : minID ≤ maxID) (hcs : 1 ≤ chunkSize) (hmin : -(2 : Int) ^ 63 ≤ minID)
    (hmax : maxID + chunkSize < 2 ^ 63)
    (hfuel : chunkCount minID maxID chunkSize ≤ fuel) :
    (chunkIntervals minID maxID chunkSize fuel).2 = true ∧
    (chunkIntervals minID maxID chunkSize fuel).1.length = chunkCount minID maxID chunkSize ∧
    1 ≤ chunkCount minID maxID chunkSize ∧
    ((chunkIntervals minID maxID chunkSize fuel).1.head?.map Prod.fst = some minID) ∧
    (∀ j p q, (chunkIntervals minID maxID chunkSize fuel).1[j]? = some p →
      (chunkIntervals minID maxID chunkSize fuel).1[j + 1]? = some q →
      q.1 = p.2 + 1 ∧ p.2 - p.1 + 1 = chunkSize) ∧
    ((chunkIntervals minID maxID chunkSize fuel).1.getLast?.map Prod.snd = some maxID) ∧
    (∀ p, p ∈ (chunkIntervals minID maxID chunkSize fuel).1 →
      minID ≤ p.1 ∧ p.1 ≤ p.2 ∧ p.2 ≤ maxID ∧ p.2 - p.1 + 1 ≤ chunkSize) ∧
    (∀ k, minID ≤ k → k ≤ maxID →
      ∃! j : Nat, ∃ p : Int × Int, (chunkIntervals minID maxID chunkSize fuel).1[j]? = some p ∧
        p.1 ≤ k ∧ k ≤ p.2) := by
  obtain ⟨hn1, hn, hall, hlt⟩ := chunkCount_spec minID maxID chunkSize hmm hcs
  rw [chunkIntervals_closed minID maxID chunkSize fuel hmm hcs hmin hmax hfuel]
  have hcs0 : (0 : Int) ≤ chunkSize := by omega
  refine ⟨rfl, by simp, hn1, ?_, ?_, ?_, ?_, ?_⟩
  · obtain ⟨m, hm⟩ : ∃ m, chunkCount minID maxID chunkSize = m + 1 := ⟨_, (Nat.sub_add_cancel hn1).symm⟩
    rw [hm, List.range_succ_eq_map]
    simp [chunkBounds]
  · intro j p q hp hq
    simp only [getElem?_range_map] at hp hq
    split_ifs at hp hq with h1 h2
    simp only [Option.some.injEq] at hp hq
    subst hp; subst hq
    have := hall (j + 1) h2
    simp only [chunkBounds] at this ⊢
    push_cast at this ⊢
    have hmin2 : min (minID + (j : Int) * chunkSize + chunkSize - 1) maxID
        = minID + (j : Int) * chunkSize + chunkSize - 1 := min_eq_left (by linarith)
    rw [hmin2]
    constructor <;> ring
  · rw [List.getLast?_eq_getElem?]
    simp only [List.length_map, List.length_range, getElem?_range_map]
    have hlast : chunkCount minID maxID chunkSize - 1 < chunkCount minID maxID chunkSize := by
      omega
    simp only [hlast, if_true, Option.map_some', chunkBounds, Option.some.injEq]
    have hc : ((chunkCount minID maxID chunkSize - 1 : Nat) : Int)
        = (chunkCount minID maxID chunkSize : Int) - 1 := by omega
    rw [hc]
    apply min_eq_right
    have : minID + ((chunkCount minID maxID chunkSize : Int) - 1) * chunkSize + chunkSize - 1
        = minID + (chunkCount minID maxID chunkSize : Int) * chunkSize - 1 := by ring
    omega
  · intro p hp
    simp only [List.mem_map, List.mem_range] at hp
    obtain ⟨j, hj, rfl⟩ := hp
    have h1 := hall j hj
    have hj0 : (0 : Int) ≤ (j : Int) * chunkSize := Int.mul_nonneg (by omega) hcs0
    simp only [chunkBounds]
    refine ⟨by linarith, le_min (by linarith) h1, min_le_right _ _, ?_⟩
    have := min_le_left (minID + (j : Int) * chunkSize + chunkSize - 1) maxID
    linarith
  · intro k hk1 hk2
    have hd0 : 0 ≤ (k - minID) / chunkSize := Int.ediv_nonneg (by omega) hcs0
    have hd1 : (k - minID) / chunkSize * chunkSize ≤ k - minID := Int.ediv_mul_le _ (by omega)
    have hd2 : k - minID < ((k - minID) / chunkSize + 1) * chunkSize :=
      Int.lt_ediv_add_one_mul_self _ (by omega)
    have hd3 : (k - minID) / chunkSize ≤ (maxID - minID) / chunkSize :=
      Int.ediv_le_ediv (by omega) (by omega)
    have hjn : ((k - minID) / chunkSize).toNat < chunkCount minID maxID chunkSize := by
      have := Int.toNat_of_nonneg hd0
      omega
    have hjc : ((((k - minID) / chunkSize).toNat : Nat) : Int) = (k - minID) / chunkSize :=
      Int.toNat_of_nonneg hd0
    refine ⟨((k - minID) / chunkSize).toNat,
      ⟨chunkBounds minID maxID chunkSize ((k - minID) / chunkSize).toNat, ?_, ?_, ?_⟩, ?_⟩
    · simp [getElem?_range_map, hjn]
    · simp only [chunkBounds, hjc]; linarith
    · simp only [chunkBounds, hjc]
      exact le_min (by linarith) hk2
    · rintro j ⟨p, hp, hp1, hp2⟩
      simp only [getElem?_range_map] at hp
      split_ifs at hp with hj
      simp only [Option.some.injEq] at hp
      subst hp
      apply chunkBounds_unique minID maxID chunkSize hcs k _ _ ⟨hp1, hp2⟩
      constructor
      · simp only [chunkBounds, hjc]; linarith
      · simp only [chunkBounds, hjc]
        exact le_min (by linarith) hk2

/-- The example of the specification: `minID = 3`, `maxID = 10` and chunk
size 4 give the intervals `[3,6]` and `[7,10]`, and `chunk_partition` holds
there. -/
theorem chunk_partition_witness :
    chunkIntervals 3 10 4 2 = ([(3, 6), (7, 10)], true) ∧
    chunkCount 3 10 4 = 2 ∧
    (∀ k : Int, 3 ≤ k → k ≤ 10 →
      ∃! j : Nat, ∃ p : Int × Int, (chunkIntervals 3 10 4 2).1[j]? = some p ∧ p.1 ≤ k ∧ k ≤ p.2) :=
  ⟨by decide, by decide,
   (chunk_partition 3 10 4 2 (by decide) (by decide) (by decide) (by decide)
      (by decide)).2.2.2.2.2.2.2⟩

/-! ### Strategy selection -/

theorem scanPKRows_eq (rows : List (Except String String)) :
    scanPKRows rows =
      if rows.all (fun r => (rowColumn r).isSome) then some (rows.filterMap rowColumn)
      else none := by
  induction rows with
  | nil => rfl
  | cons r rest ih =>
    cases r with
    | error e => simp [scanPKRows, rowColumn]
    | ok c =>
      simp only [scanPKRows, ih, List.all_cons, rowColumn, Option.isSome_some, Bool.true_and,
        List.filterMap_cons]
      split_ifs <;> rfl

theorem containsStr_eq (s substr : String) :
    containsStr s substr = decide (substr.data <:+: s.data) := by
  unfold containsStr
  rw [Bool.eq_iff_iff]
  simp only [List.any_eq_true, List.mem_tails, List.isPrefixOf_iff_prefix, decide_eq_true_eq]
  constructor
  · rintro ⟨t, hsuf, hpre⟩
    exact List.infix_iff_prefix_suffix.2 ⟨t, hpre, hsuf⟩
  · intro h
    obtain ⟨t, hpre, hsuf⟩ := List.infix_iff_prefix_suffix.1 h
    exact ⟨t, hsuf, hpre⟩

theorem detectPK_result (cat : PKCatalog) :
    (detectPK cat).1 = ((catalogPK cat).getD [], catalogNumeric cat) := by
  unfold detectPK catalogNumeric catalogPK
  cases hq : cat.pkQuery with
  | error e => rfl
  | ok rows =>
    simp only
    rw [← scanPKRows_eq]
    cases hs : scanPKRows rows with
    | none => rfl
    | some cols =>
      match cols with
      | [] => rfl
      | [col] =>
        simp only
        cases cat.colType col with
        | error e => rfl
        | ok dt => simp [containsStr_eq]
      | _ :: _ :: _ => rfl

theorem syncTableByChunks_closed {V : Type} (fp : Fingerprinter V) (cfg : Config)
    (env : ChunkEnv V) (tableName pkCol : String) (fuel : Nat) (columns : List String)
    (minID maxID : Int) (hc : env.columns = Except.ok columns) (hne : columns.length ≠ 0)
    (hq : env.minMax = Except.ok (minID, maxID)) (hmm : minID ≤ maxID)
    (hcs : 1 ≤ cfg.ChunkSize) (hmin : -(2 : Int) ^ 63 ≤ minID)
    (hS : minID + (chunkCount minID maxID cfg.ChunkSize : Nat) * cfg.ChunkSize < 2 ^ 63)
    (hfuel : chunkCount minID maxID cfg.ChunkSize ≤ fuel) :
    syncTableByChunks fp cfg env tableName pkCol fuel =
      ⟨(List.range (chunkCount minID maxID cfg.ChunkSize)).flatMap
          (fun j => chunkBody fp env tableName cfg.Schema pkCol columns j
            (chunkBounds minID maxID cfg.ChunkSize j).1
            (chunkBounds minID maxID cfg.ChunkSize j).2),
        some none⟩ := by
  obtain ⟨_, _, hall, hlt⟩ := chunkCount_spec minID maxID cfg.ChunkSize hmm hcs
  have hnot : ¬ maxID < minID := by omega
  unfold syncTableByChunks
  simp only [hc, hne, hq, hnot, if_false]
  rw [chunkFor_closed _ maxID cfg.ChunkSize hcs _ fuel 0 minID hfuel hmin hall hlt hS]
  simp

theorem syncTableByChunks_error {V : Type} (fp : Fingerprinter V) (cfg : Config)
    (env : ChunkEnv V) (tableName pkCol : String) (fuel : Nat) (e : String)
    (h : (syncTableByChunks fp cfg env tableName pkCol fuel).returned = some (some e)) :
    (∃ e0, env.columns = Except.error e0) ∨ (∃ e0, env.minMax = Except.error e0) := by
  unfold syncTableByChunks at h
  cases hc : env.columns with
  | error e0 => exact Or.inl ⟨e0, rfl⟩
  | ok columns =>
    cases hq : env.minMax with
    | error e0 => exact Or.inr ⟨e0, rfl⟩
    | ok mm =>
      obtain ⟨minID, maxID⟩ := mm
      simp only [hc, hq] at h
      by_cases h0 : columns.length = 0
      · simp [h0] at h
      · by_cases h1 : maxID < minID
        · simp [h0, h1] at h
        · simp only [h0, h1, if_false] at h
          split_ifs at h
          simp at h

/-- C6 as the code has it: a failed apply step is not reported. Whatever the
outcomes of the scans and of the apply steps, `syncTableByChunks` returns
`nil` once its loop has ended (which it does within `chunkCount` iterations
when `maxID + chunkSize` is inside the 64-bit range), and the only errors it
ever returns come from reading the column list or the MIN/MAX row. -/
theorem apply_failure_not_reported {V : Type} (fp : Fingerprinter V) (cfg : Config)
    (env : ChunkEnv V) (tableName pkCol : String) (fuel : Nat) (columns : List String)
    (minID maxID : Int) (hc : env.columns = Except.ok columns) (hne : columns.length ≠ 0)
    (hq : env.minMax = Except.ok (minID, maxID)) (hmm : minID ≤ maxID)
    (hcs : 1 ≤ cfg.ChunkSize) (hmin : -(2 : Int) ^ 63 ≤ minID)
    (hmax : maxID + cfg.ChunkSize < 2 ^ 63)
    (hfuel : chunkCount minID maxID cfg.ChunkSize ≤ fuel) :
    (syncTableByChunks fp cfg env tableName pkCol fuel).returned = some none ∧
    (∀ n e, (syncTableByChunks fp cfg env tableName pkCol n).returned ≠ some (some e)) := by
  constructor
  · rw [syncTableByChunks_closed fp cfg env tableName pkCol fuel columns minID maxID
      hc hne hq hmm hcs hmin (chunkCount_bound minID maxID cfg.ChunkSize hmm hcs hmax) hfuel]
  · intro n e h
    rcases syncTableByChunks_error fp cfg env tableName pkCol n e h with ⟨e0, h0⟩ | ⟨e0, h0⟩
    · rw [hc] at h0; cases h0
    · rw [hq] at h0; cases h0

/-- The run of `failingEnv` with chunk size 2, where `apply_failure_not_reported`
applies: the value returned is `nil`. -/
theorem apply_failure_not_reported_witness :
    chunkCount 1 6 2 = 3 ∧
    (syncTableByChunks idFingerprinter chunk2Config failingEnv "t" "id" 3).returned
      = some none :=
  ⟨by decide,
   (apply_failure_not_reported idFingerprinter chunk2Config failingEnv "t" "id" 3
      ["id", "v"] 1 6 rfl (by decide) rfl (by decide) (by decide) (by decide) (by decide)
      (by decide)).1⟩

/-- Chunk 2 of 3 fails to apply and the table is still reported as
synchronised: with keys 1 to 6 in chunks of two, `applyChanges` is called for
the three intervals, the second call returns an error, and
`syncTableByChunks` returns `nil`. -/
theorem apply_failure_reported_counterexample :
    (syncTableByChunks idFingerprinter chunk2Config failingEnv "t" "id" 3).trace.filterMap
        ChunkEvent.applyOutcome
      = [(1, 2, none), (3, 4, some "upsert failed"), (5, 6, none)] ∧
    (syncTableByChunks idFingerprinter chunk2Config failingEnv "t" "id" 3).returned
      = some none :=
  ⟨by decide, by decide⟩

theorem filterMap_flatMap {α β γ : Type} (l : List α) (f : α → List β) (g : β → Option γ) :
    (l.flatMap f).filterMap g = l.flatMap (fun x => (f x).filterMap g) := by
  induction l with
  | nil => rfl
  | cons a rest ih => simp [List.flatMap_cons, List.filterMap_append, ih]

theorem flatMap_singleton_map {α β : Type} (l : List α) (h : α → β) :
    l.flatMap (fun x => [h x]) = l.map h := by
  induction l with
  | nil => rfl
  | cons a rest ih => simp [List.flatMap_cons, ih]

theorem flatMap_if_singleton {α β : Type} (l : List α) (p : α → Bool) (h : α → β) :
    l.flatMap (fun x => if p x = true then [h x] else []) = (l.filter p).map h := by
  induction l with
  | nil => rfl
  | cons a rest ih =>
    by_cases hp : p a = true
    · simp [List.flatMap_cons, List.filter_cons, hp, ih]
    · simp [List.flatMap_cons, List.filter_cons, hp, ih]

theorem chunkBody_scanMain {V : Type} (fp : Fingerprinter V) (env : ChunkEnv V)
    (tableName schema pkCol : String) (columns : List String) (i : Nat) (start endID : Int) :
    (chunkBody fp env tableName schema pkCol columns i start endID).filterMap
      ChunkEvent.scanMainInterval = [(start, endID)] := by
  unfold chunkBody
  cases fetchRowsRange fp columns pkCol (env.mainScan i) with
  | error e => rfl
  | ok r1 =>
    obtain ⟨md, rm⟩ := r1
    cases fetchRowsRange fp columns pkCol (env.standinScan i) with
    | error e => rfl
    | ok r2 =>
      obtain ⟨sd, rs⟩ := r2
      simp only
      split_ifs <;> rfl

theorem chunkBody_apply {V : Type} (fp : Fingerprinter V) (env : ChunkEnv V)
    (tableName schema pkCol : String) (columns : List String) (i : Nat) (start endID : Int) :
    (chunkBody fp env tableName schema pkCol columns i start endID).filterMap
      ChunkEvent.applyInterval =
        if needsApply fp env pkCol columns i = true then [(start, endID)] else [] := by
  unfold chunkBody needsApply
  cases fetchRowsRange fp columns pkCol (env.mainScan i) with
  | error e => rfl
  | ok r1 =>
    obtain ⟨md, rm⟩ := r1
    cases fetchRowsRange fp columns pkCol (env.standinScan i) with
    | error e => rfl
    | ok r2 =>
      obtain ⟨sd, rs⟩ := r2
      simp only
      by_cases h : (compareData md sd).1.length + (compareData md sd).2.1.length
          + (compareData md sd).2.2.length = 0
      · simp [h, List.filterMap_cons, ChunkEvent.applyInterval]
      · simp [h, List.filterMap_cons, ChunkEvent.applyInterval]

theorem chunkBounds_ascending (minID maxID chunkSize : Int) (hcs : 1 ≤ chunkSize) (n : Nat) :
    ((List.range n).map (chunkBounds minID maxID chunkSize)).Pairwise
      (fun p q => p.2 < q.1) := by
  rw [List.pairwise_map]
  refine List.Pairwise.imp ?_ (List.pairwise_lt_range n)
  intro a b hab
  have hj : (a : Int) + 1 ≤ b := by omega
  have h1 := Int.mul_le_mul_of_nonneg_right hj (by omega : (0 : Int) ≤ chunkSize)
  have h2 := min_le_left (minID + (a : Int) * chunkSize + chunkSize - 1) maxID
  simp only [chunkBounds]
  linarith

theorem chunkFor_filterMap {E F : Type} (body : Nat → Int → Int → List E) (g : E → Option F)
    (maxID chunkSize : Int) (fuel i : Nat) (start : Int) :
    chunkFor (fun k s e => (body k s e).filterMap g) maxID chunkSize fuel i start =
      ((chunkFor body maxID chunkSize fuel i start).1.filterMap g,
        (chunkFor body maxID chunkSize fuel i start).2) := by
  induction fuel generalizing i start with
  | zero => rfl
  | succ n ih =>
    by_cases h : start ≤ maxID
    · simp only [chunkFor, h, if_true, ih, List.filterMap_append]
    · simp only [chunkFor, h, if_false, List.filterMap_nil]

theorem syncTableByChunks_scans {V : Type} (fp : Fingerprinter V) (cfg : Config)
    (env : ChunkEnv V) (tableName pkCol : String) (fuel : Nat) (columns : List String)
    (minID maxID : Int) (hc : env.columns = Except.ok columns) (hne : columns.length ≠ 0)
    (hq : env.minMax = Except.ok (minID, maxID)) (hmm : minID ≤ maxID) :
    (syncTableByChunks fp cfg env tableName pkCol fuel).trace.filterMap
        ChunkEvent.scanMainInterval = (chunkIntervals minID maxID cfg.ChunkSize fuel).1 ∧
    (syncTableByChunks fp cfg env tableName pkCol fuel).returned =
      if (chunkIntervals minID maxID cfg.ChunkSize fuel).2 = true then some none else none := by
  have hnot : ¬ maxID < minID := by omega
  have hbody : (fun k s e => (chunkBody fp env tableName cfg.Schema pkCol columns k s
      e).filterMap ChunkEvent.scanMainInterval) = (fun _ s e => [(s, e)]) := by
    funext k s e
    exact chunkBody_scanMain fp env tableName cfg.Schema pkCol columns k s e
  have h := chunkFor_filterMap (chunkBody fp env tableName cfg.Schema pkCol columns)
    ChunkEvent.scanMainInterval maxID cfg.ChunkSize fuel 0 minID
  rw [hbody] at h
  unfold syncTableByChunks chunkIntervals
  simp only [hc, hne, hq, hnot, if_false]
  rw [h]
  exact ⟨rfl, rfl⟩

theorem chunkFor_wraps (maxID chunkSize : Int) (hcs : 1 ≤ chunkSize)
    (hcsmax : chunkSize < 2 ^ 63) (hmax : maxID < 2 ^ 63) :
    ∀ (m fuel i : Nat) (start : Int), -(2 : Int) ^ 63 ≤ start →
      (∀ j : Nat, j ≤ m → start + j * chunkSize ≤ maxID) →
      2 ^ 63 ≤ start + ((m : Int) + 1) * chunkSize →
      (chunkFor (fun _ s e => [(s, e)]) maxID chunkSize fuel i start).2 = true →
      m + 2 ≤ (chunkFor (fun _ s e => [(s, e)]) maxID chunkSize fuel i start).1.length := by
  intro m
  induction m with
  | zero =>
    intro fuel i start hlo hall hS hend
    have h0 : start ≤ maxID := by simpa using hall 0 (le_refl 0)
    have hS1 : 2 ^ 63 ≤ start + chunkSize := by simpa using hS
    have hnext : wrap64 (start + chunkSize) ≤ maxID := by
      unfold wrap64
      omega
    cases fuel with
    | zero => simp [chunkFor, h0] at hend
    | succ f =>
      simp only [chunkFor, h0, if_true] at hend ⊢
      cases f with
      | zero => simp [chunkFor, hnext] at hend
      | succ g => simp [chunkFor, hnext]
  | succ m ih =>
    intro fuel i start hlo hall hS hend
    have h0 : start ≤ maxID := by simpa using hall 0 (Nat.zero_le _)
    have h1 : start + chunkSize ≤ maxID := by simpa using hall 1 (by omega)
    have hw1 : wrap64 (start + chunkSize) = start + chunkSize :=
      wrap64_of_inInt64 _ ⟨by omega, by omega⟩
    cases fuel with
    | zero => simp [chunkFor, h0] at hend
    | succ f =>
      simp only [chunkFor, h0, if_true, hw1] at hend ⊢
      have hrec := ih f (i + 1) (start + chunkSize) (by omega)
        (by
          intro j hj
          have := hall (j + 1) (by omega)
          push_cast at this
          linarith)
        (by push_cast at hS; linarith) hend
      simp only [List.length_append, List.length_cons, List.length_nil]
      omega

theorem chunkIntervals_wraps (minID maxID chunkSize : Int) (fuel : Nat)
    (hmm : minID ≤ maxID) (hcs : 1 ≤ chunkSize) (hmin : -(2 : Int) ^ 63 ≤ minID)
    (hmax : maxID < 2 ^ 63) (hcsmax : chunkSize < 2 ^ 63)
    (hS : 2 ^ 63 ≤ minID + (chunkCount minID maxID chunkSize : Nat) * chunkSize)
    (hend : (chunkIntervals minID maxID chunkSize fuel).2 = true) :
    chunkCount minID maxID chunkSize + 1 ≤ (chunkIntervals minID maxID chunkSize fuel).1.length := by
  obtain ⟨hn1, _, hall, _⟩ := chunkCount_spec minID maxID chunkSize hmm hcs
  obtain ⟨m, hm⟩ : ∃ m, chunkCount minID maxID chunkSize = m + 1 :=
    ⟨_, (Nat.sub_add_cancel hn1).symm⟩
  rw [hm] at hall hS ⊢
  exact chunkFor_wraps maxID chunkSize hcs hcsmax hmax m fuel 0 minID hmin
    (fun j hj => hall j (by omega)) (by push_cast at hS; exact hS) hend

theorem wrap64_le (x : Int) : wrap64 x ≤ 2 ^ 63 - 1 := by
  unfold wrap64
  omega

theorem chunkFor_maxInt64_runs {E : Type} (body : Nat → Int → Int → List E)
    (chunkSize : Int) (fuel i : Nat) (start : Int) (h : start ≤ 2 ^ 63 - 1) :
    (chunkFor body (2 ^ 63 - 1) chunkSize fuel i start).2 = false := by
  induction fuel generalizing i start with
  | zero =>
    simp only [chunkFor, decide_eq_false_iff_not, not_not]
    exact h
  | succ n ih =>
    simp only [chunkFor, h, if_true]
    exact ih _ _ (wrap64_le _)

theorem overflowEnv_never_returns (fuel : Nat) :
    (syncTableByChunks idFingerprinter chunk5Config overflowEnv "t" "id" fuel).returned
      = none := by
  have h := chunkFor_maxInt64_runs
    (chunkBody idFingerprinter overflowEnv "t" chunk5Config.Schema "id" ["id", "v"])
    chunk5Config.ChunkSize fuel 0 (2 ^ 63 - 2) (by decide)
  have hr : (syncTableByChunks idFingerprinter chunk5Config overflowEnv "t" "id"
      fuel).returned =
      if (chunkFor
        (chunkBody idFingerprinter overflowEnv "t" chunk5Config.Schema "id" ["id", "v"])
        (2 ^ 63 - 1) chunk5Config.ChunkSize fuel 0 (2 ^ 63 - 2)).2 = true
      then some none else none := rfl
  rw [hr, h]
  rfl

/-- C7. Continuation of the chunk loop. Let `n` be the number of intervals of
the partition of `[minID, maxID]`, for `minID ≤ maxID` and a chunk size of at
least 1. When `minID + n * chunkSize` is inside the signed 64-bit range (no
`start += chunkSize` the loop executes overflows), `syncTableByChunks`
returns after scanning the source for every interval of the partition, once
each and in ascending order, whatever the outcomes of the scans and of the
apply steps, and `applyChanges` is called for exactly the intervals whose two
scans succeeded with a non-empty diff. When `minID + n * chunkSize` is
outside that range the claim fails: however long the loop runs, it has not
returned having scanned exactly the intervals of the partition. So it is for
the key range from `2^63 - 2` to `2^63 - 1` with chunk size 5: the first
interval scanned is `[2^63 - 2, -2^63 + 2]` (the end has wrapped around), the
next intervals start at the bottom of the 64-bit range, the one interval
`[2^63 - 2, 2^63 - 1]` of the partition is not visited, the intervals do not
ascend, and the loop never ends. -/
theorem chunk_loop_continues {V : Type} (fp : Fingerprinter V) (cfg : Config)
    (env : ChunkEnv V) (tableName pkCol : String) (columns : List String)
    (minID maxID : Int) :
    (env.columns = Except.ok columns → columns.length ≠ 0 →
      env.minMax = Except.ok (minID, maxID) → minID ≤ maxID → 1 ≤ cfg.ChunkSize →
      -(2 : Int) ^ 63 ≤ minID →
      (∀ fuel : Nat,
        minID + (chunkCount minID maxID cfg.ChunkSize : Nat) * cfg.ChunkSize < 2 ^ 63 →
        chunkCount minID maxID cfg.ChunkSize ≤ fuel →
        (syncTableByChunks fp cfg env tableName pkCol fuel).returned = some none ∧
        (syncTableByChunks fp cfg env tableName pkCol fuel).trace =
          (List.range (chunkCount minID maxID cfg.ChunkSize)).flatMap
            (fun j => chunkBody fp env tableName cfg.Schema pkCol columns j
              (chunkBounds minID maxID cfg.ChunkSize j).1
              (chunkBounds minID maxID cfg.ChunkSize j).2) ∧
        (syncTableByChunks fp cfg env tableName pkCol fuel).trace.filterMap
            ChunkEvent.scanMainInterval =
          (List.range (chunkCount minID maxID cfg.ChunkSize)).map
            (chunkBounds minID maxID cfg.ChunkSize) ∧
        ((syncTableByChunks fp cfg env tableName pkCol fuel).trace.filterMap
            ChunkEvent.scanMainInterval).Pairwise (fun p q => p.2 < q.1) ∧
        (syncTableByChunks fp cfg env tableName pkCol fuel).trace.filterMap
            ChunkEvent.applyInterval =
          ((List.range (chunkCount minID maxID cfg.ChunkSize)).filter
              (needsApply fp env pkCol columns)).map
            (chunkBounds minID maxID cfg.ChunkSize)) ∧
      (∀ fuel : Nat, maxID < 2 ^ 63 → cfg.ChunkSize < 2 ^ 63 →
        2 ^ 63 ≤ minID + (chunkCount minID maxID cfg.ChunkSize : Nat) * cfg.ChunkSize →
        ¬ ((syncTableByChunks fp cfg env tableName pkCol fuel).returned = some none ∧
          (syncTableByChunks fp cfg env tableName pkCol fuel).trace.filterMap
              ChunkEvent.scanMainInterval =
            (List.range (chunkCount minID maxID cfg.ChunkSize)).map
              (chunkBounds minID maxID cfg.ChunkSize)))) ∧
    chunkCount (2 ^ 63 - 2) (2 ^ 63 - 1) 5 = 1 ∧
    chunkBounds (2 ^ 63 - 2) (2 ^ 63 - 1) 5 0 = (2 ^ 63 - 2, 2 ^ 63 - 1) ∧
    (syncTableByChunks idFingerprinter chunk5Config overflowEnv "t" "id" 3).trace.filterMap
        ChunkEvent.scanMainInterval =
      [(2 ^ 63 - 2, -2 ^ 63 + 2), (-2 ^ 63 + 3, -2 ^ 63 + 7), (-2 ^ 63 + 8, -2 ^ 63 + 12)] ∧
    (∀ fuel, (syncTableByChunks idFingerprinter chunk5Config overflowEnv "t" "id"
      fuel).returned = none) := by
  refine ⟨?_, by decide, by decide, by decide, overflowEnv_never_returns⟩
  intro hc hne hq hmm hcs hmin
  constructor
  · intro fuel hS hfuel
    rw [syncTableByChunks_closed fp cfg env tableName pkCol fuel columns minID maxID
      hc hne hq hmm hcs hmin hS hfuel]
    have hscan : ((List.range (chunkCount minID maxID cfg.ChunkSize)).flatMap
          (fun j => chunkBody fp env tableName cfg.Schema pkCol columns j
            (chunkBounds minID maxID cfg.ChunkSize j).1
            (chunkBounds minID maxID cfg.ChunkSize j).2)).filterMap
          ChunkEvent.scanMainInterval =
        (List.range (chunkCount minID maxID cfg.ChunkSize)).map
          (chunkBounds minID maxID cfg.ChunkSize) := by
      rw [filterMap_flatMap]
      simp only [chunkBody_scanMain]
      exact flatMap_singleton_map _ _
    refine ⟨rfl, rfl, hscan, ?_, ?_⟩
    · simp only [hscan]
      exact chunkBounds_ascending minID maxID cfg.ChunkSize hcs _
    · simp only [filterMap_flatMap, chunkBody_apply]
      exact flatMap_if_singleton _ _ _
  · intro fuel hmax hcsmax hS hboth
    obtain ⟨hscans, hret⟩ := syncTableByChunks_scans fp cfg env tableName pkCol fuel columns
      minID maxID hc hne hq hmm
    have hend : (chunkIntervals minID maxID cfg.ChunkSize fuel).2 = true := by
      by_contra hne2
      rw [hret, if_neg hne2] at hboth
      exact absurd hboth.1 (by simp)
    have hlen := chunkIntervals_wraps minID maxID cfg.ChunkSize fuel hmm hcs hmin hmax
      hcsmax hS hend
    rw [← hscans, hboth.2] at hlen
    simp at hlen

/-- Two runs where the first part of `chunk_loop_continues` applies. In
`failingEnv` with chunk size 2 the intervals `[1,2]`, `[3,4]` and `[5,6]` are
all scanned and applied although the apply of `[3,4]` fails. In `edgeEnv`
with chunk size 8 the key range from `2^63 - 10` to `2^63 - 3` is one
interval, `maxID + chunkSize` is outside the 64-bit range and
`minID + chunkSize` inside: the interval is scanned and the loop returns. -/
theorem chunk_loop_continues_witness :
    ((syncTableByChunks idFingerprinter chunk2Config failingEnv "t" "id" 3).trace.filterMap
        ChunkEvent.scanMainInterval = [(1, 2), (3, 4), (5, 6)] ∧
      (syncTableByChunks idFingerprinter chunk2Config failingEnv "t" "id" 3).trace.filterMap
        ChunkEvent.applyInterval = [(1, 2), (3, 4), (5, 6)] ∧
      ((syncTableByChunks idFingerprinter chunk2Config failingEnv "t" "id" 3).trace.filterMap
        ChunkEvent.scanMainInterval).Pairwise (fun p q => p.2 < q.1)) ∧
    ((2 : Int) ^ 63 ≤ (2 ^ 63 - 3) + chunk8Config.ChunkSize ∧
      chunkCount (2 ^ 63 - 10) (2 ^ 63 - 3) 8 = 1 ∧
      (syncTableByChunks idFingerprinter chunk8Config edgeEnv "t" "id" 1).trace.filterMap
        ChunkEvent.scanMainInterval = [(2 ^ 63 - 10, 2 ^ 63 - 3)] ∧
      (syncTableByChunks idFingerprinter chunk8Config edgeEnv "t" "id" 1).returned
        = some none) :=
  ⟨⟨by decide, by decide,
    (((chunk_loop_continues idFingerprinter chunk2Config failingEnv "t" "id"
      ["id", "v"] 1 6).1 rfl (by decide) rfl (by decide) (by decide) (by decide)).1 3
      (by decide) (by decide)).2.2.2.1⟩,
   ⟨by decide, by decide, by decide,
    (((chunk_loop_continues idFingerprinter chunk8Config edgeEnv "t" "id"
      ["id", "v"] (2 ^ 63 - 10) (2 ^ 63 - 3)).1 rfl (by decide) rfl (by decide) (by decide)
      (by decide)).1 1 (by decide) (by decide)).1⟩⟩

/-! ### The change applier -/

theorem applyChanges_cases {V : Type} (tx : TxOutcome) (table schema pkCol : String)
    (columns toInsert toUpdate toDelete : List String) (rowsMain rowsStandin : GoMap (List V)) :
    applyChanges tx table schema pkCol columns toInsert toUpdate toDelete rowsMain rowsStandin =
      match tx.begin with
      | some e => (some e, [DbEvent.beginTx (some e)])
      | none =>
        let up : List (DbEvent V) :=
          if 0 < toInsert.length + toUpdate.length then
            [DbEvent.upsert
              (upsertSQL schema table columns [pkCol] (toInsert.length + toUpdate.length))
              (flatten (toInsert.map (GoMap.rowOf rowsMain)
                ++ toUpdate.map (GoMap.rowOf rowsMain))) tx.upsert]
          else []
        let del : List (DbEvent V) :=
          if 0 < toDelete.length then
            [DbEvent.delete (deleteSQL schema table pkCol toDelete.length) toDelete tx.delete]
          else []
        match (if 0 < toInsert.length + toUpdate.length then tx.upsert else none) with
        | some e => (some e, [DbEvent.beginTx none] ++ up ++ [DbEvent.rollback])
        | none =>
          (tx.commit, [DbEvent.beginTx none] ++ up ++ del
            ++ [DbEvent.commit tx.commit, DbEvent.rollback]) := by
  unfold applyChanges doBatchUpsertTx
  cases hb : tx.begin with
  | some e => rfl
  | none =>
    simp only [List.length_append, List.length_map, gt_iff_lt]
    by_cases hn : 0 < toInsert.length + toUpdate.length
    · have hn0 : ¬ toInsert.length + toUpdate.length = 0 := by omega
      simp only [hn, hn0, if_true, if_false]
      cases hu : tx.upsert with
      | some e => rfl
      | none => cases hcm : tx.commit <;> rfl
    · simp only [hn, if_false]
      cases hcm : tx.commit <;> rfl

/-- C8. Error contract of `applyChanges`: the value returned is the error of
`BeginTx`, else the error of the upsert (when there is a row to upsert), else
the error of `Commit`; so an error is returned exactly when one of these three
steps was reached and failed, and the outcome of the DELETE has no part in
it. Whenever the DELETE is sent, `Commit` is called after it; and the DELETE
is sent exactly when the delete list is non-empty, the transaction opened and
the upsert was not needed or succeeded. -/
theorem applyChanges_error_contract {V : Type} (tx : TxOutcome) (table schema pkCol : String)
    (columns toInsert toUpdate toDelete : List String) (rowsMain rowsStandin : GoMap (List V)) :
    (applyChanges tx table schema pkCol columns toInsert toUpdate toDelete rowsMain
        rowsStandin).1 =
      (match tx.begin with
       | some e => some e
       | none =>
         match (if 0 < toInsert.length + toUpdate.length then tx.upsert else none) with
         | some e => some e
         | none => tx.commit) ∧
    ((applyChanges tx table schema pkCol columns toInsert toUpdate toDelete rowsMain
        rowsStandin).1 ≠ none ↔
      ∃ ev, ev ∈ (applyChanges tx table schema pkCol columns toInsert toUpdate toDelete
        rowsMain rowsStandin).2 ∧ DbEvent.isFatal ev = true) ∧
    (tx.begin = none → tx.upsert = none → tx.commit = none →
      (applyChanges tx table schema pkCol columns toInsert toUpdate toDelete rowsMain
        rowsStandin).1 = none ∧
      DbEvent.commit none ∈ (applyChanges tx table schema pkCol columns toInsert toUpdate
        toDelete rowsMain rowsStandin).2) ∧
    ((∃ ev, ev ∈ (applyChanges tx table schema pkCol columns toInsert toUpdate toDelete
        rowsMain rowsStandin).2 ∧ DbEvent.isDelete ev = true) →
      ∃ ev, ev ∈ (applyChanges tx table schema pkCol columns toInsert toUpdate toDelete
        rowsMain rowsStandin).2 ∧ DbEvent.isCommit ev = true) ∧
    ((∃ ev, ev ∈ (applyChanges tx table schema pkCol columns toInsert toUpdate toDelete
        rowsMain rowsStandin).2 ∧ DbEvent.isDelete ev = true) ↔
      toDelete ≠ [] ∧ tx.begin = none ∧
        (toInsert.length + toUpdate.length = 0 ∨ tx.upsert = none)) := by
  rw [applyChanges_cases]
  have hdel : toDelete ≠ [] ↔ 0 < toDelete.length := by
    cases toDelete <;> simp
  cases hb : tx.begin with
  | some e => simp [DbEvent.isFatal, DbEvent.isDelete]
  | none =>
    by_cases hn : 0 < toInsert.length + toUpdate.length
    · have hn0 : ¬ toInsert.length + toUpdate.length = 0 := by omega
      cases hu : tx.upsert with
      | some e =>
        simp [hn, hn0, DbEvent.isFatal, DbEvent.isDelete]
      | none =>
        by_cases hd : 0 < toDelete.length
        · cases hcm : tx.commit <;>
            simp [hn, hn0, hd, hdel, DbEvent.isFatal, DbEvent.isDelete, DbEvent.isCommit]
        · cases hcm : tx.commit <;>
            simp [hn, hn0, hd, hdel, DbEvent.isFatal, DbEvent.isDelete, DbEvent.isCommit]
    · have hn0 : toInsert.length + toUpdate.length = 0 := by omega
      by_cases hd : 0 < toDelete.length
      · cases hcm : tx.commit <;>
          simp [hn, hn0, hd, hdel, DbEvent.isFatal, DbEvent.isDelete, DbEvent.isCommit]
      · cases hcm : tx.commit <;>
          simp [hn, hn0, hd, hdel, DbEvent.isFatal, DbEvent.isDelete, DbEvent.isCommit]

theorem flatten_eq {V : Type} (rowsData : List (List V)) (acc : List V) :
    rowsData.foldl (fun out row => out ++ row) acc = acc ++ rowsData.flatten := by
  induction rowsData generalizing acc with
  | nil => simp
  | cons r rest ih => simp [List.foldl_cons, ih, List.append_assoc]

theorem flatten_length {V : Type} (rowsData : List (List V)) (m : Nat)
    (h : ∀ r, r ∈ rowsData → r.length = m) : (flatten rowsData).length = rowsData.length * m := by
  unfold flatten
  rw [flatten_eq, List.nil_append]
  induction rowsData with
  | nil => simp
  | cons r rest ih =>
    have h1 : r.length = m := h r (List.mem_cons_self _ _)
    have h2 := ih (fun r' hr' => h r' (List.mem_cons_of_mem _ hr'))
    simp only [List.flatten_cons, List.length_append, List.length_cons, h1, h2]
    rw [Nat.add_mul, Nat.one_mul, Nat.add_comm]

theorem upsertRows_length {V : Type} (rowsMain : GoMap (List V)) (ks1 ks2 : List String)
    (m : Nat) (h : ∀ k, k ∈ ks1 ++ ks2 → (GoMap.rowOf rowsMain k).length = m) :
    (flatten (ks1.map (GoMap.rowOf rowsMain) ++ ks2.map (GoMap.rowOf rowsMain))).length
      = (ks1.length + ks2.length) * m := by
  rw [flatten_length _ m]
  · simp
  · intro r hr
    rw [← List.map_append] at hr
    obtain ⟨k, hk, rfl⟩ := List.mem_map.1 hr
    exact h k hk

theorem get?_map_self {β : Type} (l : List String) (f : String → β) (k : String)
    (hk : k ∈ l) : GoMap.get? (l.map (fun x => (x, f x))) k = some (f k) := by
  induction l with
  | nil => simp at hk
  | cons a rest ih =>
    by_cases h : a = k
    · simp [GoMap.get?, h]
    · rcases List.mem_cons.1 hk with h2 | h2
      · exact absurd h2.symm h
      · simp [GoMap.get?, h, ih h2]

/-- C9 as the code has it: `applyChanges` never splits a batch. When every key
to insert or update has a source row of one value per column, the one upsert
statement it sends carries (insert keys + update keys) × (columns) bind
parameters, and the one DELETE statement carries one bind parameter per
delete key, whatever these numbers are. -/
theorem applyChanges_single_batch {V : Type} (tx : TxOutcome) (table schema pkCol : String)
    (columns toInsert toUpdate toDelete : List String) (rowsMain rowsStandin : GoMap (List V))
    (hrows : ∀ k, k ∈ toInsert ++ toUpdate →
      (GoMap.rowOf rowsMain k).length = columns.length) :
    (((applyChanges tx table schema pkCol columns toInsert toUpdate toDelete rowsMain
        rowsStandin).2.filter DbEvent.isUpsert).map DbEvent.bindParams =
      if tx.begin = none ∧ 0 < toInsert.length + toUpdate.length then
        [(toInsert.length + toUpdate.length) * columns.length]
      else []) ∧
    (((applyChanges tx table schema pkCol columns toInsert toUpdate toDelete rowsMain
        rowsStandin).2.filter DbEvent.isDelete).map DbEvent.bindParams =
      if tx.begin = none ∧ (toInsert.length + toUpdate.length = 0 ∨ tx.upsert = none)
          ∧ 0 < toDelete.length then
        [toDelete.length]
      else []) := by
  have hlen := upsertRows_length rowsMain toInsert toUpdate columns.length hrows
  rw [applyChanges_cases]
  cases hb : tx.begin with
  | some e => simp [List.filter_cons, DbEvent.isUpsert, DbEvent.isDelete]
  | none =>
    by_cases hn : 0 < toInsert.length + toUpdate.length
    · have hn0 : ¬ toInsert.length + toUpdate.length = 0 := by omega
      cases hu : tx.upsert with
      | some e =>
        simp [hn, hn0, List.filter_cons, DbEvent.isUpsert, DbEvent.isDelete,
          DbEvent.bindParams, hlen]
      | none =>
        by_cases hd : 0 < toDelete.length
        · simp [hn, hn0, hd, List.filter_cons, DbEvent.isUpsert, DbEvent.isDelete,
            DbEvent.bindParams, hlen]
        · simp [hn, hn0, hd, List.filter_cons, DbEvent.isUpsert, DbEvent.isDelete,
            DbEvent.bindParams, hlen]
    · have hn0 : toInsert.length + toUpdate.length = 0 := by omega
      by_cases hd : 0 < toDelete.length
      · simp [hn, hn0, hd, List.filter_cons, DbEvent.isUpsert, DbEvent.isDelete,
          DbEvent.bindParams]
      · simp [hn, hn0, hd, List.filter_cons, DbEvent.isUpsert, DbEvent.isDelete,
          DbEvent.bindParams]

/-- Two keys to insert, one to update, one to delete, rows of two columns:
one upsert with six bind parameters and one DELETE with one;
`applyChanges_single_batch` holds there. -/
theorem applyChanges_single_batch_witness :
    ((applyChanges okTx "t" "public" "id" ["id", "v"] ["1", "2"] ["3"] ["4"]
        [("1", ["1", "a"]), ("2", ["2", "b"]), ("3", ["3", "c"])]
        [("3", ["3", "x"]), ("4", ["4", "d"])]).2.filter DbEvent.isUpsert).map
      DbEvent.bindParams = [6] ∧
    ((applyChanges okTx "t" "public" "id" ["id", "v"] ["1", "2"] ["3"] ["4"]
        [("1", ["1", "a"]), ("2", ["2", "b"]), ("3", ["3", "c"])]
        [("3", ["3", "x"]), ("4", ["4", "d"])]).2.filter DbEvent.isDelete).map
      DbEvent.bindParams = [1] :=
  applyChanges_single_batch okTx "t" "public" "id" ["id", "v"] ["1", "2"] ["3"] ["4"]
    [("1", ["1", "a"]), ("2", ["2", "b"]), ("3", ["3", "c"])]
    [("3", ["3", "x"]), ("4", ["4", "d"])] (by decide)

theorem insert_only_params {V : Type} (tx : TxOutcome) (table schema pkCol : String)
    (columns ks : List String) (rowsMain rowsStandin : GoMap (List V)) (n p : Nat)
    (hb : tx.begin = none) (hu : tx.upsert = none) (hcm : tx.commit = none) (hn : 0 < n)
    (hks : ks.length = n)
    (hargs : (flatten (ks.map (GoMap.rowOf rowsMain)
      ++ ([] : List String).map (GoMap.rowOf rowsMain))).length = p) :
    (applyChanges tx table schema pkCol columns ks [] [] rowsMain rowsStandin).2.map
      DbEvent.bindParams = [0, p, 0, 0] := by
  rw [applyChanges_cases]
  have hks0 : 0 < ks.length + ([] : List String).length := by
    rw [hks]; exact hn
  have hks1 : 0 < ks.length := by rw [hks]; exact hn
  have hargs1 : (flatten (ks.map (GoMap.rowOf rowsMain))).length = p := by
    simpa using hargs
  simp only [hb, hu, hcm, hks0, if_true, List.length_nil, Nat.lt_irrefl, if_false]
  simp [DbEvent.bindParams, hks1, hargs1]

theorem bigRows_rowOf (k : String) (hk : k ∈ bigKeys) : (GoMap.rowOf bigRows k).length = 7 := by
  unfold GoMap.rowOf bigRows
  rw [get?_map_self bigKeys _ k hk]
  rfl

/-- A chunk of the default size, ten thousand keys, all missing on the
target, in a table of seven columns: `applyChanges` sends one upsert
statement with 70000 bind parameters, above the ceiling of 65535. -/
theorem bind_ceiling_counterexample :
    (applyChanges okTx "t" "public" "id" columns7 bigKeys [] [] bigRows []).2.map
      DbEvent.bindParams = [0, 70000, 0, 0] ∧
    65535 < 70000 := by
  have hlen := upsertRows_length bigRows bigKeys [] 7
    (by intro k hk; rw [List.append_nil] at hk; exact bigRows_rowOf k hk)
  have hk : bigKeys.length = 10000 := by simp [bigKeys]
  exact ⟨insert_only_params okTx "t" "public" "id" columns7 bigKeys bigRows [] 10000 70000
    rfl rfl rfl (by decide) hk (by rw [hlen, hk]; rfl), by decide⟩

/-! ### Fingerprint framing -/

theorem rowKeyAndText_foldl {V : Type} (fp : Fingerprinter V) (pkCol : String)
    (columns : List String) (vals : List V) (st : String × String)
    (h : vals.length = columns.length) :
    ((columns.zip vals).foldl (fingerprintStep fp pkCol) st).2 =
      (vals.map fp.render).foldl (fun sb s => sb ++ s ++ "|") st.2 := by
  induction columns generalizing vals st with
  | nil =>
    cases vals with
    | nil => rfl
    | cons v rest => simp at h
  | cons c cs ih =>
    cases vals with
    | nil => simp at h
    | cons v rest =>
      simp only [List.zip_cons_cons, List.foldl_cons, List.map_cons]
      rw [ih rest _ (by simpa using h)]
      rfl

theorem rowKeyAndText_text {V : Type} (fp : Fingerprinter V) (pkCol : String)
    (columns : List String) (vals : List V) (h : vals.length = columns.length) :
    (rowKeyAndText fp columns pkCol vals).2 = frameText (vals.map fp.render) :=
  rowKeyAndText_foldl fp pkCol columns vals ("", "") h

theorem frameText_foldl_data (rendered : List String) (acc : String) :
    (rendered.foldl (fun sb s => sb ++ s ++ "|") acc).data =
      acc.data ++ frameChars (rendered.map String.data) := by
  induction rendered generalizing acc with
  | nil => simp [frameChars]
  | cons s rest ih =>
    rw [List.foldl_cons, ih]
    simp [frameChars, String.data_append, List.flatMap_cons, List.append_assoc]

theorem frameText_data (rendered : List String) :
    (frameText rendered).data = frameChars (rendered.map String.data) := by
  unfold frameText
  rw [frameText_foldl_data]
  rfl

theorem frameChars_cons (s : List Char) (r : List (List Char)) :
    frameChars (s :: r) = s ++ '|' :: frameChars r := by
  simp [frameChars, List.flatMap_cons]

theorem count_frameChars (r : List (List Char)) :
    (frameChars r).count '|' = r.length + (r.map (List.count '|')).sum := by
  induction r with
  | nil => simp [frameChars]
  | cons s rest ih =>
    rw [frameChars_cons, List.count_append, List.count_cons_self, ih]
    simp only [List.length_cons, List.map_cons, List.sum_cons]
    omega

theorem sum_counts_zero (r : List (List Char)) :
    (r.map (List.count '|')).sum = 0 ↔ ∀ s, s ∈ r → '|' ∉ s := by
  induction r with
  | nil => simp
  | cons s rest ih =>
    simp only [List.map_cons, List.sum_cons, Nat.add_eq_zero_iff, ih, List.mem_cons,
      List.count_eq_zero]
    constructor
    · rintro ⟨h1, h2⟩ t (rfl | ht)
      · exact h1
      · exact h2 t ht
    · intro h
      exact ⟨h s (Or.inl rfl), fun t ht => h t (Or.inr ht)⟩

theorem split_at_delimiter (a b x y : List Char) (ha : '|' ∉ a) (hb : '|' ∉ b)
    (h : a ++ '|' :: x = b ++ '|' :: y) : a = b ∧ x = y := by
  induction a generalizing b with
  | nil =>
    cases b with
    | nil => simpa using h
    | cons d b' =>
      simp only [List.nil_append, List.cons_append, List.cons.injEq] at h
      exact absurd (h.1 ▸ List.mem_cons_self _ _) hb
  | cons c a' ih =>
    cases b with
    | nil =>
      simp only [List.nil_append, List.cons_append, List.cons.injEq] at h
      exact absurd (h.1 ▸ List.mem_cons_self _ _) ha
    | cons d b' =>
      simp only [List.cons_append, List.cons.injEq] at h
      obtain ⟨h1, h2⟩ := ih b' (fun hm => ha (List.mem_cons_of_mem _ hm))
        (fun hm => hb (List.mem_cons_of_mem _ hm)) h.2
      exact ⟨by rw [h.1, h1], h2⟩

theorem frameChars_injective (r1 r2 : List (List Char)) (h1 : ∀ s, s ∈ r1 → '|' ∉ s)
    (h2 : ∀ s, s ∈ r2 → '|' ∉ s) (h : frameChars r1 = frameChars r2) : r1 = r2 := by
  induction r1 generalizing r2 with
  | nil =>
    cases r2 with
    | nil => rfl
    | cons t r2' =>
      rw [frameChars_cons] at h
      simp [frameChars] at h
  | cons s r1' ih =>
    cases r2 with
    | nil =>
      rw [frameChars_cons] at h
      simp [frameChars] at h
    | cons t r2' =>
      rw [frameChars_cons, frameChars_cons] at h
      obtain ⟨e1, e2⟩ := split_at_delimiter s t _ _ (h1 s (List.mem_cons_self _ _))
        (h2 t (List.mem_cons_self _ _)) h
      rw [e1, ih r2' (fun u hu => h1 u (List.mem_cons_of_mem _ hu))
        (fun u hu => h2 u (List.mem_cons_of_mem _ hu)) e2]

theorem frameText_injective (r1 r2 : List String) (hlen : r1.length = r2.length)
    (hfree : ∀ s, s ∈ r1 → '|' ∉ s.data) (h : frameText r1 = frameText r2) : r1 = r2 := by
  have hd : frameChars (r1.map String.data) = frameChars (r2.map String.data) := by
    rw [← frameText_data, ← frameText_data, h]
  have hf1 : ∀ s, s ∈ r1.map String.data → '|' ∉ s := by
    intro s hs
    obtain ⟨t, ht, rfl⟩ := List.mem_map.1 hs
    exact hfree t ht
  have hc := congrArg (List.count '|') hd
  rw [count_frameChars, count_frameChars, (sum_counts_zero _).2 hf1] at hc
  simp only [List.length_map, hlen, Nat.add_zero] at hc
  have hf2 : ∀ s, s ∈ r2.map String.data → '|' ∉ s :=
    (sum_counts_zero _).1 (by omega)
  have hmap := frameChars_injective _ _ hf1 hf2 hd
  have hinj : Function.Injective String.data := fun a b hab => String.ext hab
  exact (List.map_injective_iff.2 hinj) hmap

/-- C10 as the code has it: the framing separates the values with a bare
`|`, so it tells apart two rows over the same columns only when the delimiter
is absent from the rendered values: if no rendered value of one of the two
rows contains `|` and the lists of rendered values differ, then the texts
handed to the digest differ. -/
theorem frame_distinct_without_delimiter {V : Type} (fp : Fingerprinter V)
    (columns : List String) (pkCol : String) (vals1 vals2 : List V)
    (h1 : vals1.length = columns.length) (h2 : vals2.length = columns.length)
    (hfree : ∀ v, v ∈ vals1 → '|' ∉ (fp.render v).data)
    (hne : vals1.map fp.render ≠ vals2.map fp.render) :
    (rowKeyAndText fp columns pkCol vals1).2 ≠ (rowKeyAndText fp columns pkCol vals2).2 := by
  rw [rowKeyAndText_text fp pkCol columns vals1 h1, rowKeyAndText_text fp pkCol columns vals2 h2]
  intro h
  apply hne
  apply frameText_injective _ _ (by simp [h1, h2]) _ h
  intro s hs
  obtain ⟨v, hv, rfl⟩ := List.mem_map.1 hs
  exact hfree v hv

/-- Two rows without a delimiter in the first one: the texts differ, as
`frame_distinct_without_delimiter` says. -/
theorem frame_distinct_without_delimiter_witness :
    (rowKeyAndText idFingerprinter ["id", "v"] "id" ["1", "a"]).2 = "1|a|" ∧
    (rowKeyAndText idFingerprinter ["id", "v"] "id" ["1", "b|"]).2 = "1|b||" ∧
    (rowKeyAndText idFingerprinter ["id", "v"] "id" ["1", "a"]).2 ≠
      (rowKeyAndText idFingerprinter ["id", "v"] "id" ["1", "b|"]).2 :=
  ⟨by decide, by decide,
   frame_distinct_without_delimiter idFingerprinter ["id", "v"] "id" ["1", "a"] ["1", "b|"]
     (by decide) (by decide) (by decide) (by decide)⟩

/-- Two different rows with the same key, `1, "x|", "y"` and `1, "x", "|y"`,
are framed to the same text `1|x||y|`; with a digest that has no collision at
all (the identity) `fetchRowsRange` gives them the same fingerprint, and
`compareData` reports no update for the key. -/
theorem frame_collision_counterexample :
    (["1", "x|", "y"].map idFingerprinter.render ≠ ["1", "x", "|y"].map idFingerprinter.render) ∧
    rowKeyAndText idFingerprinter ["id", "a", "b"] "id" ["1", "x|", "y"] = ("1", "1|x||y|") ∧
    rowKeyAndText idFingerprinter ["id", "a", "b"] "id" ["1", "x", "|y"] = ("1", "1|x||y|") ∧
    fetchRowsRange idFingerprinter ["id", "a", "b"] "id"
        (QueryOutcome.rows [Except.ok ["1", "x|", "y"]] none)
      = Except.ok ([("1", "1|x||y|")], [("1", ["1", "x|", "y"])]) ∧
    fetchRowsRange idFingerprinter ["id", "a", "b"] "id"
        (QueryOutcome.rows [Except.ok ["1", "x", "|y"]] none)
      = Except.ok ([("1", "1|x||y|")], [("1", ["1", "x", "|y"])]) ∧
    compareData [("1", "1|x||y|")] [("1", "1|x||y|")] = ([], [], []) := by
  refine ⟨by decide, by decide, by decide, rfl, rfl, by decide⟩

/-! ### The text and the arguments of the upsert -/

theorem intercalate_go_snoc (sep acc : String) (l : List String) (x : String) :
    String.intercalate.go acc sep (l ++ [x]) = String.intercalate.go acc sep l ++ sep ++ x := by
  induction l generalizing acc with
  | nil => simp [String.intercalate.go]
  | cons a rest ih => simp [String.intercalate.go, ih]

theorem joinStr_snoc (sep : String) (l : List String) (x : String) :
    joinStr (l ++ [x]) sep = if l = [] then x else joinStr l sep ++ sep ++ x := by
  cases l with
  | nil => simp [joinStr, String.intercalate, String.intercalate.go]
  | cons a rest => simp [joinStr, String.intercalate, intercalate_go_snoc]

theorem sepPrefix_succ (g : Nat → String) (sep : String) (n k : Nat) (hk : k < n) :
    sepPrefix g sep n (k + 1) =
      sepPrefix g sep n k ++ g k ++ (if k + 1 < n then sep else "") := by
  unfold sepPrefix
  rw [List.range_succ, List.map_append, List.map_singleton, joinStr_snoc]
  cases k with
  | zero =>
    simp
    split_ifs <;> simp
  | succ m =>
    have h1 : ¬ List.map g (List.range (m + 1)) = [] := by simp
    simp only [h1, if_false, hk, if_true, Nat.succ_ne_zero]
    split_ifs <;> simp [String.append_assoc]

theorem sepLoop (g : Nat → String) (sep : String) (n k : Nat) (hk : k ≤ n) (acc : String) :
    (List.range k).foldl (fun sb c => if c + 1 < n then sb ++ g c ++ sep else sb ++ g c) acc
      = acc ++ sepPrefix g sep n k := by
  induction k with
  | zero => simp [sepPrefix]
  | succ m ih =>
    rw [List.range_succ, List.foldl_append, ih (by omega), sepPrefix_succ g sep n m (by omega)]
    simp only [List.foldl_cons, List.foldl_nil]
    split_ifs <;> simp [String.append_assoc]

theorem placeholderRow_loop (numCols k : Nat) (sb : String) (idx : Nat) :
    (List.range k).foldl
      (fun st c =>
        let sb := st.1 ++ "$" ++ toString st.2
        let sb := if c + 1 < numCols then sb ++ "," else sb
        (sb, st.2 + 1))
      (sb, idx)
    = ((List.range k).foldl
        (fun sb c => if c + 1 < numCols then sb ++ ("$" ++ toString (idx + c)) ++ ","
          else sb ++ ("$" ++ toString (idx + c))) sb, idx + k) := by
  induction k with
  | zero => simp
  | succ m ih =>
    rw [List.range_succ, List.foldl_append, List.foldl_append, ih]
    simp only [List.foldl_cons, List.foldl_nil]
    split_ifs <;> simp [String.append_assoc, Nat.add_assoc]

theorem placeholderRow_closed (numCols : Nat) (sb : String) (idx : Nat) :
    placeholderRow numCols (sb, idx) = (sb ++ tupleText numCols idx, idx + numCols) := by
  unfold placeholderRow
  rw [placeholderRow_loop, sepLoop (fun c => "$" ++ toString (idx + c)) "," numCols numCols
    (Nat.le_refl _)]
  simp only [sepPrefix, tupleText, Nat.lt_irrefl, if_false]
  cases numCols with
  | zero => simp [joinStr, String.intercalate]
  | succ m => simp

theorem matrix_loop (numRows numCols k : Nat) (sb : String) :
    (List.range k).foldl
      (fun st r =>
        let st := placeholderRow numCols (st.1 ++ "(", st.2)
        let sb := st.1 ++ ")"
        let sb := if r + 1 < numRows then sb ++ "," else sb
        (sb, st.2))
      (sb, 1)
    = ((List.range k).foldl
        (fun sb r => if r + 1 < numRows
          then sb ++ ("(" ++ tupleText numCols (r * numCols + 1) ++ ")") ++ ","
          else sb ++ ("(" ++ tupleText numCols (r * numCols + 1) ++ ")")) sb,
        k * numCols + 1) := by
  induction k with
  | zero => simp
  | succ m ih =>
    rw [List.range_succ, List.foldl_append, List.foldl_append, ih]
    simp only [List.foldl_cons, List.foldl_nil, placeholderRow_closed]
    split_ifs <;> simp [String.append_assoc, Nat.add_mul, Nat.add_assoc, Nat.add_comm 1 numCols]

theorem makePlaceholderMatrix_closed (numRows numCols : Nat) :
    makePlaceholderMatrix numRows numCols =
      joinStr ((List.range numRows).map
        (fun r => "(" ++ joinStr ((List.range numCols).map
          (fun c => "$" ++ toString (r * numCols + c + 1))) "," ++ ")")) "," := by
  unfold makePlaceholderMatrix
  rw [matrix_loop, sepLoop (fun r => "(" ++ tupleText numCols (r * numCols + 1) ++ ")") ","
    numRows numRows (Nat.le_refl _)]
  have htuple : ∀ r, tupleText numCols (r * numCols + 1)
      = joinStr ((List.range numCols).map
          (fun c => "$" ++ toString (r * numCols + c + 1))) "," := by
    intro r
    unfold tupleText
    congr 1
    apply List.map_congr_left
    intro c _
    rw [Nat.add_right_comm]
  simp only [sepPrefix, Nat.lt_irrefl, if_false, htuple]
  cases numRows with
  | zero => simp [joinStr, String.intercalate]
  | succ m => simp


theorem flatten_getElem? {V : Type} (rowsData : List (List V)) (m : Nat)
    (h : ∀ r, r ∈ rowsData → r.length = m) (i j : Nat) (hj : j < m) :
    (flatten rowsData)[i * m + j]? = (rowsData[i]?).bind (fun r => r[j]?) := by
  unfold flatten
  rw [flatten_eq, List.nil_append]
  induction rowsData generalizing i with
  | nil => simp
  | cons r rest ih =>
    have h1 : r.length = m := h r (List.mem_cons_self _ _)
    have h2 := ih (fun r' hr' => h r' (List.mem_cons_of_mem _ hr'))
    rw [List.flatten_cons]
    cases i with
    | zero =>
      simp only [Nat.zero_mul, Nat.zero_add, List.getElem?_cons_zero, Option.some_bind]
      exact List.getElem?_append_left (by omega)
    | succ i' =>
      have hidx : (i' + 1) * m + j = r.length + (i' * m + j) := by
        rw [h1, Nat.add_mul, Nat.one_mul]; omega
      rw [hidx, List.getElem?_append_right (by omega), Nat.add_sub_cancel_left, h2 i']
      simp

theorem applyChanges_upsert_event {V : Type} (tx : TxOutcome) (table schema pkCol : String)
    (columns toInsert toUpdate toDelete : List String) (rowsMain rowsStandin : GoMap (List V)) :
    (applyChanges tx table schema pkCol columns toInsert toUpdate toDelete rowsMain
        rowsStandin).2.filter DbEvent.isUpsert =
      if tx.begin = none ∧ 0 < toInsert.length + toUpdate.length then
        [DbEvent.upsert
          (upsertSQL schema table columns [pkCol] (toInsert.length + toUpdate.length))
          (flatten ((toInsert ++ toUpdate).map (GoMap.rowOf rowsMain))) tx.upsert]
      else [] := by
  rw [applyChanges_cases, List.map_append]
  cases hb : tx.begin with
  | some e => simp [List.filter_cons, DbEvent.isUpsert]
  | none =>
    by_cases hn : 0 < toInsert.length + toUpdate.length
    · cases hu : tx.upsert with
      | some e => simp [hn, List.filter_cons, DbEvent.isUpsert]
      | none =>
        by_cases hd : 0 < toDelete.length
        · simp [hn, hd, List.filter_cons, DbEvent.isUpsert]
        · simp [hn, hd, List.filter_cons, DbEvent.isUpsert]
    · by_cases hd : 0 < toDelete.length
      · simp [hn, hd, List.filter_cons, DbEvent.isUpsert]
      · simp [hn, hd, List.filter_cons, DbEvent.isUpsert]

/-- C11. The upsert covers the insert and update keys with the source's
values: when every key of `toInsert` and `toUpdate` has a source row of one
value per column, the one upsert statement `applyChanges` sends has the text
of `doBatchUpsertTx` whose VALUES part is one bracketed tuple per key of
`toInsert` followed by `toUpdate`, the placeholders numbered `$1`, `$2`, ... row
by row; its argument list has (number of keys) × (number of columns) values,
argument number `i * M + j + 1` being column `j` of the source row of key `i`;
and neither the delete list nor the target's rows have any part in it. -/
theorem upsert_covers_source_rows {V : Type} (tx : TxOutcome) (table schema pkCol : String)
    (columns toInsert toUpdate toDelete : List String) (rowsMain rowsStandin : GoMap (List V))
    (hrows : ∀ k, k ∈ toInsert ++ toUpdate →
      (GoMap.rowOf rowsMain k).length = columns.length) :
    ((applyChanges tx table schema pkCol columns toInsert toUpdate toDelete rowsMain
        rowsStandin).2.filter DbEvent.isUpsert =
      if tx.begin = none ∧ 0 < toInsert.length + toUpdate.length then
        [DbEvent.upsert
          (upsertSQL schema table columns [pkCol] (toInsert.length + toUpdate.length))
          (flatten ((toInsert ++ toUpdate).map (GoMap.rowOf rowsMain))) tx.upsert]
      else []) ∧
    (upsertSQL schema table columns [pkCol] (toInsert.length + toUpdate.length) =
      "\nINSERT INTO \"" ++ schema ++ "\".\"" ++ table ++ "\" (" ++ quoteColumns columns
        ++ ")\nVALUES "
        ++ joinStr ((List.range (toInsert.length + toUpdate.length)).map
            (fun r => "(" ++ joinStr ((List.range columns.length).map
              (fun c => "$" ++ toString (r * columns.length + c + 1))) "," ++ ")")) ","
        ++ "\nON CONFLICT (" ++ quoteColumns [pkCol]
        ++ ")\nDO UPDATE SET " ++ joinStr (updateCols columns [pkCol]) ", " ++ "\n") ∧
    ((flatten ((toInsert ++ toUpdate).map (GoMap.rowOf rowsMain))).length
      = (toInsert.length + toUpdate.length) * columns.length) ∧
    (∀ i j, i < toInsert.length + toUpdate.length → j < columns.length →
      (flatten ((toInsert ++ toUpdate).map (GoMap.rowOf rowsMain)))[i * columns.length + j]?
        = ((toInsert ++ toUpdate)[i]?).bind (fun k => (GoMap.rowOf rowsMain k)[j]?)) ∧
    (∀ (toDelete2 : List String) (rowsStandin2 : GoMap (List V)),
      (applyChanges tx table schema pkCol columns toInsert toUpdate toDelete2 rowsMain
          rowsStandin2).2.filter DbEvent.isUpsert =
        (applyChanges tx table schema pkCol columns toInsert toUpdate toDelete rowsMain
          rowsStandin).2.filter DbEvent.isUpsert) := by
  have hall : ∀ r, r ∈ (toInsert ++ toUpdate).map (GoMap.rowOf rowsMain) →
      r.length = columns.length := by
    intro r hr
    obtain ⟨k, hk, rfl⟩ := List.mem_map.1 hr
    exact hrows k hk
  refine ⟨applyChanges_upsert_event _ _ _ _ _ _ _ _ _ _, ?_, ?_, ?_, ?_⟩
  · simp only [upsertSQL, makePlaceholderMatrix_closed]
  · rw [flatten_length _ columns.length hall]
    simp
  · intro i j _ hj
    rw [flatten_getElem? _ columns.length hall i j hj]
    simp only [List.getElem?_map]
    cases (toInsert ++ toUpdate)[i]? <;> rfl
  · intro toDelete2 rowsStandin2
    rw [applyChanges_upsert_event, applyChanges_upsert_event]

/-- Keys 1 and 2 to insert and key 3 to update in a table of two columns:
three tuples numbered `$1` to `$6` and the six values of the three source rows
in that order; `upsert_covers_source_rows` holds there. -/
theorem upsert_covers_source_rows_witness :
    makePlaceholderMatrix 3 2 = "($1,$2),($3,$4),($5,$6)" ∧
    flatten ((["1", "2"] ++ ["3"]).map
        (GoMap.rowOf [("1", ["1", "a"]), ("2", ["2", "b"]), ("3", ["3", "c"])]))
      = ["1", "a", "2", "b", "3", "c"] ∧
    (flatten ((["1", "2"] ++ ["3"]).map
        (GoMap.rowOf [("1", ["1", "a"]), ("2", ["2", "b"]), ("3", ["3", "c"])]))).length
      = (["1", "2"].length + ["3"].length) * ["id", "v"].length :=
  ⟨by decide, by decide,
   (upsert_covers_source_rows okTx "t" "public" "id" ["id", "v"] ["1", "2"] ["3"] ["4"]
      [("1", ["1", "a"]), ("2", ["2", "b"]), ("3", ["3", "c"])]
      [("3", ["3", "x"]), ("4", ["4", "d"])] (by decide)).2.2.1⟩

/-! ### The worker pool -/

theorem firstLive_some (l : List WorkerState) (i : Nat) (h : firstLive l = some i) :
    ∃ st, l[i]? = some st ∧ st.isLive = true := by
  induction l generalizing i with
  | nil => simp [firstLive] at h
  | cons st rest ih =>
    unfold firstLive at h
    by_cases hl : st.isLive = true
    · simp only [hl, if_true, Option.some.injEq] at h
      subst h
      exact ⟨st, by simp, hl⟩
    · simp only [hl] at h
      cases hf : firstLive rest with
      | none => simp [hf] at h
      | some j =>
        simp [hf] at h
        subst h
        obtain ⟨st2, h1, h2⟩ := ih j hf
        exact ⟨st2, by simpa using h1, h2⟩

theorem firstLive_none (l : List WorkerState) (h : firstLive l = none) :
    ∀ st, st ∈ l → st = WorkerState.exited := by
  induction l with
  | nil => simp
  | cons st rest ih =>
    unfold firstLive at h
    by_cases hl : st.isLive = true
    · simp [hl] at h
    · simp only [hl] at h
      have hr : firstLive rest = none := by
        cases hf : firstLive rest with
        | none => rfl
        | some j => simp [hf] at h
      intro st2 hst2
      rcases List.mem_cons.1 hst2 with h1 | h1
      · subst h1
        cases st2 <;> simp_all [WorkerState.isLive]
      · exact ih hr st2 h1

theorem pickWorker_some (workers : List WorkerState) (pref w : Nat)
    (h : pickWorker workers pref = some w) :
    ∃ st, workers[w]? = some st ∧ st.isLive = true := by
  unfold pickWorker at h
  cases hp : workers[pref]? with
  | none =>
    simp only [hp] at h
    exact firstLive_some _ _ h
  | some st =>
    simp only [hp] at h
    by_cases hl : st.isLive = true
    · simp only [hl, if_true, Option.some.injEq] at h
      subst h
      exact ⟨st, hp, hl⟩
    · simp only [hl] at h
      exact firstLive_some _ _ h

theorem pickWorker_none (workers : List WorkerState) (pref : Nat)
    (h : pickWorker workers pref = none) : ∀ st, st ∈ workers → st = WorkerState.exited := by
  unfold pickWorker at h
  cases hp : workers[pref]? with
  | none =>
    simp only [hp] at h
    exact firstLive_none _ h
  | some st =>
    simp only [hp] at h
    by_cases hl : st.isLive = true
    · simp [hl] at h
    · simp only [hl] at h
      exact firstLive_none _ h

theorem weight_sum_set (l : List WorkerState) (i : Nat) (a b : WorkerState)
    (h : l[i]? = some a) :
    ((l.set i b).map WorkerState.weight).sum + a.weight
      = (l.map WorkerState.weight).sum + b.weight := by
  induction l generalizing i with
  | nil => simp at h
  | cons x rest ih =>
    cases i with
    | zero =>
      simp only [List.getElem?_cons_zero, Option.some.injEq] at h
      subst h
      simp only [List.set_cons_zero, List.map_cons, List.sum_cons]
      omega
    | succ j =>
      simp only [List.getElem?_cons_succ] at h
      have := ih j h
      simp only [List.set_cons_succ, List.map_cons, List.sum_cons]
      omega

theorem poolStep_measure (tableResult : String → Option (Option String)) (s : PoolState)
    (w : Nat) (st : WorkerState) (h : s.workers[w]? = some st) (hl : st.isLive = true)
    (hret : ∀ t, st = WorkerState.busy t → tableResult t ≠ none) :
    poolMeasure (poolStep tableResult s w) < poolMeasure s := by
  unfold poolStep poolMeasure
  cases st with
  | exited => simp [WorkerState.isLive] at hl
  | idle =>
    simp only [h]
    cases hq : s.tableCh with
    | nil =>
      have := weight_sum_set s.workers w _ WorkerState.exited h
      simp only [WorkerState.weight] at this
      simp only [List.length_nil]
      omega
    | cons tbl rest =>
      have := weight_sum_set s.workers w _ (WorkerState.busy tbl) h
      simp only [WorkerState.weight] at this
      simp only [List.length_cons]
      omega
  | busy tbl =>
    simp only [h]
    cases hr : tableResult tbl with
    | none => exact absurd hr (hret tbl rfl)
    | some r =>
      cases r with
      | none =>
        have := weight_sum_set s.workers w _ WorkerState.idle h
        simp only [WorkerState.weight] at this
        simp only
        omega
      | some e =>
        have := weight_sum_set s.workers w _ WorkerState.exited h
        simp only [WorkerState.weight] at this
        simp only
        omega

theorem runPool_exited (tableResult : String → Option (Option String)) (sched : Nat → Nat)
    (fuel n : Nat) (s : PoolState) (h : (runPool tableResult sched fuel n s).2 = true) :
    ∀ st, st ∈ (runPool tableResult sched fuel n s).1.workers → st = WorkerState.exited := by
  induction fuel generalizing n s with
  | zero =>
    unfold runPool at h ⊢
    cases hp : pickWorker s.workers (sched n) with
    | none => simpa [hp] using pickWorker_none _ _ hp
    | some w => simp [hp] at h
  | succ f ih =>
    unfold runPool at h ⊢
    cases hp : pickWorker s.workers (sched n) with
    | none => simpa [hp] using pickWorker_none _ _ hp
    | some w =>
      simp only [hp] at h ⊢
      exact ih _ _ h

theorem poolStep_inv (tableResult : String → Option (Option String)) (s : PoolState) (w : Nat)
    (h : PoolInv tableResult s) : PoolInv tableResult (poolStep tableResult s w) := by
  obtain ⟨hA, hB, hD⟩ := h
  unfold poolStep
  cases hw : s.workers[w]? with
  | none => exact ⟨hA, hB, hD⟩
  | some st =>
    have hlt : w < s.workers.length := by
      by_contra hc
      rw [List.getElem?_eq_none (by omega)] at hw
      cases hw
    cases st with
    | exited => exact ⟨hA, hB, hD⟩
    | idle =>
      simp only
      cases hq : s.tableCh with
      | nil =>
        refine ⟨hA, ?_, ?_⟩
        · intro c e hc he
          rcases hB c e hc he with h1 | h1
          · exact Or.inl h1
          · right
            have hne : w ≠ c.1 := by
              intro heq
              rw [← heq, hw] at h1
              cases h1
            simpa [List.getElem?_set_ne hne] using h1
        · intro w2 t h2
          by_cases heq : w = w2
          · subst heq
            simp [List.getElem?_set_self, hlt] at h2
          · rw [List.getElem?_set_ne heq] at h2
            exact hD w2 t h2
      | cons tbl rest =>
        refine ⟨?_, ?_, ?_⟩
        · intro e he
          obtain ⟨c, hc, hr⟩ := hA e he
          exact ⟨c, List.mem_append_left _ hc, hr⟩
        · intro c e hc he
          rcases List.mem_append.1 hc with hc1 | hc1
          · rcases hB c e hc1 he with h1 | h1
            · exact Or.inl h1
            · right
              have hne : w ≠ c.1 := by
                intro heq
                rw [← heq, hw] at h1
                cases h1
              simpa [List.getElem?_set_ne hne] using h1
          · simp only [List.mem_singleton] at hc1
            subst hc1
            right
            simp [List.getElem?_set_self, hlt]
        · intro w2 t h2
          by_cases heq : w = w2
          · subst heq
            simp [List.getElem?_set_self, hlt] at h2
            subst h2
            exact List.mem_append_right _ (List.mem_singleton_self _)
          · rw [List.getElem?_set_ne heq] at h2
            exact List.mem_append_left _ (hD w2 t h2)
    | busy tbl =>
      simp only
      cases hr : tableResult tbl with
      | none => exact ⟨hA, hB, hD⟩
      | some r =>
        cases r with
        | none =>
          refine ⟨hA, ?_, ?_⟩
          · intro c e hc he
            rcases hB c e hc he with h1 | h1
            · exact Or.inl h1
            · by_cases heq : w = c.1
              · rw [← heq, hw] at h1
                simp only [Option.some.injEq, WorkerState.busy.injEq] at h1
                rw [← h1, hr] at he
                cases he
              · right
                simpa [List.getElem?_set_ne heq] using h1
          · intro w2 t h2
            by_cases heq : w = w2
            · subst heq
              simp [List.getElem?_set_self, hlt] at h2
            · rw [List.getElem?_set_ne heq] at h2
              exact hD w2 t h2
        | some e0 =>
          refine ⟨?_, ?_, ?_⟩
          · intro e he
            rcases List.mem_append.1 he with h1 | h1
            · exact hA e h1
            · simp only [List.mem_singleton] at h1
              subst h1
              exact ⟨(w, tbl), hD w tbl hw, hr⟩
          · intro c e hc he
            rcases hB c e hc he with h1 | h1
            · exact Or.inl (List.mem_append_left _ h1)
            · by_cases heq : w = c.1
              · rw [← heq, hw] at h1
                simp only [Option.some.injEq, WorkerState.busy.injEq] at h1
                rw [← h1, hr] at he
                simp only [Option.some.injEq] at he
                subst he
                exact Or.inl (List.mem_append_right _ (List.mem_singleton_self _))
              · right
                simpa [List.getElem?_set_ne heq] using h1
          · intro w2 t h2
            by_cases heq : w = w2
            · subst heq
              simp [List.getElem?_set_self, hlt] at h2
            · rw [List.getElem?_set_ne heq] at h2
              exact hD w2 t h2

theorem runPool_inv (tableResult : String → Option (Option String)) (sched : Nat → Nat)
    (fuel n : Nat) (s : PoolState) (h : PoolInv tableResult s) :
    PoolInv tableResult (runPool tableResult sched fuel n s).1 := by
  induction fuel generalizing n s with
  | zero =>
    unfold runPool
    cases hp : pickWorker s.workers (sched n) <;> exact h
  | succ f ih =>
    unfold runPool
    cases hp : pickWorker s.workers (sched n) with
    | none => exact h
    | some w => exact ih _ _ (poolStep_inv tableResult s w h)

theorem poolStep_order (tableResult : String → Option (Option String)) (tables : List String)
    (s : PoolState) (w : Nat) (h : PoolOrder tables s) :
    PoolOrder tables (poolStep tableResult s w) := by
  obtain ⟨hG, hH⟩ := h
  unfold poolStep
  cases hw : s.workers[w]? with
  | none => exact ⟨hG, hH⟩
  | some st =>
    cases st with
    | exited => exact ⟨hG, hH⟩
    | idle =>
      simp only
      cases hq : s.tableCh with
      | nil =>
        refine ⟨by simpa [hq] using hG, ?_⟩
        intro st hst _
        exact Or.inl rfl
      | cons tbl rest =>
        refine ⟨by simpa [hq] using hG, ?_⟩
        intro st hst hex
        rcases List.mem_or_eq_of_mem_set hst with h1 | h1
        · rcases hH st h1 hex with h2 | h2
          · rw [hq] at h2; cases h2
          · exact Or.inr h2
        · rw [hex] at h1; cases h1
    | busy tbl =>
      simp only
      cases hr : tableResult tbl with
      | none => exact ⟨hG, hH⟩
      | some r =>
        cases r with
        | none =>
          refine ⟨hG, ?_⟩
          intro st hst hex
          rcases List.mem_or_eq_of_mem_set hst with h1 | h1
          · exact hH st h1 hex
          · rw [hex] at h1; cases h1
        | some e0 =>
          refine ⟨hG, ?_⟩
          intro st hst hex
          right
          simp

theorem runPool_order (tableResult : String → Option (Option String)) (sched : Nat → Nat)
    (tables : List String) (fuel n : Nat) (s : PoolState) (h : PoolOrder tables s) :
    PoolOrder tables (runPool tableResult sched fuel n s).1 := by
  induction fuel generalizing n s with
  | zero =>
    unfold runPool
    cases hp : pickWorker s.workers (sched n) <;> exact h
  | succ f ih =>
    unfold runPool
    cases hp : pickWorker s.workers (sched n) with
    | none => exact h
    | some w => exact ih _ _ (poolStep_order tableResult tables s w h)

theorem runPool_finishes (tableResult : String → Option (Option String)) (sched : Nat → Nat)
    (tables : List String) (hret : ∀ t, t ∈ tables → tableResult t ≠ none)
    (fuel n : Nat) (s : PoolState) (hinv : PoolInv tableResult s) (hord : PoolOrder tables s)
    (h : poolMeasure s ≤ fuel) :
    (runPool tableResult sched fuel n s).2 = true := by
  have hbusy : ∀ (s : PoolState), PoolInv tableResult s → PoolOrder tables s →
      ∀ (w : Nat) (st : WorkerState), s.workers[w]? = some st → ∀ t, st = WorkerState.busy t →
        tableResult t ≠ none := by
    intro s hinv hord w st hw t hst
    subst hst
    have hc := hinv.2.2 w t hw
    have ht : t ∈ s.calls.map Prod.snd := List.mem_map.2 ⟨(w, t), hc, rfl⟩
    exact hret t (hord.1 ▸ List.mem_append_left _ ht)
  induction fuel generalizing n s with
  | zero =>
    unfold runPool
    cases hp : pickWorker s.workers (sched n) with
    | none => rfl
    | some w =>
      obtain ⟨st, h1, h2⟩ := pickWorker_some _ _ _ hp
      have := poolStep_measure tableResult s w st h1 h2 (hbusy s hinv hord w st h1)
      omega
  | succ f ih =>
    unfold runPool
    cases hp : pickWorker s.workers (sched n) with
    | none => rfl
    | some w =>
      obtain ⟨st, h1, h2⟩ := pickWorker_some _ _ _ hp
      have := poolStep_measure tableResult s w st h1 h2 (hbusy s hinv hord w st h1)
      simp only
      exact ih _ _ (poolStep_inv tableResult s w hinv) (poolStep_order tableResult tables s w hord)
        (by omega)

theorem runPool_workers_length (tableResult : String → Option (Option String))
    (sched : Nat → Nat) (fuel n : Nat) (s : PoolState) :
    (runPool tableResult sched fuel n s).1.workers.length = s.workers.length := by
  induction fuel generalizing n s with
  | zero =>
    unfold runPool
    cases hp : pickWorker s.workers (sched n) <;> rfl
  | succ f ih =>
    unfold runPool
    cases hp : pickWorker s.workers (sched n) with
    | none => rfl
    | some w =>
      simp only
      rw [ih]
      unfold poolStep
      cases hw : s.workers[w]? with
      | none => rfl
      | some st =>
        cases st with
        | exited => rfl
        | idle => cases s.tableCh <;> simp
        | busy tbl =>
          cases hr : tableResult tbl with
          | none => simp [hr]
          | some r => cases r <;> simp [hr]

theorem poolStep_hung (tableResult : String → Option (Option String)) (s : PoolState)
    (w : Nat) (h : ∃ (v : Nat) (t : String), s.workers[v]? = some (WorkerState.busy t) ∧ tableResult t = none) :
    ∃ (v : Nat) (t : String), (poolStep tableResult s w).workers[v]? = some (WorkerState.busy t) ∧
      tableResult t = none := by
  obtain ⟨v, t, hv, ht⟩ := h
  unfold poolStep
  cases hw : s.workers[w]? with
  | none => exact ⟨v, t, hv, ht⟩
  | some st =>
    have hne : ∀ st2, st2 ≠ WorkerState.busy t → s.workers[w]? = some st2 → w ≠ v := by
      intro st2 h2 hw2 heq
      rw [heq, hv] at hw2
      exact h2 (Option.some.inj hw2).symm
    cases st with
    | exited => exact ⟨v, t, hv, ht⟩
    | idle =>
      have hwv := hne _ (by simp) hw
      cases s.tableCh with
      | nil => exact ⟨v, t, by simpa [List.getElem?_set_ne hwv] using hv, ht⟩
      | cons tbl rest => exact ⟨v, t, by simpa [List.getElem?_set_ne hwv] using hv, ht⟩
    | busy tbl =>
      cases hr : tableResult tbl with
      | none => exact ⟨v, t, by simpa [hr] using hv, ht⟩
      | some r =>
        have hwv : w ≠ v := by
          apply hne _ _ hw
          intro heq
          simp only [WorkerState.busy.injEq] at heq
          rw [heq, ht] at hr
          cases hr
        cases r with
        | none => exact ⟨v, t, by simpa [hr, List.getElem?_set_ne hwv] using hv, ht⟩
        | some e => exact ⟨v, t, by simpa [hr, List.getElem?_set_ne hwv] using hv, ht⟩

theorem runPool_hung (tableResult : String → Option (Option String)) (sched : Nat → Nat)
    (fuel n : Nat) (s : PoolState)
    (h : ∃ (v : Nat) (t : String), s.workers[v]? = some (WorkerState.busy t) ∧ tableResult t = none) :
    (runPool tableResult sched fuel n s).2 = false := by
  have hpick : ∀ (s : PoolState) (n : Nat),
      (∃ (v : Nat) (t : String), s.workers[v]? = some (WorkerState.busy t) ∧ tableResult t = none) →
      pickWorker s.workers (sched n) ≠ none := by
    intro s n ⟨v, t, hv, _⟩ hp
    have := pickWorker_none _ _ hp _ (List.getElem?_mem hv)
    cases this
  induction fuel generalizing n s with
  | zero =>
    unfold runPool
    cases hp : pickWorker s.workers (sched n) with
    | none => exact absurd hp (hpick s n h)
    | some w => rfl
  | succ f ih =>
    unfold runPool
    cases hp : pickWorker s.workers (sched n) with
    | none => exact absurd hp (hpick s n h)
    | some w => exact ih _ _ (poolStep_hung tableResult s w h)

theorem pool_outcome (tableResult : String → Option (Option String)) (sched : Nat → Nat)
    (fuel : Nat) (tables : List String) (workerCount : Nat)
    (hret : ∀ t, t ∈ tables → tableResult t ≠ none)
    (hfuel : 3 * tables.length + workerCount ≤ fuel) :
    (runPool tableResult sched fuel 0
        ⟨tables, List.replicate workerCount WorkerState.idle, [], []⟩).2 = true ∧
    (∀ e, e ∈ (runPool tableResult sched fuel 0
        ⟨tables, List.replicate workerCount WorkerState.idle, [], []⟩).1.errCh →
      ∃ c, c ∈ (runPool tableResult sched fuel 0
        ⟨tables, List.replicate workerCount WorkerState.idle, [], []⟩).1.calls ∧
        tableResult c.2 = some (some e)) ∧
    (∀ c e, c ∈ (runPool tableResult sched fuel 0
        ⟨tables, List.replicate workerCount WorkerState.idle, [], []⟩).1.calls →
      tableResult c.2 = some (some e) →
      e ∈ (runPool tableResult sched fuel 0
        ⟨tables, List.replicate workerCount WorkerState.idle, [], []⟩).1.errCh) := by
  have hinv0 : PoolInv tableResult
      ⟨tables, List.replicate workerCount WorkerState.idle, [], []⟩ := by
    refine ⟨by simp, by simp, ?_⟩
    intro w t h
    have hmem := List.getElem?_mem h
    simp at hmem
  have hord0 : PoolOrder tables
      ⟨tables, List.replicate workerCount WorkerState.idle, [], []⟩ := by
    refine ⟨by simp, ?_⟩
    intro st hst hex
    rw [List.mem_replicate] at hst
    rw [hst.2] at hex
    cases hex
  have hm : poolMeasure ⟨tables, List.replicate workerCount WorkerState.idle, [], []⟩
      ≤ fuel := by
    simp [poolMeasure, WorkerState.weight]
    omega
  have hfin := runPool_finishes tableResult sched tables hret fuel 0 _ hinv0 hord0 hm
  obtain ⟨hA, hB, _⟩ := runPool_inv tableResult sched fuel 0 _ hinv0
  refine ⟨hfin, hA, ?_⟩
  intro c e hc he
  rcases hB c e hc he with h1 | h1
  · exact h1
  · have := runPool_exited tableResult sched fuel 0 _ hfin _ (List.getElem?_mem h1)
    cases this

theorem pool_order_outcome (tableResult : String → Option (Option String))
    (sched : Nat → Nat) (fuel : Nat) (tables : List String) (workerCount : Nat)
    (hw : 1 ≤ workerCount)
    (hfin : (runPool tableResult sched fuel 0
        ⟨tables, List.replicate workerCount WorkerState.idle, [], []⟩).2 = true) :
    (∃ rest, (runPool tableResult sched fuel 0
        ⟨tables, List.replicate workerCount WorkerState.idle, [], []⟩).1.calls.map Prod.snd
          ++ rest = tables) ∧
    ((runPool tableResult sched fuel 0
        ⟨tables, List.replicate workerCount WorkerState.idle, [], []⟩).1.errCh = [] →
      (runPool tableResult sched fuel 0
        ⟨tables, List.replicate workerCount WorkerState.idle, [], []⟩).1.calls.map Prod.snd
          = tables) := by
  have h0 : PoolOrder tables ⟨tables, List.replicate workerCount WorkerState.idle, [], []⟩ := by
    refine ⟨by simp, ?_⟩
    intro st hst hex
    rw [List.mem_replicate] at hst
    rw [hst.2] at hex
    cases hex
  obtain ⟨hG, hH⟩ := runPool_order tableResult sched tables fuel 0 _ h0
  refine ⟨⟨_, hG⟩, ?_⟩
  intro herr
  have hlen := runPool_workers_length tableResult sched fuel 0
    ⟨tables, List.replicate workerCount WorkerState.idle, [], []⟩
  simp only [List.length_replicate] at hlen
  obtain ⟨st, hst⟩ : ∃ st, st ∈ (runPool tableResult sched fuel 0
      ⟨tables, List.replicate workerCount WorkerState.idle, [], []⟩).1.workers := by
    apply List.exists_mem_of_length_pos
    omega
  have hex := runPool_exited tableResult sched fuel 0 _ hfin st hst
  rcases hH st hst hex with h1 | h1
  · rw [h1, List.append_nil] at hG
    exact hG
  · exact absurd herr h1

/-! ### The orchestrator -/

theorem mainSet_get? (l : List String) (m : GoMap Bool) (t : String) :
    GoMap.get? (l.foldl (fun m t => GoMap.set m t true) m) t =
      if t ∈ l then some true else GoMap.get? m t := by
  induction l generalizing m with
  | nil => simp
  | cons a rest ih =>
    rw [List.foldl_cons, ih]
    by_cases h : t ∈ rest
    · simp [h]
    · by_cases h2 : a = t
      · subst h2; simp [h, GoMap.get?_set]
      · have h3 : ¬ t = a := fun e => h2 e.symm
        simp [h, h2, h3, GoMap.get?_set]

theorem dropExtraTables_events (dropResult : String → Option String)
    (standinTables mainTables : List String) (schema : String) :
    (dropExtraTables dropResult standinTables mainTables schema).2 =
      (standinTables.filter (fun t => decide (t ∉ mainTables))).map
        (fun t => RunEvent.dropTable (dropSQL schema t) (dropResult t)) := by
  unfold dropExtraTables
  simp only
  have hgen : ∀ (l : List String) (acc : List RunEvent),
      l.foldl
        (fun evs t =>
          if !((GoMap.get? (mainTables.foldl (fun m t => GoMap.set m t true)
              ([] : GoMap Bool)) t).getD false) then
            evs ++ [RunEvent.dropTable (dropSQL schema t) (dropResult t)]
          else evs) acc
      = acc ++ (l.filter (fun t => decide (t ∉ mainTables))).map
        (fun t => RunEvent.dropTable (dropSQL schema t) (dropResult t)) := by
    intro l
    induction l with
    | nil => simp
    | cons a rest ih =>
      intro acc
      rw [List.foldl_cons, ih]
      by_cases h : a ∈ mainTables
      · simp [mainSet_get?, h, GoMap.get?, List.filter_cons]
      · simp [mainSet_get?, h, GoMap.get?, List.filter_cons]
  rw [hgen]
  simp

theorem SyncData_reached (cfg : Config) (env : RunEnv) (sched : Nat → Nat) (fuel : Nat)
    (mainTables standinTables : List String) (hb : env.beginTx = none)
    (hm : env.mainTables = Except.ok mainTables) (hne : mainTables ≠ [])
    (hs : env.standinTables = Except.ok standinTables) :
    SyncData cfg env sched fuel =
      if (runPool env.tableResult sched fuel 0
          ⟨mainTables, List.replicate (workerCount cfg) WorkerState.idle, [], []⟩).2 = true then
        ⟨poolEvents cfg env standinTables mainTables
            (runPool env.tableResult sched fuel 0
              ⟨mainTables, List.replicate (workerCount cfg) WorkerState.idle, [], []⟩).1
          ++ (runEnding env (runPool env.tableResult sched fuel 0
              ⟨mainTables, List.replicate (workerCount cfg) WorkerState.idle, [], []⟩).1).1,
          some (runEnding env (runPool env.tableResult sched fuel 0
              ⟨mainTables, List.replicate (workerCount cfg) WorkerState.idle, [], []⟩).1).2⟩
      else
        ⟨poolEvents cfg env standinTables mainTables
            (runPool env.tableResult sched fuel 0
              ⟨mainTables, List.replicate (workerCount cfg) WorkerState.idle, [], []⟩).1,
          none⟩ := by
  have hlen : ¬ mainTables.length = 0 := by
    cases mainTables with
    | nil => exact absurd rfl hne
    | cons a rest => simp
  have hdrops : (if cfg.CleanExtra = true then
        dropExtraTables env.dropResult standinTables mainTables cfg.Schema
      else (none, [])) = (none, cleanupEvents cfg env standinTables mainTables) := by
    unfold cleanupEvents
    cases cfg.CleanExtra
    · rfl
    · simp only [if_true]
      exact Prod.ext rfl (dropExtraTables_events _ _ _ _)
  unfold SyncData
  simp only [hb, hm, hs, hlen, if_false, hdrops]
  unfold poolEvents runEnding
  split_ifs with hp
  · cases (runPool env.tableResult sched fuel 0
        ⟨mainTables, List.replicate (workerCount cfg) WorkerState.idle, [], []⟩).1.errCh with
    | cons e rest => rfl
    | nil => cases env.commit <;> rfl
  · rfl

theorem filterMap_map_none {α β γ : Type} (l : List α) (f : α → β) (g : β → Option γ)
    (h : ∀ x, g (f x) = none) : (l.map f).filterMap g = [] := by
  induction l with
  | nil => rfl
  | cons a rest ih => simp [List.filterMap_cons, h, ih]

theorem filterMap_map_some {α β γ : Type} (l : List α) (f : α → β) (g : β → Option γ)
    (k : α → γ) (h : ∀ x, g (f x) = some (k x)) : (l.map f).filterMap g = l.map k := by
  induction l with
  | nil => rfl
  | cons a rest ih => simp [List.filterMap_cons, h, ih]

theorem poolEvents_syncCall (cfg : Config) (env : RunEnv)
    (standinTables mainTables : List String) (pool : PoolState) :
    (poolEvents cfg env standinTables mainTables pool).filterMap RunEvent.syncCall =
      pool.calls.map Prod.snd := by
  have hclean : (cleanupEvents cfg env standinTables mainTables).filterMap RunEvent.syncCall
      = [] := by
    unfold cleanupEvents
    cases cfg.CleanExtra
    · rfl
    · simp only [if_true]
      exact filterMap_map_none _ _ _ (fun _ => rfl)
  unfold poolEvents
  rw [List.filterMap_append, List.filterMap_append, List.filterMap_append, hclean,
    filterMap_map_none (List.range (workerCount cfg))
      (fun i => RunEvent.startWorker (i + 1)) RunEvent.syncCall (fun _ => rfl),
    filterMap_map_some pool.calls (fun c => RunEvent.syncTable (c.1 + 1) c.2)
      RunEvent.syncCall Prod.snd (fun _ => rfl)]
  simp [List.filterMap_cons, RunEvent.syncCall]

theorem filter_map_false {α β : Type} (l : List α) (f : α → β) (p : β → Bool)
    (h : ∀ x, p (f x) = false) : (l.map f).filter p = [] := by
  induction l with
  | nil => rfl
  | cons a rest ih => simp [List.filter_cons, h, ih]

theorem filter_map_true {α β : Type} (l : List α) (f : α → β) (p : β → Bool)
    (h : ∀ x, p (f x) = true) : (l.map f).filter p = l.map f := by
  induction l with
  | nil => rfl
  | cons a rest ih => simp [List.filter_cons, h, ih]

theorem cleanupEvents_filter (cfg : Config) (env : RunEnv)
    (standinTables mainTables : List String) (p : RunEvent → Bool)
    (h : ∀ sql err, p (RunEvent.dropTable sql err) = false) :
    (cleanupEvents cfg env standinTables mainTables).filter p = [] := by
  unfold cleanupEvents
  cases cfg.CleanExtra
  · rfl
  · simp only [if_true]
    exact filter_map_false _ _ _ (fun _ => h _ _)

theorem poolEvents_isCommit (cfg : Config) (env : RunEnv)
    (standinTables mainTables : List String) (pool : PoolState) :
    (poolEvents cfg env standinTables mainTables pool).filter RunEvent.isCommit = [] := by
  unfold poolEvents
  rw [List.filter_append, List.filter_append, List.filter_append,
    cleanupEvents_filter _ _ _ _ _ (fun _ _ => rfl),
    filter_map_false _ _ _ (fun _ => rfl), filter_map_false _ _ _ (fun _ => rfl)]
  simp [List.filter_cons, RunEvent.isCommit]

theorem poolEvents_isStartWorker (cfg : Config) (env : RunEnv)
    (standinTables mainTables : List String) (pool : PoolState) :
    ((poolEvents cfg env standinTables mainTables pool).filter
      RunEvent.isStartWorker).length = workerCount cfg := by
  unfold poolEvents
  rw [List.filter_append, List.filter_append, List.filter_append,
    cleanupEvents_filter _ _ _ _ _ (fun _ _ => rfl),
    filter_map_true _ _ _ (fun _ => rfl), filter_map_false _ _ _ (fun _ => rfl)]
  simp [List.filter_cons, RunEvent.isStartWorker]

theorem runEnding_filters (env : RunEnv) (pool : PoolState) :
    (runEnding env pool).1.filterMap RunEvent.syncCall = [] ∧
    (runEnding env pool).1.filter RunEvent.isStartWorker = [] := by
  unfold runEnding
  cases pool.errCh with
  | cons e rest => exact ⟨rfl, rfl⟩
  | nil => cases env.commit <;> exact ⟨rfl, rfl⟩

theorem workerCount_eq (cfg : Config) : ((workerCount cfg : Nat) : Int) = max 1 cfg.Workers := by
  unfold workerCount
  split_ifs with h
  · rw [max_eq_left (by omega)]; rfl
  · rw [max_eq_right (by omega)]
    exact Int.toNat_of_nonneg (by omega)

theorem workerCount_pos (cfg : Config) : 1 ≤ workerCount cfg := by
  have := workerCount_eq cfg
  have h2 : (1 : Int) ≤ max 1 cfg.Workers := le_max_left _ _
  omega

theorem pickWorker_single (st : WorkerState) (pref : Nat) (h : st.isLive = true) :
    pickWorker [st] pref = some 0 := by
  unfold pickWorker
  cases pref with
  | zero => simp [h]
  | succ k => simp [firstLive, h]

/-- C13 as the code has it. In a run in which the source transaction opens,
both table lists are read and every call of `syncTableData` on a source
table returns, `SyncData` returns, and the tables handed to `syncTableData`
are an initial part of the source table list. When none of these calls
returned an error, every source table was synchronised, the commit of the
source transaction is attempted, and the run returns success when that commit
succeeds and an error when it fails. When one of them returned an error, no
commit is attempted and the value returned is the error of one of the calls.
No worker is started for an empty source table list, and otherwise their
number is the larger of 1 and the configured count. -/
theorem run_outcome (cfg : Config) (env : RunEnv) (sched : Nat → Nat) (fuel : Nat)
    (mainTables standinTables : List String) (hb : env.beginTx = none)
    (hm : env.mainTables = Except.ok mainTables)
    (hs : env.standinTables = Except.ok standinTables)
    (hret : ∀ t, t ∈ mainTables → env.tableResult t ≠ none)
    (hfuel : 3 * mainTables.length + workerCount cfg ≤ fuel) :
    (∃ v, (SyncData cfg env sched fuel).returned = some v) ∧
    (∃ rest, (SyncData cfg env sched fuel).events.filterMap RunEvent.syncCall ++ rest
      = mainTables) ∧
    ((∀ t e, t ∈ (SyncData cfg env sched fuel).events.filterMap RunEvent.syncCall →
        env.tableResult t ≠ some (some e)) →
      (SyncData cfg env sched fuel).events.filterMap RunEvent.syncCall = mainTables ∧
      (SyncData cfg env sched fuel).events.filter RunEvent.isCommit
        = [RunEvent.commit env.commit] ∧
      (env.commit = none → (SyncData cfg env sched fuel).returned = some none) ∧
      (∀ e, env.commit = some e →
        ∃ msg, (SyncData cfg env sched fuel).returned = some (some msg))) ∧
    ((∃ t e, t ∈ (SyncData cfg env sched fuel).events.filterMap RunEvent.syncCall ∧
        env.tableResult t = some (some e)) →
      (SyncData cfg env sched fuel).events.filter RunEvent.isCommit = [] ∧
      ∃ t e, t ∈ (SyncData cfg env sched fuel).events.filterMap RunEvent.syncCall ∧
        env.tableResult t = some (some e) ∧
        (SyncData cfg env sched fuel).returned = some (some e)) ∧
    (mainTables = [] →
      (SyncData cfg env sched fuel).events.filter RunEvent.isStartWorker = []) ∧
    (mainTables ≠ [] →
      ((SyncData cfg env sched fuel).events.filter RunEvent.isStartWorker).length
        = workerCount cfg) ∧
    ((workerCount cfg : Int) = max 1 cfg.Workers) := by
  by_cases hne : mainTables = []
  · -- the empty source list: commit and return
    subst hne
    have hform : SyncData cfg env sched fuel =
        match env.commit with
        | some e =>
          ⟨[RunEvent.beginTx none, RunEvent.listMain none, RunEvent.commit (some e),
              RunEvent.rollback],
            some (some ("Commit mainTx (no tables): " ++ e))⟩
        | none =>
          ⟨[RunEvent.beginTx none, RunEvent.listMain none, RunEvent.commit none,
              RunEvent.rollback], some none⟩ := by
      unfold SyncData
      simp only [hb, hm, List.length_nil, if_true]
    rw [hform]
    cases hcm : env.commit with
    | none =>
      simp [List.filterMap_cons, List.filter_cons, RunEvent.syncCall, RunEvent.isCommit,
        RunEvent.isStartWorker, workerCount_eq]
    | some e =>
      simp [List.filterMap_cons, List.filter_cons, RunEvent.syncCall, RunEvent.isCommit,
        RunEvent.isStartWorker, workerCount_eq]
  · obtain ⟨hfin, hA, hB⟩ := pool_outcome env.tableResult sched fuel mainTables
      (workerCount cfg) hret hfuel
    obtain ⟨hpre, hall⟩ := pool_order_outcome env.tableResult sched fuel mainTables
      (workerCount cfg) (workerCount_pos cfg) hfin
    rw [SyncData_reached cfg env sched fuel mainTables standinTables hb hm hne hs, if_pos hfin]
    simp only [List.filterMap_append, List.filter_append, poolEvents_syncCall,
      poolEvents_isCommit, (runEnding_filters env _).1, (runEnding_filters env _).2,
      List.append_nil, List.nil_append, List.length_append, List.length_nil, Nat.add_zero,
      poolEvents_isStartWorker]
    refine ⟨⟨_, rfl⟩, hpre, ?_, ?_, fun h => absurd h hne, fun _ => trivial,
      workerCount_eq cfg⟩
    · intro hok
      cases herr : (runPool env.tableResult sched fuel 0
          ⟨mainTables, List.replicate (workerCount cfg) WorkerState.idle, [], []⟩).1.errCh with
      | cons e rest =>
        obtain ⟨c, hc, hr⟩ := hA e (by rw [herr]; exact List.mem_cons_self _ _)
        exact absurd hr (hok c.2 e (List.mem_map.2 ⟨c, hc, rfl⟩))
      | nil =>
        refine ⟨hall herr, ?_, ?_, ?_⟩
        · unfold runEnding
          rw [herr]
          cases env.commit <;> rfl
        · intro hcm
          unfold runEnding
          rw [herr, hcm]
        · intro e hcm
          unfold runEnding
          rw [herr, hcm]
          exact ⟨_, rfl⟩
    · rintro ⟨t, e0, ht, hres⟩
      obtain ⟨c, hc, rfl⟩ := List.mem_map.1 ht
      have hmem := hB c e0 hc hres
      cases herr : (runPool env.tableResult sched fuel 0
          ⟨mainTables, List.replicate (workerCount cfg) WorkerState.idle, [], []⟩).1.errCh with
      | nil => rw [herr] at hmem; cases hmem
      | cons e rest =>
        obtain ⟨c2, hc2, hr2⟩ := hA e (by rw [herr]; exact List.mem_cons_self _ _)
        refine ⟨?_, c2.2, e, List.mem_map.2 ⟨c2, hc2, rfl⟩, hr2, ?_⟩
        · unfold runEnding
          rw [herr]
          rfl
        · unfold runEnding
          rw [herr]

/-- Three source tables and two workers under the schedule that always
prefers the first worker; the synchronisation of `b` fails: `a` and `b` are
handled by worker 1, which then returns, `c` by worker 2, the error of `b` is
returned and no commit is attempted. `run_outcome` holds there. -/
theorem run_outcome_witness :
    SyncData cleanConfig threeTablesEnv (fun _ => 0) 11 =
      ⟨[RunEvent.beginTx none, RunEvent.listMain none, RunEvent.listStandin none,
        RunEvent.dropTable "DROP TABLE IF EXISTS \"public\".\"x\" CASCADE;"
          (some "permission denied"),
        RunEvent.dropTable "DROP TABLE IF EXISTS \"public\".\"y\" CASCADE;" none,
        RunEvent.startWorker 1, RunEvent.startWorker 2,
        RunEvent.syncTable 1 "a", RunEvent.syncTable 1 "b", RunEvent.syncTable 2 "c",
        RunEvent.rollback], some (some "MIN/MAX failed")⟩ ∧
    (∃ v, (SyncData cleanConfig threeTablesEnv (fun _ => 0) 11).returned = some v) :=
  ⟨by decide,
   (run_outcome cleanConfig threeTablesEnv (fun _ => 0) 11 ["a", "b", "c"] ["b", "x", "y"]
      rfl rfl rfl (by decide) (by decide)).1⟩

/-- Two runs in which no call of `syncTableData` returns an error and
`SyncData` does not return success. In the first the one source table is
synchronised and the commit of the source transaction fails: `SyncData`
returns the commit error. In the second the synchronisation of the one
source table never returns: under every schedule `SyncData` stays in
`wg.Wait()` and never returns. -/
theorem run_outcome_counterexample :
    ((SyncData chunk2Config commitFailsEnv (fun _ => 0) 4).events.filterMap RunEvent.syncCall
      = ["a"] ∧
     commitFailsEnv.tableResult "a" = some none ∧
     (SyncData chunk2Config commitFailsEnv (fun _ => 0) 4).returned
      = some (some "Commit mainTx: connection lost")) ∧
    (hangEnv.tableResult "a" = none ∧
     ∀ (sched : Nat → Nat) (fuel : Nat),
      (SyncData chunk2Config hangEnv sched fuel).returned = none) := by
  refine ⟨⟨by decide, rfl, by decide⟩, rfl, ?_⟩
  intro sched fuel
  rw [SyncData_reached chunk2Config hangEnv sched fuel ["a"] ["a"] rfl rfl (by decide) rfl]
  have hrun : (runPool hangEnv.tableResult sched fuel 0
      ⟨["a"], List.replicate (workerCount chunk2Config) WorkerState.idle, [], []⟩).2
        = false := by
    have hw : List.replicate (workerCount chunk2Config) WorkerState.idle
        = [WorkerState.idle] := by decide
    rw [hw]
    cases fuel with
    | zero =>
      unfold runPool
      simp only [pickWorker_single WorkerState.idle (sched 0) rfl]
    | succ f =>
      unfold runPool
      simp only [pickWorker_single WorkerState.idle (sched 0) rfl]
      exact runPool_hung _ _ _ _ _ ⟨0, "a", rfl, rfl⟩
  rw [hrun]
  rfl

theorem inSlice_iff (sl : List String) (s : String) : inSlice sl s = true ↔ s ∈ sl := by
  induction sl with
  | nil => simp [inSlice]
  | cons x rest ih =>
    unfold inSlice
    by_cases h : x = s
    · simp [h]
    · have h2 : ¬ s = x := fun e => h e.symm
      simp [h, h2, ih]

theorem updateCols_foldl (pkCols columns : List String) (acc : List String) :
    columns.foldl
      (fun acc c =>
        if !inSlice pkCols c then acc ++ ["\"" ++ c ++ "\"=EXCLUDED.\"" ++ c ++ "\""] else acc)
      acc
    = acc ++ (columns.filter (fun c => decide (c ∉ pkCols))).map assignExcluded := by
  induction columns generalizing acc with
  | nil => simp
  | cons c rest ih =>
    rw [List.foldl_cons, ih]
    by_cases h : c ∈ pkCols
    · have h1 : inSlice pkCols c = true := (inSlice_iff pkCols c).2 h
      simp [h, h1, List.filter_cons]
    · have h1 : inSlice pkCols c = false := by
        cases hb : inSlice pkCols c with
        | false => rfl
        | true => exact absurd ((inSlice_iff pkCols c).1 hb) h
      simp [h, h1, List.filter_cons, assignExcluded]

theorem updateCols_eq (columns pkCols : List String) :
    updateCols columns pkCols =
      (columns.filter (fun c => decide (c ∉ pkCols))).map assignExcluded := by
  unfold updateCols
  rw [updateCols_foldl, List.nil_append]

/-- C14. The update clause: `updateCols` holds one assignment from the
incoming (EXCLUDED) value for every column that is no key column, in
column-list order, and none for a key column; so it is empty exactly when
every column is a key column. For a table whose only column is its key the
statement sent ends in `DO UPDATE SET` with nothing after it. -/
theorem update_clause (columns pkCols : List String) :
    updateCols columns pkCols =
      (columns.filter (fun c => decide (c ∉ pkCols))).map assignExcluded ∧
    (updateCols columns pkCols = [] ↔ ∀ c, c ∈ columns → c ∈ pkCols) ∧
    updateCols ["id", "a", "b"] ["id"] = ["\"a\"=EXCLUDED.\"a\"", "\"b\"=EXCLUDED.\"b\""] ∧
    updateCols ["id"] ["id"] = [] ∧
    upsertSQL "public" "t" ["id"] ["id"] 1 =
      "\nINSERT INTO \"public\".\"t\" (\"id\")\nVALUES ($1)\nON CONFLICT (\"id\")\nDO UPDATE SET \n" ∧
    (applyChanges okTx "t" "public" "id" ["id"] ["1"] [] [] [("1", ["1"])]
        ([] : GoMap (List String))).2 =
      [DbEvent.beginTx none,
        DbEvent.upsert (upsertSQL "public" "t" ["id"] ["id"] 1) ["1"] none,
        DbEvent.commit none, DbEvent.rollback] := by
  refine ⟨updateCols_eq columns pkCols, ?_, by decide, by decide, by decide, by decide⟩
  rw [updateCols_eq]
  simp [List.filter_eq_nil_iff]

/-- C15. The loop at the top of the key range: with `maxID` the largest
64-bit value the condition `start <= maxID` holds for every `int64`, so the
loop of `syncTableByChunks` never ends, whatever the chunk size and however
long it runs. For `minID = maxID = 2^63 - 1` and chunk size 1, where the
partition has one interval, the loop goes on to the bottom of the range. -/
theorem chunk_loop_never_ends (chunkSize : Int) (fuel : Nat) :
    (chunkIntervals (2 ^ 63 - 1) (2 ^ 63 - 1) chunkSize fuel).2 = false ∧
    chunkCount (2 ^ 63 - 1) (2 ^ 63 - 1) 1 = 1 ∧
    chunkIntervals (2 ^ 63 - 1) (2 ^ 63 - 1) 1 3 =
      ([(2 ^ 63 - 1, 2 ^ 63 - 1), (-2 ^ 63, -2 ^ 63), (-2 ^ 63 + 1, -2 ^ 63 + 1)], false) := by
  refine ⟨?_, by decide, by decide⟩
  exact chunkFor_maxInt64_runs _ chunkSize fuel 0 (2 ^ 63 - 1) (le_refl _)

/-- C16. Numeric-key detection: for a single key column whose type lookup
succeeds `detectPK` reports numeric exactly when the lower-cased type name
contains "int"; a failed lookup and a composite key are reported non-numeric;
the integer types are reported numeric. The type `interval` is no integer
type and is reported numeric too, so a table with such a key is handed to
`syncTableByChunks`. -/
theorem numeric_detection (cat : PKCatalog) :
    (∀ col dt, catalogPK cat = some [col] → cat.colType col = Except.ok dt →
      (detectPK cat).1 = ([col], containsStr (toLower dt) "int")) ∧
    (∀ col e, catalogPK cat = some [col] → cat.colType col = Except.error e →
      (detectPK cat).1 = ([col], false)) ∧
    (∀ cols, catalogPK cat = some cols → 2 ≤ cols.length → (detectPK cat).1 = (cols, false)) ∧
    (∀ dt, isIntegerType dt = true → containsStr (toLower dt) "int" = true) ∧
    isIntegerType "interval" = false ∧
    containsStr (toLower "interval") "int" = true ∧
    (detectPK intervalCatalog).1 = (["d"], true) ∧
    (syncTableData chunk2Config intervalCatalog).1 = Strategy.byChunks "d" := by
  refine ⟨?_, ?_, ?_, ?_, by decide, by decide, by decide, by decide⟩
  · intro col dt hpk hty
    rw [detectPK_result, hpk]
    simp [catalogNumeric, hpk, hty, containsStr_eq]
  · intro col e hpk hty
    rw [detectPK_result, hpk]
    simp [catalogNumeric, hpk, hty]
  · intro cols hpk hlen
    rw [detectPK_result, hpk]
    match cols, hlen with
    | _ :: _ :: _, _ => simp [catalogNumeric, hpk]
  · intro dt h
    simp only [isIntegerType, decide_eq_true_eq, List.mem_cons, List.mem_singleton,
      List.not_mem_nil, or_false] at h
    rcases h with h | h | h <;> (subst h; decide)

end PgSyncer
